import Mathlib

/-!
# Verification of the CPM scheduling engine

Shallow embedding of the three coexisting Critical Path Method implementations
of the repository:

* `CpmApp`  — `cpm-app/src/lib/utils/cpm.ts` (topological order, cycle detection);
* `CpmFix`  — `src/lib/utils/cpm.ts` (fixed-point relaxation loops);
* `CpmCalc` — `src/lib/utils/cpmCalculator.ts` (activity records mutated in
  place, plus the exhaustive path enumeration `findAllPaths`).

JavaScript objects used as string-keyed tables are modelled as association
lists (`List (String × α)`); assignment to an object key replaces the existing
entry or appends a fresh one, matching insertion-order iteration of `for..in`
and `Object.values`.  JavaScript exceptions (`throw`, `TypeError` on an
`undefined` dereference) are modelled with `Except`.  Numbers are `Int`
(durations are integers in the data model); `Math.max()` of an empty spread is
`-Infinity`, modelled by `WithBot Int` at the single place it can occur.
Recursive traversals carry fuel, structurally recursive so that concrete runs
reduce; separate adequacy theorems show the chosen fuel can never run out, so
the `fuelExhausted` outcome is an artefact of the embedding, not of the
program.
-/

set_option maxHeartbeats 1000000

namespace CPM

instance {ε α : Type} [DecidableEq ε] [DecidableEq α] : DecidableEq (Except ε α) :=
  fun a b =>
    match a, b with
    | .ok x, .ok y => if h : x = y then .isTrue (by rw [h]) else .isFalse (by simp [h])
    | .error x, .error y => if h : x = y then .isTrue (by rw [h]) else .isFalse (by simp [h])
    | .ok _, .error _ => .isFalse (by simp)
    | .error _, .ok _ => .isFalse (by simp)

/-- Lookup in an association list (first entry wins; every table the engine
builds binds each key at most once). -/
def lookupA {α : Type} : List (String × α) → String → Option α
  | [], _ => none
  | (k, v) :: rest, key => if k = key then some v else lookupA rest key

/-- Update the entries of a key in place, keeping table order. -/
def updk {α : Type} (m : List (String × α)) (key : String) (f : α → α) :
    List (String × α) :=
  m.map fun p => if p.1 = key then (p.1, f p.2) else p

/-- JS `obj[key] = v` / `Map.set`: overwrite an existing binding, otherwise
append a fresh one (keys iterate in insertion order). -/
def objSet {α : Type} (m : List (String × α)) (key : String) (v : α) :
    List (String × α) :=
  if (lookupA m key).isSome then updk m key (fun _ => v) else m ++ [(key, v)]

/-- Loop `for (x of xs) acc = f(x, acc)` in a JS function whose body can
throw. -/
def foldListE {α β : Type} (f : α → β → Except ε β) : List α → β → Except ε β
  | [], acc => .ok acc
  | x :: xs, acc => do
    let acc' ← f x acc
    foldListE f xs acc'

/-- The same loop shape for the fuelled enumeration helpers. -/
def foldListO {α β : Type} (f : α → β → Option β) : List α → β → Option β
  | [], acc => some acc
  | x :: xs, acc => do
    let acc' ← f x acc
    foldListO f xs acc'

/-- A task as in `lib/types/project.ts` (engine-relevant fields). -/
structure Task where
  id : String
  name : String
  duration : Int
  dependencies : List String
deriving DecidableEq, Repr

/-- Per-task CPM output record (`CPMResult` in `lib/types/project.ts`). -/
structure CPMResult where
  taskId : String
  earliestStart : Int
  earliestFinish : Int
  latestStart : Int
  latestFinish : Int
  slack : Int
  isCritical : Bool
deriving DecidableEq, Repr

/-- Outcomes with which a run of the engine can abort: the explicit
`throw new Error("Cycle detected … involving task: <id>")`, a JS `TypeError`
from dereferencing `undefined`, and the embedding-only fuel sentinel. -/
inductive JsError where
  | cycleDetected (taskId : String)
  | typeError
  | fuelExhausted
deriving DecidableEq, Repr

/-- `Math.max(...xs)`: `-Infinity` on the empty spread. -/
def listMaxBot (l : List Int) : WithBot Int :=
  l.foldl (fun m x => max m (x : WithBot Int)) ⊥

namespace CpmApp

/-! ## `cpm-app/src/lib/utils/cpm.ts` -/

/-- `earliestTimes` table entry. -/
structure ETimes where
  earliestStart : Int
  earliestFinish : Int
deriving DecidableEq, Repr

/-- `latestTimes` table entry. -/
structure LTimes where
  latestStart : Int
  latestFinish : Int
deriving DecidableEq, Repr

/-- `ProjectCPMResults` of `lib/types/project.ts`; `projectDuration` is
`WithBot Int` because `Math.max(...[])` is `-Infinity`. -/
structure ProjectCPMResults where
  projectId : String
  projectDuration : WithBot Int
  criticalPath : List String
  taskResults : List (String × CPMResult)
deriving DecidableEq

/-- `taskMap`: `tasks.forEach(task => taskMap.set(task.id, task))`. -/
def taskMapOf (tasks : List Task) : List (String × Task) :=
  tasks.foldl (fun m t => objSet m t.id t) []

/-- State of the depth-first traversal in `topologicalSort`: the `visiting` and
`visited` sets and the `result` array.  `result` holds `Option Task` because
`result.push(task!)` pushes `undefined` when `taskMap.get(taskId)` missed. -/
structure DfsState where
  visiting : List String
  visited : List String
  result : List (Option Task)
deriving DecidableEq, Repr

/-- The inner `visit` closure of `topologicalSort`; the recursion
`for (const depId of task.dependencies) visit(depId)` is the `foldListE`. -/
def visit (tm : List (String × Task)) : Nat → String → DfsState →
    Except JsError DfsState
  | 0 => fun _ _ => .error .fuelExhausted
  | fuel + 1 => fun taskId s =>
    if taskId ∈ s.visited then .ok s
    else if taskId ∈ s.visiting then .error (.cycleDetected taskId)
    else
      let s1 : DfsState := { s with visiting := taskId :: s.visiting }
      match lookupA tm taskId with
      | some task => do
        let s2 ← foldListE (visit tm fuel) task.dependencies s1
        .ok ⟨s2.visiting.erase taskId, taskId :: s2.visited, s2.result ++ [some task]⟩
      | none =>
        .ok ⟨s1.visiting.erase taskId, taskId :: s1.visited, s1.result ++ [none]⟩

/-- The outer driver loop of `topologicalSort`. -/
def topoGo (tm : List (String × Task)) (fuel : Nat) :
    List Task → DfsState → Except JsError DfsState
  | [], s => .ok s
  | t :: ts, s => do
    let s' ← if t.id ∈ s.visited then .ok s else visit tm fuel t.id s
    topoGo tm fuel ts s'

/-- `topologicalSort(tasks, taskMap)`.  The JS recursion carries no fuel; the
recursion depth is bounded by the number of distinct present ids plus one, so
`tm.length + 1` fuel is enough (see the adequacy theorem below). -/
def topologicalSort (tasks : List Task) (tm : List (String × Task)) :
    Except JsError (List (Option Task)) := do
  let s ← topoGo tm (tm.length + 1) tasks ⟨[], [], []⟩
  .ok s.result

/-- First loop of `calculateEarliestTimes`: initialise every entry to `{0, 0}`;
dereferencing an `undefined` array element is a `TypeError`. -/
def initET : List (Option Task) → List (String × ETimes) →
    Except JsError (List (String × ETimes))
  | [], acc => .ok acc
  | none :: _, _ => .error .typeError
  | some t :: rest, acc => initET rest (objSet acc t.id ⟨0, 0⟩)

/-- `maxPredecessorEF`: fold over the dependencies, skipping ids without a
table entry, starting from `0`. -/
def maxDepEF (deps : List String) (acc : List (String × ETimes)) : Int :=
  deps.foldl (fun m d =>
    match lookupA acc d with
    | some r => if r.earliestFinish > m then r.earliestFinish else m
    | none => m) 0

/-- Body of the second loop of `calculateEarliestTimes` for one task. -/
def stepET (acc : List (String × ETimes)) (t : Task) : List (String × ETimes) :=
  let acc1 :=
    if t.dependencies.length > 0 then
      updk acc t.id (fun r => { r with earliestStart := maxDepEF t.dependencies acc })
    else acc
  updk acc1 t.id (fun r => { r with earliestFinish := r.earliestStart + t.duration })

/-- Second loop of `calculateEarliestTimes` (tasks in topological order). -/
def mainET : List (Option Task) → List (String × ETimes) →
    Except JsError (List (String × ETimes))
  | [], acc => .ok acc
  | none :: _, _ => .error .typeError
  | some t :: rest, acc => mainET rest (stepET acc t)

/-- `calculateEarliestTimes(tasks, taskMap)` (the `taskMap` parameter is unused
by the JS body as well). -/
def calculateEarliestTimes (sorted : List (Option Task))
    (_tm : List (String × Task)) : Except JsError (List (String × ETimes)) := do
  let acc ← initET sorted []
  mainET sorted acc

/-- `successors[task.id] = []` initialisation loop. -/
def initSucc : List (Option Task) → List (String × List String) →
    Except JsError (List (String × List String))
  | [], acc => .ok acc
  | none :: _, _ => .error .typeError
  | some t :: rest, acc => initSucc rest (objSet acc t.id [])

/-- `successors[depId].push(task.id)` for the dependencies of one task;
`successors[depId]` being `undefined` makes `push` a `TypeError`. -/
def pushSuccs (tid : String) : List String → List (String × List String) →
    Except JsError (List (String × List String))
  | [], acc => .ok acc
  | d :: ds, acc =>
    if (lookupA acc d).isSome then
      pushSuccs tid ds (updk acc d (fun l => l ++ [tid]))
    else .error .typeError

/-- Successor-filling loop of `calculateLatestTimes`. -/
def fillSucc : List (Option Task) → List (String × List String) →
    Except JsError (List (String × List String))
  | [], acc => .ok acc
  | none :: _, _ => .error .typeError
  | some t :: rest, acc => do
    let acc' ← pushSuccs t.id t.dependencies acc
    fillSucc rest acc'

/-- Initialise every latest-times entry to the project duration. -/
def initLT (pd : Int) : List (Option Task) → List (String × LTimes) →
    Except JsError (List (String × LTimes))
  | [], acc => .ok acc
  | none :: _, _ => .error .typeError
  | some t :: rest, acc => initLT pd rest (objSet acc t.id ⟨pd, pd⟩)

/-- `minSuccessorLS`: fold starting from `Infinity` (modelled by `none`),
skipping successor ids without a table entry. -/
def minSuccLS (succs : List String) (acc : List (String × LTimes)) : Option Int :=
  succs.foldl (fun m sid =>
    match lookupA acc sid with
    | some r =>
      match m with
      | none => some r.latestStart
      | some v => if r.latestStart < v then some r.latestStart else m
    | none => m) none

/-- Body of the reverse loop of `calculateLatestTimes` for one task. -/
def stepLT (pd : Int) (succMap : List (String × List String))
    (acc : List (String × LTimes)) (t : Task) :
    Except JsError (List (String × LTimes)) :=
  match lookupA succMap t.id with
  | none => .error .typeError
  | some succs =>
    let acc1 :=
      if succs.length > 0 then
        match minSuccLS succs acc with
        | some v => updk acc t.id (fun r => { r with latestFinish := v })
        | none => acc
        -- `none` is unreachable here: every id pushed into the successor map is
        -- the id of a sorted task, and the table is keyed by all sorted tasks;
        -- JS would store `Infinity` at this point.
      else
        updk acc t.id (fun r => { r with latestFinish := pd })
    .ok (updk acc1 t.id (fun r => { r with latestStart := r.latestFinish - t.duration }))

/-- `for (let i = tasks.length - 1; i >= 0; i--)`: the caller passes the
reversed sorted list. -/
def revLT (pd : Int) (succMap : List (String × List String)) :
    List (Option Task) → List (String × LTimes) →
    Except JsError (List (String × LTimes))
  | [], acc => .ok acc
  | none :: _, _ => .error .typeError
  | some t :: rest, acc => do
    let acc' ← stepLT pd succMap acc t
    revLT pd succMap rest acc'

/-- `calculateLatestTimes(tasks, taskMap, projectDuration)`. -/
def calculateLatestTimes (sorted : List (Option Task))
    (_tm : List (String × Task)) (pd : Int) :
    Except JsError (List (String × LTimes)) := do
  let succ0 ← initSucc sorted []
  let succ ← fillSucc sorted succ0
  let acc0 ← initLT pd sorted []
  revLT pd succ sorted.reverse acc0

/-- Slack table entry. -/
structure SlackRes where
  slack : Int
  isCritical : Bool
deriving DecidableEq, Repr

/-- `calculateSlack(earliestTimes, latestTimes)`.  The default on a missed
latest-times lookup is dead code: both tables are keyed by the same sorted
tasks in every call (JS would raise a `TypeError` there). -/
def calculateSlack (et : List (String × ETimes)) (lt : List (String × LTimes)) :
    List (String × SlackRes) :=
  et.foldl (fun acc p =>
    let l := (lookupA lt p.1).getD ⟨0, 0⟩
    let s := l.latestStart - p.2.earliestStart
    objSet acc p.1 ⟨s, decide (s = 0)⟩) []

/-- `calculateTaskResults(earliestTimes, latestTimes)` (same dead defaults). -/
def calculateTaskResults (et : List (String × ETimes))
    (lt : List (String × LTimes)) : List (String × CPMResult) :=
  let sl := calculateSlack et lt
  et.foldl (fun acc p =>
    let l := (lookupA lt p.1).getD ⟨0, 0⟩
    let s := (lookupA sl p.1).getD ⟨0, false⟩
    objSet acc p.1
      ⟨p.1, p.2.earliestStart, p.2.earliestFinish, l.latestStart, l.latestFinish,
        s.slack, s.isCritical⟩) []

/-- `findCriticalPath(cpmResults)`. -/
def findCriticalPath (res : List (String × CPMResult)) : List String :=
  ((res.map Prod.snd).filter (fun r => r.isCritical)).map (fun r => r.taskId)

/-- `calculateCPM(tasks, projectId)`.  The backward pass reads the project
duration only when a task exists, in which case `pd` is finite; the `0`
default for the empty table is therefore dead code. -/
def calculateCPM (tasks : List Task) (projectId : String) :
    Except JsError ProjectCPMResults := do
  let tm := taskMapOf tasks
  let sorted ← topologicalSort tasks tm
  let et ← calculateEarliestTimes sorted tm
  let pd : WithBot Int := listMaxBot ((et.map Prod.snd).map (fun r => r.earliestFinish))
  let lt ← calculateLatestTimes sorted tm (pd.unbot' 0)
  let res := calculateTaskResults et lt
  .ok ⟨projectId, pd, findCriticalPath res, res⟩

end CpmApp

/-- Stable insertion into a sorted list: a new element goes after every element
it ties with.  `le y x` means `y` may stay in front of `x`. -/
def insertStable {α : Type} (le : α → α → Bool) (x : α) : List α → List α
  | [] => [x]
  | y :: ys => if le y x then y :: insertStable le x ys else x :: y :: ys

/-- Stable sort, modelling `Array.prototype.sort` with a comparator: a stable
sort's output is determined by the comparator and the input order, so this
agrees with the JS engine's stable sort. -/
def sortStable {α : Type} (le : α → α → Bool) (l : List α) : List α :=
  l.foldl (fun acc x => insertStable le x acc) []

namespace CpmFix

/-! ## `src/lib/utils/cpm.ts` (fixed-point relaxation) -/

/-- A `{ start, finish }` table entry. -/
structure SF where
  start : Int
  finish : Int
deriving DecidableEq, Repr

/-- `CPMResults` of `src/lib/types/project.ts`. -/
structure CPMResults where
  results : List (String × CPMResult)
  criticalPath : List String
  projectDuration : Int
deriving DecidableEq, Repr

/-- Initialisation loop of `calculateEarliestTimes`:
`results[task.id] = { start: 0, finish: task.duration }`. -/
def initEF (tasks : List Task) : List (String × SF) :=
  tasks.foldl (fun acc t => objSet acc t.id ⟨0, t.duration⟩) []

/-- `maxPredecessorFinish`: fold over the dependencies with a guarded lookup
(`if (results[depId] && …)`), starting from `0`. -/
def maxPredFinish (deps : List String) (res : List (String × SF)) : Int :=
  deps.foldl (fun m d =>
    match lookupA res d with
    | some r => if r.finish > m then r.finish else m
    | none => m) 0

/-- One task's body inside the forward relaxation round; the Boolean is the
`changed` flag. -/
def fwdStep (p : List (String × SF) × Bool) (t : Task) :
    List (String × SF) × Bool :=
  let m := maxPredFinish t.dependencies p.1
  let cur := (lookupA p.1 t.id).getD ⟨0, 0⟩
  -- the default is dead code: the table was initialised for every task
  if m > cur.start then (updk p.1 t.id (fun _ => ⟨m, m + t.duration⟩), true)
  else p

/-- One `tasks.forEach(…)` round of the forward `while (changed)` loop. -/
def fwdRound (tasks : List Task) (res : List (String × SF)) :
    List (String × SF) × Bool :=
  tasks.foldl fwdStep (res, false)

/-- The forward `while (changed)` loop, fuelled: `none` means the loop has not
reached a fixed point within `fuel` rounds (the JS loop would still be
running). -/
def fwdLoop (tasks : List Task) : Nat → List (String × SF) →
    Option (List (String × SF))
  | 0, _ => none
  | fuel + 1, res =>
    let r := fwdRound tasks res
    if r.2 then fwdLoop tasks fuel r.1 else some r.1

/-- `calculateEarliestTimes(tasks)`, fuelled. -/
def calculateEarliestTimes (fuel : Nat) (tasks : List Task) :
    Option (List (String × SF)) :=
  fwdLoop tasks fuel (initEF tasks)

/-- Initialisation loop of `calculateLatestTimes`:
`{ finish: maxDuration, start: maxDuration - task.duration }`. -/
def initLF (maxD : Int) (tasks : List Task) : List (String × SF) :=
  tasks.foldl (fun acc t => objSet acc t.id ⟨maxD - t.duration, maxD⟩) []

/-- `taskOrder`: the tasks sorted by descending earliest finish
(`(a, b) => bEF - aEF`); the stable comparator order of the JS sort.  The
lookup default is dead code: the earliest-times table is keyed by every
task. -/
def taskOrder (tasks : List Task) (et : List (String × SF)) : List Task :=
  sortStable
    (fun a b => ((lookupA et b.id).getD ⟨0, 0⟩).finish ≤ ((lookupA et a.id).getD ⟨0, 0⟩).finish)
    tasks

/-- `Number.MAX_SAFE_INTEGER`. -/
def maxSafeInt : Int := 9007199254740991

/-- One task's body inside the backward relaxation round. -/
def bwdStep (tasks : List Task) (p : List (String × SF) × Bool) (t : Task) :
    List (String × SF) × Bool :=
  let succs := tasks.filter (fun s => t.id ∈ s.dependencies)
  if succs.length > 0 then
    let minS := succs.foldl (fun m s =>
      let r := (lookupA p.1 s.id).getD ⟨0, 0⟩
      -- dead default again: every task has a table entry
      if r.start < m then r.start else m) maxSafeInt
    let newF := minS
    let newS := newF - t.duration
    let cur := (lookupA p.1 t.id).getD ⟨0, 0⟩
    if newF < cur.finish then (updk p.1 t.id (fun _ => ⟨newS, newF⟩), true)
    else p
  else p

/-- One round of the backward `while (changed)` loop over `taskOrder`. -/
def bwdRound (tasks order : List Task) (res : List (String × SF)) :
    List (String × SF) × Bool :=
  order.foldl (bwdStep tasks) (res, false)

/-- The backward `while (changed)` loop, fuelled. -/
def bwdLoop (tasks order : List Task) : Nat → List (String × SF) →
    Option (List (String × SF))
  | 0, _ => none
  | fuel + 1, res =>
    let r := bwdRound tasks order res
    if r.2 then bwdLoop tasks order fuel r.1 else some r.1

/-- `calculateLatestTimes(tasks, earliestTimes, maxDuration)`, fuelled. -/
def calculateLatestTimes (fuel : Nat) (tasks : List Task)
    (et : List (String × SF)) (maxD : Int) : Option (List (String × SF)) :=
  bwdLoop tasks (taskOrder tasks et) fuel (initLF maxD tasks)

/-- `calculateSlack(earliestTimes, latestTimes)` (iterates the keys of the
earliest-times table; the latest-times table is keyed identically). -/
def calculateSlack (et lt : List (String × SF)) : List (String × Int) :=
  et.foldl (fun acc p =>
    objSet acc p.1 (((lookupA lt p.1).getD ⟨0, 0⟩).start - p.2.start)) []

/-- `findCriticalPath(tasks, slack)`. -/
def findCriticalPath (tasks : List Task) (slack : List (String × Int)) :
    List String :=
  (tasks.filter (fun t => lookupA slack t.id = some 0)).map (fun t => t.id)

/-- `maxDuration`: fold `if (time.finish > maxDuration)` starting from `0`. -/
def maxDurationOf (et : List (String × SF)) : Int :=
  (et.map Prod.snd).foldl (fun m r => if r.finish > m then r.finish else m) 0

/-- `calculateCPM(tasks)`, fuelled through both relaxation loops. -/
def calculateCPM (fuel : Nat) (tasks : List Task) : Option CPMResults := do
  let et ← calculateEarliestTimes fuel tasks
  let maxD := maxDurationOf et
  let lt ← calculateLatestTimes fuel tasks et maxD
  let slack := calculateSlack et lt
  let cp := findCriticalPath tasks slack
  let res := tasks.foldl (fun acc t =>
    let e := (lookupA et t.id).getD ⟨0, 0⟩
    let l := (lookupA lt t.id).getD ⟨0, 0⟩
    objSet acc t.id
      ⟨t.id, e.start, e.finish, l.start, l.finish,
        (lookupA slack t.id).getD 0, decide (t.id ∈ cp)⟩) []
  some ⟨res, cp, maxD⟩

end CpmFix

namespace CpmCalc

/-! ## `src/lib/utils/cpmCalculator.ts`

The functions of this file mutate the `Activity` records in place.  The
embedding threads the list of records (the "store") through the passes: a JS
object mutation becomes an update of every store record with that id, which
coincides with the aliasing semantics whenever ids are unique, as the data
model requires. -/

/-- An activity as in `src/lib/types/cpm.ts` (engine-relevant fields; the
presentation/persistence fields `description`, `projectId`, `createdAt`,
`updatedAt` are not read or written by the calculator). -/
structure Activity where
  id : String
  name : String
  duration : Int
  predecessors : List String
  earliestStart : Int
  earliestFinish : Int
  latestStart : Int
  latestFinish : Int
  slack : Int
  isCritical : Bool
deriving DecidableEq, Repr

/-- A project (engine-relevant field only; the calculator reads nothing but
`project.activities`). -/
structure Project where
  activities : List Activity
deriving DecidableEq, Repr

/-- `CPMResult` of `src/lib/types/cpm.ts`.  `projectDuration` is
`WithBot Int` because `Math.max(...[])` is `-Infinity` on an empty project. -/
structure CPMResultC where
  criticalPath : List String
  projectDuration : WithBot Int
  activities : List Activity
deriving DecidableEq, Repr

/-- `activityMap.get(id)`: the map is filled by `forEach`+`set`, so the last
record with the id wins. -/
def mapGet (acts : List Activity) (aid : String) : Option Activity :=
  acts.foldl (fun acc a => if a.id = aid then some a else acc) none

/-- Mutation of the activity object with a given id. -/
def updAct (acts : List Activity) (aid : String) (f : Activity → Activity) :
    List Activity :=
  acts.map fun a => if a.id = aid then f a else a

/-- DFS state of `topologicalSort`: the `visited` set and the `result`
array. -/
structure DfsStateC where
  visited : List String
  result : List Activity
deriving DecidableEq, Repr

/-- The inner `visit` closure of `topologicalSort`: marks at entry, silently
skips ids without an activity, performs no cycle check. -/
def visitC (acts : List Activity) : Nat → String → DfsStateC → Option DfsStateC
  | 0 => fun _ _ => none
  | fuel + 1 => fun aid s =>
    if aid ∈ s.visited then some s
    else
      let s1 : DfsStateC := { s with visited := aid :: s.visited }
      match mapGet acts aid with
      | none => some s1
      | some a => do
        let s2 ← foldListO (visitC acts fuel) a.predecessors s1
        some { s2 with result := s2.result ++ [a] }

/-- The outer driver loop of `topologicalSort`. -/
def topoGoC (acts : List Activity) (fuel : Nat) :
    List Activity → DfsStateC → Option DfsStateC
  | [], s => some s
  | a :: rest, s => do
    let s' ← if a.id ∈ s.visited then some s else visitC acts fuel a.id s
    topoGoC acts fuel rest s'

/-- `topologicalSort(activities)`; as before, `length + 1` fuel covers the
recursion depth. -/
def topologicalSort (acts : List Activity) : Option (List Activity) := do
  let s ← topoGoC acts (acts.length + 1) acts ⟨[], []⟩
  some s.result

/-- The reset loop of `forwardPass`. -/
def resetFwd (acts : List Activity) : List Activity :=
  acts.map fun a => { a with earliestStart := 0, earliestFinish := 0 }

/-- Body of the compute loop of `forwardPass` for one activity id.  The
missing-id default is dead code: the iterated ids are ids of store records. -/
def fwdStepC (store : List Activity) (aid : String) : List Activity :=
  match mapGet store aid with
  | none => store
  | some a =>
    let es :=
      if a.predecessors.length > 0 then
        a.predecessors.foldl (fun m pid =>
          match mapGet store pid with
          | some p => if p.earliestFinish > m then p.earliestFinish else m
          | none => m) 0
      else 0
    updAct store aid
      (fun x => { x with earliestStart := es, earliestFinish := es + x.duration })

/-- `forwardPass(activities)`: reset, then one scan in array order. -/
def forwardPass (acts : List Activity) : List Activity :=
  let acts0 := resetFwd acts
  (acts0.map (fun a => a.id)).foldl fwdStepC acts0

/-- The reset loop of `backwardPass`. -/
def resetBwd (pd : Int) (acts : List Activity) : List Activity :=
  acts.map fun a =>
    { a with latestFinish := pd, latestStart := 0, slack := 0, isCritical := false }

/-- `activitySuccessors` initialisation (`set(id, [])` for every activity). -/
def initSuccC (acts : List Activity) : List (String × List String) :=
  acts.foldl (fun m a => objSet m a.id []) []

/-- The successor-map build shared verbatim by `backwardPass` and
`findAllPaths`: `get(predecessorId) || []`, `push`, `set`. -/
def buildSuccC (acts : List Activity) : List (String × List String) :=
  acts.foldl (fun m a =>
    a.predecessors.foldl (fun m' pid =>
      objSet m' pid (((lookupA m' pid).getD []) ++ [a.id])) m)
    (initSuccC acts)

/-- Body of the reverse loop of `backwardPass` for one activity id. -/
def bwdStepC (pd : Int) (succMap : List (String × List String))
    (store : List Activity) (aid : String) : List Activity :=
  match mapGet store aid with
  | none => store
  | some a =>
    let succs := (lookupA succMap a.id).getD []
    let lf :=
      if succs.length = 0 then pd
      else
        match succs.map (fun sid =>
          match mapGet store sid with
          | some s => s.latestStart
          | none => pd) with
        | [] => pd
        -- dead: this branch has `succs` non-empty (JS `Math.min()` is Infinity)
        | v :: vs => vs.foldl min v
    updAct store aid (fun x =>
      let ls := lf - x.duration
      let sl := ls - x.earliestStart
      { x with latestFinish := lf, latestStart := ls, slack := sl,
               isCritical := decide (sl = 0) })

/-- `backwardPass(activities)`: computes the project duration (`Math.max` of
the earliest finishes), resets, builds the successor map and scans in reverse
array order; returns the duration and the mutated store.  The `0` passed to
the per-activity updates is dead code when the store is empty. -/
def backwardPass (acts : List Activity) : WithBot Int × List Activity :=
  let pdW := listMaxBot (acts.map (fun a => a.earliestFinish))
  let pd := pdW.unbot' 0
  let store := resetBwd pd acts
  let succMap := buildSuccC acts
  let store' := ((acts.map (fun a => a.id)).reverse).foldl (bwdStepC pd succMap) store
  (pdW, store')

/-- `findCriticalPath(activities)`. -/
def findCriticalPathC (acts : List Activity) : List Activity :=
  acts.filter (fun a => a.isCritical)

/-- `calculateCPM(project)`: array copy, topological order, both passes; the
result's `activities` are the same (now mutated) records. -/
def calculateCPM (p : Project) : Option CPMResultC := do
  let activities := p.activities
  let ordered ← topologicalSort activities
  let fwd := forwardPass ordered
  let pr := backwardPass fwd
  let criticalPath := findCriticalPathC pr.2
  some ⟨criticalPath.map (fun a => a.id), pr.1, pr.2⟩

/-- The caller's `project.activities` array after `calculateCPM` returns: the
array itself is copied, but each element aliases the engine's record with the
same id (ids are unique in the data model), so its post-call fields are those
of the final store. -/
def inputAfterRun (p : Project) : Option (List Activity) :=
  (calculateCPM p).map fun r =>
    p.activities.map (fun a => (mapGet r.activities a.id).getD a)

/-- The recursive `findPaths` helper of `findAllPaths`, fuelled. -/
def findPathsC (acts : List Activity) (succMap : List (String × List String)) :
    Nat → Activity → List Activity → List (List Activity) →
    Option (List (List Activity))
  | 0 => fun _ _ _ => none
  | fuel + 1 => fun a cur all =>
    let path := cur ++ [a]
    let succs := (lookupA succMap a.id).getD []
    if succs.length = 0 then some (all ++ [path])
    else
      foldListO (fun sid all' =>
        match mapGet acts sid with
        | none => some all'
        | some sa => findPathsC acts succMap fuel sa path all') succs all

/-- `findAllPaths(project)`: depth-first enumeration from every activity
without predecessors.  (The JS body also computes an `endActivities` list it
never uses.) -/
def findAllPaths (fuel : Nat) (p : Project) : Option (List (List Activity)) :=
  let succMap := buildSuccC p.activities
  let startActivities := p.activities.filter (fun a => a.predecessors.length = 0)
  foldListO (fun s all => findPathsC p.activities succMap fuel s [] all)
    startActivities []

end CpmCalc

/-! ## Concrete inputs used by the claims -/

/-- The six-task scenario of the specification (§8). -/
def exTasks : List Task :=
  [⟨"A", "A", 3, []⟩, ⟨"B", "B", 2, ["A"]⟩, ⟨"C", "C", 4, ["A"]⟩,
   ⟨"D", "D", 2, ["B", "C"]⟩, ⟨"E", "E", 3, ["C"]⟩, ⟨"F", "F", 1, ["D", "E"]⟩]

/-- A single task with a dependency entry naming no supplied task. -/
def danglingTasks : List Task := [⟨"a", "a", 1, ["ghost"]⟩]

/-- A two-task dependency cycle with zero durations. -/
def zeroCycleTasks : List Task :=
  [⟨"X", "X", 0, ["Y"]⟩, ⟨"Y", "Y", 0, ["X"]⟩]

/-- A two-task dependency cycle with positive durations. -/
def posCycleTasks : List Task :=
  [⟨"X", "X", 1, ["Y"]⟩, ⟨"Y", "Y", 1, ["X"]⟩]

/-- A field of the task-result record of the topological-order implementation,
on the scenario input. -/
def c3AppField (f : CPMResult → Int) (tid : String) : Option Int :=
  match CpmApp.calculateCPM exTasks "" with
  | .ok r => (lookupA r.taskResults tid).map f
  | .error _ => none

/-- The project duration of the topological-order implementation on the
scenario input. -/
def c3AppPD : Option (WithBot Int) :=
  match CpmApp.calculateCPM exTasks "" with
  | .ok r => some r.projectDuration
  | .error _ => none

/-- The critical path of the topological-order implementation on the scenario
input. -/
def c3AppCP : Option (List String) :=
  match CpmApp.calculateCPM exTasks "" with
  | .ok r => some r.criticalPath
  | .error _ => none

/-- A field of the task-result record of the fixed-point implementation, on
the scenario input (two relaxation rounds per pass are ample). -/
def c3FixField (f : CPMResult → Int) (tid : String) : Option Int :=
  match CpmFix.calculateCPM 10 exTasks with
  | some r => (lookupA r.results tid).map f
  | none => none

/-- Project duration and critical path of the fixed-point implementation on
the scenario input. -/
def c3FixPDCP : Option (Int × List String) :=
  match CpmFix.calculateCPM 10 exTasks with
  | some r => some (r.projectDuration, r.criticalPath)
  | none => none

/-- The claim's expected values on the scenario, parametrised by the expected
slacks of `B` and `D` (the only values in dispute). -/
def c3Values (slackB slackD : Int) : Prop :=
  c3AppPD = some (11 : WithBot Int) ∧
  c3AppCP = some ["A", "C", "E", "F"] ∧
  c3AppField (fun c => c.slack) "B" = some slackB ∧
  c3AppField (fun c => c.slack) "D" = some slackD ∧
  c3AppField (fun c => c.earliestStart) "A" = some 0 ∧
  c3AppField (fun c => c.earliestFinish) "A" = some 3 ∧
  c3AppField (fun c => c.earliestStart) "C" = some 3 ∧
  c3AppField (fun c => c.earliestFinish) "C" = some 7 ∧
  c3AppField (fun c => c.earliestStart) "E" = some 7 ∧
  c3AppField (fun c => c.earliestFinish) "E" = some 10 ∧
  c3AppField (fun c => c.earliestStart) "F" = some 10 ∧
  c3AppField (fun c => c.earliestFinish) "F" = some 11 ∧
  c3FixPDCP = some (11, ["A", "C", "E", "F"]) ∧
  c3FixField (fun c => c.slack) "B" = some slackB ∧
  c3FixField (fun c => c.slack) "D" = some slackD ∧
  c3FixField (fun c => c.earliestStart) "A" = some 0 ∧
  c3FixField (fun c => c.earliestFinish) "A" = some 3 ∧
  c3FixField (fun c => c.earliestStart) "C" = some 3 ∧
  c3FixField (fun c => c.earliestFinish) "C" = some 7 ∧
  c3FixField (fun c => c.earliestStart) "E" = some 7 ∧
  c3FixField (fun c => c.earliestFinish) "E" = some 10 ∧
  c3FixField (fun c => c.earliestStart) "F" = some 10 ∧
  c3FixField (fun c => c.earliestFinish) "F" = some 11

instance (slackB slackD : Int) : Decidable (c3Values slackB slackD) := by
  unfold c3Values
  infer_instance

/-- C3, counterexample: on the six-task scenario the engine does **not**
compute `slack(B) = 2` and `slack(D) = 2`; the claimed value set is false. -/
theorem c3_stated_values_false : ¬ c3Values 2 2 := by decide

/-- C3 (amended): on the six-task scenario both implementations return
`projectDuration = 11`, critical path `[A, C, E, F]`, the claimed ES/EF
values, and `slack(B) = 3`, `slack(D) = 1`. -/
theorem c3_scenario_values : c3Values 3 1 := by decide

/-- C4: the claim says a dangling dependency id is ignored and the engine
completes normally, but `topologicalSort` pushes `undefined` for the dangling
id (`result.push(task!)`) and the forward pass crashes dereferencing it; the
fixed-point implementation meanwhile does treat the edge as contributing 0. -/
theorem c4_dangling_crashes :
    CpmApp.calculateCPM danglingTasks "" = .error .typeError ∧
    (CpmFix.calculateCPM 2 danglingTasks).map (fun r => r.projectDuration) = some 1 := by
  decide

/-- C10: on the empty collection `calculateCPM` returns normally with empty
tables and `projectDuration = -Infinity` (`Math.max()` of no arguments), which
is not `0`. -/
theorem c10_empty_input :
    CpmApp.calculateCPM [] "" = .ok ⟨"", ⊥, [], []⟩ ∧
    (⊥ : WithBot Int) ≠ ((0 : Int) : WithBot Int) := by decide

/-! ### Association-list table lemmas -/

/-- The keys of a table. -/
def keysA {α : Type} (m : List (String × α)) : List String :=
  m.map Prod.fst

@[simp] theorem lookupA_nil {α : Type} (key : String) :
    lookupA ([] : List (String × α)) key = none := rfl

@[simp] theorem lookupA_cons {α : Type} (a : String) (v : α)
    (rest : List (String × α)) (key : String) :
    lookupA ((a, v) :: rest) key = if a = key then some v else lookupA rest key :=
  rfl

@[simp] theorem updk_nil {α : Type} (k : String) (f : α → α) :
    updk ([] : List (String × α)) k f = [] := rfl

@[simp] theorem updk_cons {α : Type} (a : String) (v : α)
    (rest : List (String × α)) (k : String) (f : α → α) :
    updk ((a, v) :: rest) k f =
      (if a = k then (a, f v) else (a, v)) :: updk rest k f := by
  simp only [updk, List.map]

theorem lookupA_append {α : Type} (m m' : List (String × α)) (key : String) :
    lookupA (m ++ m') key =
      match lookupA m key with
      | some v => some v
      | none => lookupA m' key := by
  induction m with
  | nil => rfl
  | cons p rest ih =>
    obtain ⟨a, v⟩ := p
    by_cases h : a = key <;> simp [h, ih]

theorem lookupA_updk {α : Type} (m : List (String × α)) (k key : String)
    (f : α → α) :
    lookupA (updk m k f) key =
      if k = key then (lookupA m key).map f else lookupA m key := by
  induction m with
  | nil => simp
  | cons p rest ih =>
    obtain ⟨a, v⟩ := p
    rw [updk_cons]
    by_cases hak : a = k
    · subst hak
      by_cases hakey : a = key
      · subst hakey
        simp
      · simp [hakey, ih]
    · by_cases hakey : a = key
      · subst hakey
        have hk : ¬ a = k := hak
        have hk' : ¬ k = a := fun h => hak h.symm
        simp [hak, hk', ih]
      · simp [hak, hakey, ih]

theorem lookupA_objSet {α : Type} (m : List (String × α)) (k key : String)
    (v : α) :
    lookupA (objSet m k v) key = if k = key then some v else lookupA m key := by
  unfold objSet
  by_cases hp : (lookupA m k).isSome
  · rw [if_pos hp, lookupA_updk]
    by_cases hk : k = key
    · subst hk
      obtain ⟨w, hw⟩ := Option.isSome_iff_exists.mp hp
      simp [hw]
    · simp [hk]
  · rw [if_neg hp, lookupA_append]
    by_cases hk : k = key
    · subst hk
      simp only [Option.not_isSome_iff_eq_none] at hp
      simp [hp, lookupA]
    · cases hl : lookupA m key <;> simp [lookupA, hk, hl]

theorem keysA_updk {α : Type} (m : List (String × α)) (k : String) (f : α → α) :
    keysA (updk m k f) = keysA m := by
  induction m with
  | nil => rfl
  | cons p rest ih =>
    by_cases h : p.1 = k <;> simp_all [keysA, updk]

theorem keysA_objSet {α : Type} (m : List (String × α)) (k : String) (v : α) :
    keysA (objSet m k v) =
      if (lookupA m k).isSome then keysA m else keysA m ++ [k] := by
  unfold objSet
  by_cases hp : (lookupA m k).isSome
  · rw [if_pos hp, if_pos hp]
    exact keysA_updk m k _
  · rw [if_neg hp, if_neg hp]
    simp [keysA]

theorem lookupA_isSome_iff {α : Type} (m : List (String × α)) (key : String) :
    (lookupA m key).isSome ↔ key ∈ keysA m := by
  induction m with
  | nil => simp [lookupA, keysA]
  | cons p rest ih =>
    by_cases h : p.1 = key <;> simp_all [lookupA, keysA] <;> tauto

theorem lookupA_eq_none_iff {α : Type} (m : List (String × α)) (key : String) :
    lookupA m key = none ↔ key ∉ keysA m := by
  rw [← lookupA_isSome_iff, Option.not_isSome_iff_eq_none]

/-! ### Generic loop lemmas -/

theorem foldListE_cons_ok {ε α β : Type} {f : α → β → Except ε β} {x : α}
    {xs : List α} {s s' : β} :
    foldListE f (x :: xs) s = .ok s' ↔
      ∃ s₁, f x s = .ok s₁ ∧ foldListE f xs s₁ = .ok s' := by
  cases h : f x s <;> simp [foldListE, h, Bind.bind, Except.bind]

theorem foldListE_rel {ε α β : Type} {f : α → β → Except ε β}
    (R : β → β → Prop) (hrefl : ∀ b, R b b)
    (htrans : ∀ a b c, R a b → R b c → R a c) :
    ∀ ds (s s' : β), (∀ x ∈ ds, ∀ a a', f x a = .ok a' → R a a') →
      foldListE f ds s = .ok s' → R s s' := by
  intro ds
  induction ds with
  | nil =>
    intro s s' _ h
    obtain rfl : s = s' := by simpa [foldListE] using h
    exact hrefl s
  | cons d ds ih =>
    intro s s' hstep h
    obtain ⟨s₁, h₁, h₂⟩ := foldListE_cons_ok.mp h
    exact htrans _ _ _ (hstep d (List.mem_cons_self d ds) s s₁ h₁)
      (ih s₁ s' (fun x hx => hstep x (List.mem_cons_of_mem d hx)) h₂)

theorem foldListE_all {ε α β : Type} {f : α → β → Except ε β}
    (Q : α → β → Prop) :
    ∀ ds (s s' : β),
      (∀ x ∈ ds, ∀ a a', f x a = .ok a' → Q x a') →
      (∀ x ∈ ds, ∀ y ∈ ds, ∀ a a', Q x a → f y a = .ok a' → Q x a') →
      foldListE f ds s = .ok s' → ∀ d ∈ ds, Q d s' := by
  intro ds
  induction ds with
  | nil => intro s s' _ _ _ d hd; cases hd
  | cons d ds ih =>
    intro s s' hstep hmono h e he
    obtain ⟨s₁, h₁, h₂⟩ := foldListE_cons_ok.mp h
    rcases List.mem_cons.mp he with rfl | hmem
    · have hq : Q e s₁ := hstep e (List.mem_cons_self e ds) s s₁ h₁
      exact foldListE_rel (fun a b => Q e a → Q e b) (fun _ h => h)
        (fun _ _ _ hab hbc h => hbc (hab h)) ds s₁ s'
        (fun y hy a a' hok hyq =>
          hmono e (List.mem_cons_self e ds) y (List.mem_cons_of_mem e hy) a a' hyq hok)
        h₂ hq
    · exact ih s₁ s'
        (fun x hx => hstep x (List.mem_cons_of_mem d hx))
        (fun x hx y hy => hmono x (List.mem_cons_of_mem d hx) y (List.mem_cons_of_mem d hy))
        h₂ e hmem

theorem foldListO_cons_some {α β : Type} {f : α → β → Option β} {x : α}
    {xs : List α} {s s' : β} :
    foldListO f (x :: xs) s = some s' ↔
      ∃ s₁, f x s = some s₁ ∧ foldListO f xs s₁ = some s' := by
  cases h : f x s <;> simp [foldListO, h, Option.bind]

theorem foldListO_rel {α β : Type} {f : α → β → Option β}
    (R : β → β → Prop) (hrefl : ∀ b, R b b)
    (htrans : ∀ a b c, R a b → R b c → R a c)
    (hstep : ∀ x s s', f x s = some s' → R s s') :
    ∀ ds (s s' : β), foldListO f ds s = some s' → R s s' := by
  intro ds
  induction ds with
  | nil =>
    intro s s' h
    obtain rfl : s = s' := by simpa [foldListO] using h
    exact hrefl s
  | cons d ds ih =>
    intro s s' h
    obtain ⟨s₁, h₁, h₂⟩ := foldListO_cons_some.mp h
    exact htrans _ _ _ (hstep d s s₁ h₁) (ih s₁ s' h₂)

theorem lookupA_mem {α : Type} {m : List (String × α)} {k : String} {v : α}
    (h : lookupA m k = some v) : (k, v) ∈ m := by
  induction m with
  | nil => cases h
  | cons p rest ih =>
    obtain ⟨a, w⟩ := p
    by_cases hk : a = k
    · subst hk
      rw [lookupA_cons, if_pos rfl] at h
      injection h with h'
      subst h'
      exact List.mem_cons_self _ _
    · rw [lookupA_cons, if_neg hk] at h
      exact List.mem_cons_of_mem _ (ih h)

/-! ### Verification of the depth-first topological sort of `CpmApp` -/

namespace CpmApp

/-- All dependency ids of the tasks held by the task map. -/
def depUniverse (tm : List (String × Task)) : List String :=
  (tm.map (fun p => p.2.dependencies)).flatten

theorem mem_depUniverse {tm : List (String × Task)} {k : String} {t : Task}
    (h : lookupA tm k = some t) {d : String} (hd : d ∈ t.dependencies) :
    d ∈ depUniverse tm := by
  have hm := lookupA_mem h
  simp only [depUniverse, List.mem_flatten, List.mem_map]
  exact ⟨t.dependencies, ⟨(k, t), hm, rfl⟩, hd⟩

/-- Every visited id's task, when present, has all of its dependencies visited
strictly earlier (the `visited` list is newest first). -/
def DepsBefore (tm : List (String × Task)) (visited : List String) : Prop :=
  ∀ l₁ v l₂, visited = l₁ ++ v :: l₂ → ∀ t, lookupA tm v = some t →
    ∀ d ∈ t.dependencies, d ∈ l₂

/-- Well-formedness of the DFS state: the result array mirrors the visited
list through the task map, the visited list has no duplicates and is
dependency-closed in order. -/
def GoodState (tm : List (String × Task)) (s : DfsState) : Prop :=
  s.result = s.visited.reverse.map (lookupA tm) ∧ s.visited.Nodup ∧
    DepsBefore tm s.visited

theorem depsBefore_cons {tm : List (String × Task)} {visited : List String}
    {v : String} (hall : ∀ t, lookupA tm v = some t → ∀ d ∈ t.dependencies, d ∈ visited)
    (hdb : DepsBefore tm visited) : DepsBefore tm (v :: visited) := by
  intro l₁ w l₂ hsplit t ht d hd
  rcases l₁ with _ | ⟨x, l₁'⟩
  · simp only [List.nil_append, List.cons.injEq] at hsplit
    obtain ⟨rfl, rfl⟩ := hsplit
    exact hall t ht d hd
  · simp only [List.cons_append, List.cons.injEq] at hsplit
    obtain ⟨rfl, hsplit'⟩ := hsplit
    exact hdb l₁' w l₂ hsplit' t ht d hd

/-- Full postcondition of a successful `visit`: the visiting set is restored,
the visited list is extended by fresh ids drawn from the call target and the
dependency universe, the target ends up visited, and well-formedness is
preserved. -/
def VisitPost (tm : List (String × Task)) (id : String) (s s' : DfsState) : Prop :=
  s'.visiting = s.visiting ∧
  (∃ new, s'.visited = new ++ s.visited ∧
     ∀ v ∈ new, v ∉ s.visiting ∧ v ∉ s.visited ∧ (v = id ∨ v ∈ depUniverse tm)) ∧
  id ∈ s'.visited ∧
  (GoodState tm s → GoodState tm s')

theorem visitPost_visited_mono {tm : List (String × Task)} {id : String}
    {s s' : DfsState} (h : VisitPost tm id s s') :
    ∀ v ∈ s.visited, v ∈ s'.visited := by
  obtain ⟨-, ⟨new, hnew, -⟩, -, -⟩ := h
  intro v hv
  rw [hnew]
  exact List.mem_append_right _ hv

theorem visit_post (tm : List (String × Task)) :
    ∀ fuel id s s', visit tm fuel id s = .ok s' → VisitPost tm id s s' := by
  intro fuel
  induction fuel with
  | zero => intro id s s' h; cases h
  | succ n ih =>
    intro id s s' h
    simp only [visit] at h
    by_cases hvd : id ∈ s.visited
    · rw [if_pos hvd] at h
      obtain rfl : s = s' := by cases h; rfl
      exact ⟨rfl, ⟨[], by simp, by simp⟩, hvd, fun g => g⟩
    · rw [if_neg hvd] at h
      by_cases hvg : id ∈ s.visiting
      · rw [if_pos hvg] at h; cases h
      · rw [if_neg hvg] at h
        split at h
        case _ task hlk =>
          simp only [Bind.bind, Except.bind] at h
          split at h
          case _ e hfold => cases h
          case _ s2 hfold =>
            obtain rfl : (⟨s2.visiting.erase id, id :: s2.visited,
                s2.result ++ [some task]⟩ : DfsState) = s' := by cases h; rfl
            have hstep : ∀ x ∈ task.dependencies, ∀ a a',
                visit tm n x a = .ok a' → VisitPost tm x a a' :=
              fun x _ a a' hx => ih x a a' hx
            set s1 : DfsState := ⟨id :: s.visiting, s.visited, s.result⟩ with hs1
            -- The relation accumulated along the dependency loop.
            set R : DfsState → DfsState → Prop := fun a b =>
              b.visiting = a.visiting ∧
              ∃ new, b.visited = new ++ a.visited ∧
                ∀ v ∈ new, v ∉ a.visiting ∧ v ∉ a.visited ∧ v ∈ depUniverse tm
              with hR
            have hRrefl : ∀ b, R b b := fun b => ⟨rfl, [], by simp, by simp⟩
            have hRtrans : ∀ a b c, R a b → R b c → R a c := by
              rintro a b c ⟨hvab, n₁, hn₁, hf₁⟩ ⟨hvbc, n₂, hn₂, hf₂⟩
              refine ⟨hvbc.trans hvab, n₂ ++ n₁, by rw [hn₂, hn₁, List.append_assoc], ?_⟩
              intro v hv
              rcases List.mem_append.mp hv with hv₂ | hv₁
              · obtain ⟨hva, hvb, hvu⟩ := hf₂ v hv₂
                rw [hvab] at hva
                refine ⟨hva, fun hmem => hvb ?_, hvu⟩
                · rw [hn₁]; exact List.mem_append_right _ hmem
              · exact hf₁ v hv₁
            have hRfold : R s1 s2 := by
              refine foldListE_rel R hRrefl hRtrans task.dependencies s1 s2 ?_ hfold
              intro x hx a a' hok
              obtain ⟨hv, ⟨new, hnew, hf⟩, -, -⟩ := hstep x hx a a' hok
              exact ⟨hv, new, hnew, fun v hvn =>
                ⟨(hf v hvn).1, (hf v hvn).2.1,
                  (hf v hvn).2.2.elim (fun he => he ▸ mem_depUniverse hlk hx)
                    (fun hu => hu)⟩⟩
            have hdeps : ∀ d ∈ task.dependencies, d ∈ s2.visited := by
              refine foldListE_all (fun x st => x ∈ st.visited) task.dependencies
                s1 s2 ?_ ?_ hfold
              · exact fun x hx a a' hok => (hstep x hx a a' hok).2.2.1
              · intro x _ y hy a a' hq hok
                exact visitPost_visited_mono (hstep y hy a a' hok) x hq
            have hgood : GoodState tm s1 → GoodState tm s2 := by
              refine foldListE_rel (fun a b => GoodState tm a → GoodState tm b)
                (fun _ g => g) (fun _ _ _ hab hbc g => hbc (hab g))
                task.dependencies s1 s2 ?_ hfold
              exact fun x hx a a' hok => (hstep x hx a a' hok).2.2.2
            obtain ⟨hvis2, new2, hnew2, hf2⟩ := hRfold
            have hid_notin_new2 : id ∉ new2 := fun hmem =>
              (hf2 id hmem).1 (List.mem_cons_self _ _)
            refine ⟨?_, ⟨id :: new2, ?_, ?_⟩, List.mem_cons_self _ _, ?_⟩
            · show s2.visiting.erase id = s.visiting
              rw [hvis2]
              exact List.erase_cons_head id s.visiting
            · show id :: s2.visited = (id :: new2) ++ s.visited
              rw [hnew2]
              rfl
            · intro v hv
              rcases List.mem_cons.mp hv with rfl | hvn
              · exact ⟨hvg, hvd, Or.inl rfl⟩
              · obtain ⟨hva, hvb, hvu⟩ := hf2 v hvn
                exact ⟨fun hmem => hva (List.mem_cons_of_mem _ hmem), hvb, Or.inr hvu⟩
            · intro gs
              have gs2 : GoodState tm s2 := hgood gs
              obtain ⟨hres2, hnd2, hdb2⟩ := gs2
              refine ⟨?_, ?_, ?_⟩
              · show s2.result ++ [some task] = (id :: s2.visited).reverse.map (lookupA tm)
                rw [List.reverse_cons, List.map_append, hres2]
                simp [hlk]
              · refine List.nodup_cons.mpr ⟨?_, hnd2⟩
                rw [hnew2]
                intro hmem
                rcases List.mem_append.mp hmem with h2 | h1
                · exact hid_notin_new2 h2
                · exact hvd h1
              · refine depsBefore_cons ?_ hdb2
                intro t ht d hd
                rw [hlk] at ht
                cases ht
                exact hdeps d hd
        case _ hlk =>
          obtain rfl : (⟨(id :: s.visiting).erase id, id :: s.visited,
              s.result ++ [none]⟩ : DfsState) = s' := by cases h; rfl
          refine ⟨List.erase_cons_head id s.visiting, ⟨[id], by simp, ?_⟩,
            List.mem_cons_self _ _, ?_⟩
          · intro v hv
            simp only [List.mem_singleton] at hv
            subst hv
            exact ⟨hvg, hvd, Or.inl rfl⟩
          · rintro ⟨hres, hnd, hdb⟩
            refine ⟨?_, List.nodup_cons.mpr ⟨hvd, hnd⟩, ?_⟩
            · simp only [List.reverse_cons, List.map_append, List.map_cons,
                List.map_nil, hlk]
              rw [hres]
            · refine depsBefore_cons ?_ hdb
              intro t ht
              rw [hlk] at ht
              cases ht

/-- Postcondition of the outer driver loop: like `VisitPost`, with every input
task visited and fresh ids drawn from the tasks and the dependency
universe. -/
def TopoPost (tm : List (String × Task)) (ts : List Task) (s s' : DfsState) :
    Prop :=
  s'.visiting = s.visiting ∧
  (∃ new, s'.visited = new ++ s.visited ∧
     ∀ v ∈ new, v ∈ ts.map (fun t => t.id) ∨ v ∈ depUniverse tm) ∧
  (∀ t ∈ ts, t.id ∈ s'.visited) ∧
  (GoodState tm s → GoodState tm s')

theorem topoGo_post (tm : List (String × Task)) (fuel : Nat) :
    ∀ ts s s', topoGo tm fuel ts s = .ok s' → TopoPost tm ts s s' := by
  intro ts
  induction ts with
  | nil =>
    intro s s' h
    obtain rfl : s = s' := by cases h; rfl
    exact ⟨rfl, ⟨[], by simp, by simp⟩, by simp, fun g => g⟩
  | cons t ts ih =>
    intro s s' h
    simp only [topoGo, Bind.bind, Except.bind] at h
    by_cases hvd : t.id ∈ s.visited
    · rw [if_pos hvd] at h
      obtain ⟨hvis, ⟨new, hnew, hfresh⟩, hall, hgood⟩ := ih s s' h
      refine ⟨hvis, ⟨new, hnew, ?_⟩, ?_, hgood⟩
      · intro v hv
        rcases hfresh v hv with hl | hr
        · exact Or.inl (by simp only [List.map_cons]; exact List.mem_cons_of_mem _ hl)
        · exact Or.inr hr
      · intro u hu
        rcases List.mem_cons.mp hu with rfl | hmem
        · rw [hnew]; exact List.mem_append_right _ hvd
        · exact hall u hmem
    · rw [if_neg hvd] at h
      cases hv : visit tm fuel t.id s with
      | error e => rw [hv] at h; cases h
      | ok s₁ =>
        rw [hv] at h
        obtain ⟨hvis₁, ⟨new₁, hnew₁, hfresh₁⟩, hid₁, hgood₁⟩ :=
          visit_post tm fuel t.id s s₁ hv
        obtain ⟨hvis₂, ⟨new₂, hnew₂, hfresh₂⟩, hall₂, hgood₂⟩ := ih s₁ s' h
        refine ⟨hvis₂.trans hvis₁, ⟨new₂ ++ new₁, ?_, ?_⟩, ?_, fun g => hgood₂ (hgood₁ g)⟩
        · rw [hnew₂, hnew₁, List.append_assoc]
        · intro v hv'
          rcases List.mem_append.mp hv' with h₂ | h₁
          · rcases hfresh₂ v h₂ with hl | hr
            · exact Or.inl (by simp only [List.map_cons]; exact List.mem_cons_of_mem _ hl)
            · exact Or.inr hr
          · rcases (hfresh₁ v h₁).2.2 with rfl | hr
            · exact Or.inl (by simp)
            · exact Or.inr hr
        · intro u hu
          rcases List.mem_cons.mp hu with rfl | hmem
          · rw [hnew₂]; exact List.mem_append_right _ hid₁
          · exact hall₂ u hmem

/-- What a successful `topologicalSort` guarantees: the output mirrors a
duplicate-free, dependency-ordered visited list that covers every input task
and mentions only input ids and dependency ids. -/
theorem topologicalSort_spec {tasks : List Task} {tm : List (String × Task)}
    {sorted : List (Option Task)} (h : topologicalSort tasks tm = .ok sorted) :
    ∃ visited : List String,
      sorted = visited.reverse.map (lookupA tm) ∧
      visited.Nodup ∧ DepsBefore tm visited ∧
      (∀ t ∈ tasks, t.id ∈ visited) ∧
      (∀ v ∈ visited, v ∈ tasks.map (fun t => t.id) ∨ v ∈ depUniverse tm) := by
  simp only [topologicalSort, Bind.bind, Except.bind] at h
  cases hgo : topoGo tm (tm.length + 1) tasks ⟨[], [], []⟩ with
  | error e => rw [hgo] at h; cases h
  | ok sfin =>
    rw [hgo] at h
    obtain rfl : sfin.result = sorted := by cases h; rfl
    obtain ⟨-, ⟨new, hnew, hfresh⟩, hall, hgood⟩ :=
      topoGo_post tm (tm.length + 1) tasks ⟨[], [], []⟩ sfin hgo
    have hg : GoodState tm sfin := by
      refine hgood ⟨rfl, List.nodup_nil, ?_⟩
      intro l₁ v l₂ hsplit
      exact absurd hsplit (by simp)
    obtain ⟨hres, hnd, hdb⟩ := hg
    refine ⟨sfin.visited, hres, hnd, hdb, hall, ?_⟩
    intro v hv
    have : v ∈ new := by
      have := hnew ▸ hv
      simpa using this
    exact hfresh v this

end CpmApp

/-! ### From the visited list to a plain topological task order -/

/-- Every task id occurs at most once (the data-model uniqueness invariant). -/
def NodupIds (tasks : List Task) : Prop :=
  (tasks.map (fun t => t.id)).Nodup

/-- Every dependency entry names a supplied task. -/
def AllPresent (tasks : List Task) : Prop :=
  ∀ t ∈ tasks, ∀ d ∈ t.dependencies, d ∈ tasks.map (fun t => t.id)

instance (tasks : List Task) : Decidable (NodupIds tasks) := by
  unfold NodupIds
  infer_instance

instance (tasks : List Task) : Decidable (AllPresent tasks) := by
  unfold AllPresent
  exact List.decidableBAll _ tasks

/-- In `order`, every task's dependencies appear strictly earlier. -/
def DepsFirst (order : List Task) : Prop :=
  ∀ l₁ t l₂, order = l₁ ++ t :: l₂ →
    ∀ d ∈ t.dependencies, d ∈ l₁.map (fun u => u.id)

theorem mem_objSet {α : Type} {m : List (String × α)} {k : String} {v : α}
    {p : String × α} (h : p ∈ objSet m k v) : p = (k, v) ∨ p ∈ m := by
  unfold objSet at h
  by_cases hp : (lookupA m k).isSome
  · rw [if_pos hp] at h
    unfold updk at h
    obtain ⟨q, hq, hqe⟩ := List.mem_map.mp h
    by_cases hq1 : q.1 = k
    · rw [if_pos hq1] at hqe
      subst hqe
      exact Or.inl (by rw [hq1])
    · rw [if_neg hq1] at hqe
      exact Or.inr (hqe ▸ hq)
  · rw [if_neg hp] at h
    rcases List.mem_append.mp h with hm | hs
    · exact Or.inr hm
    · exact Or.inl (by simpa using hs)

theorem foldl_objSet_mem {k : String} {t : Task} :
    ∀ (us : List Task) (acc : List (String × Task)),
      (k, t) ∈ us.foldl (fun m u => objSet m u.id u) acc →
      (k, t) ∈ acc ∨ (t ∈ us ∧ k = t.id) := by
  intro us
  induction us with
  | nil => exact fun acc h => Or.inl h
  | cons u us ih =>
    intro acc h
    simp only [List.foldl_cons] at h
    rcases ih (objSet acc u.id u) h with hmem | ⟨hin, rfl⟩
    · rcases mem_objSet hmem with heq | hacc
      · have hk : k = u.id := congrArg Prod.fst heq
        have ht : t = u := congrArg Prod.snd heq
        subst ht
        exact Or.inr ⟨List.mem_cons_self _ _, hk⟩
      · exact Or.inl hacc
    · exact Or.inr ⟨List.mem_cons_of_mem _ hin, rfl⟩

theorem mem_taskMapOf {tasks : List Task} {k : String} {t : Task}
    (h : (k, t) ∈ CpmApp.taskMapOf tasks) : t ∈ tasks ∧ k = t.id := by
  unfold CpmApp.taskMapOf at h
  rcases foldl_objSet_mem tasks [] h with hnil | hgood
  · cases hnil
  · exact hgood

theorem mem_keysA_objSet {α : Type} (m : List (String × α)) (kk k : String)
    (v : α) : k ∈ keysA (objSet m kk v) ↔ k ∈ keysA m ∨ k = kk := by
  rw [keysA_objSet]
  by_cases hp : (lookupA m kk).isSome
  · rw [if_pos hp]
    constructor
    · exact Or.inl
    · rintro (h | rfl)
      · exact h
      · exact (lookupA_isSome_iff m k).mp hp
  · rw [if_neg hp]
    simp

theorem foldl_objSet_keys (us : List Task) :
    ∀ (acc : List (String × Task)) (k : String),
      k ∈ keysA (us.foldl (fun m u => objSet m u.id u) acc) ↔
        k ∈ keysA acc ∨ k ∈ us.map (fun t => t.id) := by
  induction us with
  | nil => simp
  | cons u us ih =>
    intro acc k
    simp only [List.foldl_cons, List.map_cons, List.mem_cons]
    rw [ih, mem_keysA_objSet]
    tauto

theorem keys_taskMapOf (tasks : List Task) (k : String) :
    (lookupA (CpmApp.taskMapOf tasks) k).isSome ↔
      k ∈ tasks.map (fun t => t.id) := by
  rw [lookupA_isSome_iff]
  unfold CpmApp.taskMapOf
  rw [foldl_objSet_keys]
  simp [keysA]

theorem taskId_inj {tasks : List Task} (hnd : NodupIds tasks) :
    ∀ t ∈ tasks, ∀ u ∈ tasks, t.id = u.id → t = u :=
  fun t ht u hu h => List.inj_on_of_nodup_map hnd ht hu h

theorem lookupA_taskMapOf {tasks : List Task} (hnd : NodupIds tasks) {t : Task}
    (ht : t ∈ tasks) :
    lookupA (CpmApp.taskMapOf tasks) t.id = some t := by
  have hs : (lookupA (CpmApp.taskMapOf tasks) t.id).isSome :=
    (keys_taskMapOf tasks t.id).mpr (List.mem_map.mpr ⟨t, ht, rfl⟩)
  obtain ⟨u, hu⟩ := Option.isSome_iff_exists.mp hs
  obtain ⟨humem, hid⟩ := mem_taskMapOf (lookupA_mem hu)
  rw [hu, taskId_inj hnd u humem t ht hid.symm]

theorem mem_depUniverse_taskMapOf {tasks : List Task} (hap : AllPresent tasks)
    {v : String} (hv : v ∈ CpmApp.depUniverse (CpmApp.taskMapOf tasks)) :
    v ∈ tasks.map (fun t => t.id) := by
  simp only [CpmApp.depUniverse, List.mem_flatten, List.mem_map] at hv
  obtain ⟨ds, ⟨⟨k, t⟩, hmem, rfl⟩, hvds⟩ := hv
  exact hap t (mem_taskMapOf hmem).1 v hvds

theorem exists_order_of_all_some (tm : List (String × Task)) :
    ∀ (l : List String), (∀ v ∈ l, ∃ t, lookupA tm v = some t ∧ t.id = v) →
    ∃ order : List Task, l.map (lookupA tm) = order.map some ∧
      order.map (fun t => t.id) = l ∧
      ∀ t ∈ order, lookupA tm t.id = some t := by
  intro l
  induction l with
  | nil => exact fun _ => ⟨[], rfl, rfl, by simp⟩
  | cons v l ih =>
    intro hl
    obtain ⟨t, hlv, hid⟩ := hl v (List.mem_cons_self _ _)
    obtain ⟨order, hmap, hids, hlook⟩ :=
      ih (fun w hw => hl w (List.mem_cons_of_mem _ hw))
    refine ⟨t :: order, ?_, ?_, ?_⟩
    · simp only [List.map_cons, hlv, hmap]
    · simp only [List.map_cons, hid, hids]
    · intro u hu
      rcases List.mem_cons.mp hu with rfl | hmem
      · rw [hid]; exact hlv
      · exact hlook u hmem

/-- Under the data-model invariants, a successful run of `topologicalSort`
returns `some` of a permutation of the tasks in which every task's
dependencies appear strictly earlier. -/
theorem topologicalSort_order {tasks : List Task}
    {sorted : List (Option Task)} (hnd : NodupIds tasks)
    (hap : AllPresent tasks)
    (h : CpmApp.topologicalSort tasks (CpmApp.taskMapOf tasks) = .ok sorted) :
    ∃ order : List Task, sorted = order.map some ∧ order.Perm tasks ∧
      DepsFirst order ∧ NodupIds order := by
  obtain ⟨visited, hres, hnod, hdb, hall, huniv⟩ := CpmApp.topologicalSort_spec h
  have hvid : ∀ v ∈ visited, v ∈ tasks.map (fun t => t.id) := by
    intro v hv
    rcases huniv v hv with hid | hdu
    · exact hid
    · exact mem_depUniverse_taskMapOf hap hdu
  have hlookall : ∀ v ∈ visited.reverse,
      ∃ t, lookupA (CpmApp.taskMapOf tasks) v = some t ∧ t.id = v := by
    intro v hv
    obtain ⟨t, ht, rfl⟩ := List.mem_map.mp (hvid v (List.mem_reverse.mp hv))
    exact ⟨t, lookupA_taskMapOf hnd ht, rfl⟩
  obtain ⟨order, hmap, hids, hlook⟩ :=
    exists_order_of_all_some _ visited.reverse hlookall
  have hordmem : ∀ t ∈ order, t ∈ tasks :=
    fun t ht => (mem_taskMapOf (lookupA_mem (hlook t ht))).1
  have hndo : NodupIds order := by
    unfold NodupIds
    rw [hids]
    exact List.nodup_reverse.mpr hnod
  refine ⟨order, by rw [hres, hmap], ?_, ?_, hndo⟩
  · refine (List.perm_ext_iff_of_nodup (List.Nodup.of_map _ hndo)
      (List.Nodup.of_map _ hnd)).mpr ?_
    intro t
    constructor
    · exact hordmem t
    · intro ht
      have hidmem : t.id ∈ order.map (fun u => u.id) := by
        rw [hids]
        exact List.mem_reverse.mpr (hall t ht)
      obtain ⟨u, hu, huid⟩ := List.mem_map.mp hidmem
      have : lookupA (CpmApp.taskMapOf tasks) t.id = some u := huid ▸ hlook u hu
      rw [lookupA_taskMapOf hnd ht] at this
      injection this with h'
      exact h' ▸ hu
  · intro l₁ t l₂ hsplit d hd
    have hvis : visited = ((l₂.map (fun u => u.id)).reverse ++
        t.id :: (l₁.map (fun u => u.id)).reverse) := by
      have h1 : order.map (fun u => u.id) =
          l₁.map (fun u => u.id) ++ t.id :: l₂.map (fun u => u.id) := by
        rw [hsplit]; simp
      have h2 : visited = (order.map (fun u => u.id)).reverse := by
        rw [hids, List.reverse_reverse]
      rw [h2, h1]
      simp
    have htin : t ∈ order := by
      rw [hsplit]; exact List.mem_append_right _ (List.mem_cons_self _ _)
    have := hdb _ t.id _ hvis t (hlook t htin) d hd
    rw [List.mem_reverse] at this
    exact this

/-! ### Fuel adequacy: the embedded DFS never runs out -/

theorem foldListE_no_bad {ε α β : Type} {f : α → β → Except ε β} {bad : ε}
    (P : β → Prop) :
    ∀ {ds : List α} {s : β}, P s →
      (∀ x ∈ ds, ∀ a a', P a → f x a = .ok a' → P a') →
      (∀ x ∈ ds, ∀ a, P a → f x a ≠ .error bad) →
      foldListE f ds s ≠ .error bad := by
  intro ds
  induction ds with
  | nil => intro s _ _ _ h; simp [foldListE] at h
  | cons x xs ih =>
    intro s hs hpres hnb h
    rw [foldListE] at h
    cases hx : f x s with
    | error e =>
      rw [hx] at h
      simp only [Bind.bind, Except.bind] at h
      injection h with he
      exact hnb x (List.mem_cons_self _ _) s hs (he ▸ hx)
    | ok s₁ =>
      rw [hx] at h
      simp only [Bind.bind, Except.bind] at h
      exact ih (hpres x (List.mem_cons_self _ _) s s₁ hs hx)
        (fun y hy => hpres y (List.mem_cons_of_mem _ hy))
        (fun y hy => hnb y (List.mem_cons_of_mem _ hy)) h

theorem filter_erase_length {id : String} {vis : List String} (hidv : id ∉ vis) :
    ∀ {keys : List String}, keys.Nodup → id ∈ keys →
    (keys.filter (fun k => decide (k ∉ id :: vis))).length + 1 =
      (keys.filter (fun k => decide (k ∉ vis))).length := by
  intro keys
  induction keys with
  | nil => intro _ h; cases h
  | cons a keys ih =>
    intro hnd hidk
    obtain ⟨hna, hnd'⟩ := List.nodup_cons.mp hnd
    by_cases ha : a = id
    · subst ha
      have htail : keys.filter (fun k => decide (k ∉ a :: vis)) =
          keys.filter (fun k => decide (k ∉ vis)) := by
        refine List.filter_congr ?_
        intro k hk
        have hka : ¬ k = a := fun he => hna (he ▸ hk)
        simp [List.mem_cons, hka]
      rw [List.filter_cons_of_neg (by simp),
        List.filter_cons_of_pos (by simpa using hidv), htail]
      simp
    · have hidk' : id ∈ keys := by
        rcases List.mem_cons.mp hidk with h | h
        · exact absurd h.symm ha
        · exact h
      by_cases hav : a ∈ vis
      · rw [List.filter_cons_of_neg (by simp [List.mem_cons, hav]),
          List.filter_cons_of_neg (by simp [hav])]
        exact ih hnd' hidk'
      · have hacons : a ∉ id :: vis := by
          simp only [List.mem_cons]
          rintro (rfl | hv)
          · exact ha rfl
          · exact hav hv
        rw [List.filter_cons_of_pos (by simpa using hacons),
          List.filter_cons_of_pos (by simpa using hav)]
        have := ih hnd' hidk'
        simp only [List.length_cons]
        omega

namespace CpmApp

/-- The number of map keys not yet on the DFS stack bounds the remaining
recursion depth. -/
def freshCount (tm : List (String × Task)) (vis : List String) : Nat :=
  ((keysA tm).filter (fun k => decide (k ∉ vis))).length

theorem visit_no_fuel (tm : List (String × Task)) (hk : (keysA tm).Nodup) :
    ∀ fuel, ∀ s : DfsState, ∀ id, freshCount tm s.visiting < fuel →
      visit tm fuel id s ≠ .error .fuelExhausted := by
  intro fuel
  induction fuel with
  | zero => intro s id h; omega
  | succ n ih =>
    intro s id hm h
    simp only [visit] at h
    by_cases hvd : id ∈ s.visited
    · rw [if_pos hvd] at h; cases h
    · rw [if_neg hvd] at h
      by_cases hvg : id ∈ s.visiting
      · rw [if_pos hvg] at h; cases h
      · rw [if_neg hvg] at h
        split at h
        case _ task hlk =>
          simp only [Bind.bind, Except.bind] at h
          split at h
          case _ e hfold =>
            injection h with he
            subst he
            have hidk : id ∈ keysA tm :=
              (lookupA_isSome_iff tm id).mp (by rw [hlk]; rfl)
            have hmeasure : freshCount tm (id :: s.visiting) < n := by
              have := filter_erase_length hvg hk hidk
              unfold freshCount at hm ⊢
              omega
            refine absurd hfold (foldListE_no_bad
              (fun a => a.visiting = id :: s.visiting) rfl ?_ ?_)
            · intro x _ a a' hP hok
              rw [← hP]
              exact (visit_post tm n x a a' hok).1
            · intro x _ a hP
              apply ih
              rw [hP]
              exact hmeasure
          case _ s2 hfold => cases h
        case _ hlk => cases h

theorem topoGo_no_fuel (tm : List (String × Task)) (hk : (keysA tm).Nodup)
    (fuel : Nat) (hfuel : (keysA tm).length < fuel) :
    ∀ ts (s : DfsState), s.visiting = [] →
      topoGo tm fuel ts s ≠ .error .fuelExhausted := by
  intro ts
  induction ts with
  | nil => intro s _ h; cases h
  | cons t ts ih =>
    intro s hvis h
    simp only [topoGo, Bind.bind, Except.bind] at h
    by_cases hvd : t.id ∈ s.visited
    · rw [if_pos hvd] at h
      exact ih s hvis h
    · rw [if_neg hvd] at h
      have hmeasure : freshCount tm s.visiting < fuel := by
        unfold freshCount
        rw [hvis]
        calc ((keysA tm).filter (fun k => decide (k ∉ ([] : List String)))).length
            ≤ (keysA tm).length := List.length_filter_le _ _
          _ < fuel := hfuel
      cases hv : visit tm fuel t.id s with
      | error e =>
        rw [hv] at h
        injection h with he
        exact visit_no_fuel tm hk fuel s t.id hmeasure (he ▸ hv)
      | ok s₁ =>
        rw [hv] at h
        have hvis₁ : s₁.visiting = [] := by
          rw [(visit_post tm fuel t.id s s₁ hv).1, hvis]
        exact ih s₁ hvis₁ h

theorem keysA_taskMapOf_nodup (tasks : List Task) :
    (keysA (taskMapOf tasks)).Nodup := by
  unfold taskMapOf
  suffices hgen : ∀ (acc : List (String × Task)), (keysA acc).Nodup →
      (keysA (tasks.foldl (fun m t => objSet m t.id t) acc)).Nodup by
    exact hgen [] List.nodup_nil
  induction tasks with
  | nil => exact fun acc h => h
  | cons t ts ih =>
    intro acc hacc
    simp only [List.foldl_cons]
    refine ih (objSet acc t.id t) ?_
    rw [keysA_objSet]
    by_cases hp : (lookupA acc t.id).isSome
    · rw [if_pos hp]; exact hacc
    · rw [if_neg hp]
      have : t.id ∉ keysA acc := fun hmem =>
        hp ((lookupA_isSome_iff acc t.id).mpr hmem)
      simp [List.nodup_append, hacc, this]

theorem topologicalSort_no_fuel (tasks : List Task) :
    topologicalSort tasks (taskMapOf tasks) ≠ .error .fuelExhausted := by
  intro h
  simp only [topologicalSort, Bind.bind, Except.bind] at h
  set tm := taskMapOf tasks with htm
  have hk : (keysA tm).Nodup := keysA_taskMapOf_nodup tasks
  have hlen : (keysA tm).length < tm.length + 1 := by
    unfold keysA
    simp
  cases hgo : topoGo tm (tm.length + 1) tasks ⟨[], [], []⟩ with
  | error e =>
    rw [hgo] at h
    injection h with he
    exact topoGo_no_fuel tm hk (tm.length + 1) hlen tasks ⟨[], [], []⟩ rfl
      (he ▸ hgo)
  | ok sfin => rw [hgo] at h; cases h

end CpmApp

/-! ### Dependency cycles and cycle detection -/

/-- `e` is the id of a task on a dependency cycle: a chain
`t → c₁ → … → cₖ → t` in which each task's successor in the list is one of its
dependencies, and `t.id = e`. -/
def OnCycle (tasks : List Task) (e : String) : Prop :=
  ∃ t c, t ∈ tasks ∧ t.id = e ∧ (∀ u ∈ c, u ∈ tasks) ∧
    List.Chain (fun u v => v.id ∈ u.dependencies) t (c ++ [t])

/-- The dependency graph of the collection contains a cycle. -/
def HasCycle (tasks : List Task) : Prop :=
  ∃ e, OnCycle tasks e

/-- Position of the first occurrence of an id in a list. -/
def rankIn (l : List String) (v : String) : Nat :=
  match l with
  | [] => 0
  | x :: xs => if x = v then 0 else rankIn xs v + 1

theorem rankIn_append_self {v : String} :
    ∀ {l₁ : List String} (l₂ : List String), v ∉ l₁ →
      rankIn (l₁ ++ v :: l₂) v = l₁.length := by
  intro l₁
  induction l₁ with
  | nil => intro l₂ _; simp [rankIn]
  | cons x xs ih =>
    intro l₂ hv
    have hxv : ¬ x = v := by
      rintro rfl
      exact hv (List.mem_cons_self _ _)
    simp only [List.cons_append, rankIn, if_neg hxv, List.length_cons,
      List.append_eq]
    rw [ih l₂ (fun hm => hv (List.mem_cons_of_mem _ hm))]

theorem rankIn_ge_of_notMem {w v : String} :
    ∀ {l₁ : List String} (l₂ : List String), w ∉ l₁ → w ≠ v →
      l₁.length + 1 ≤ rankIn (l₁ ++ v :: l₂) w := by
  intro l₁
  induction l₁ with
  | nil =>
    intro l₂ _ hwv
    have : ¬ v = w := fun h => hwv h.symm
    simp [rankIn, this]
  | cons x xs ih =>
    intro l₂ hw hwv
    have hxw : ¬ x = w := by
      rintro rfl
      exact hw (List.mem_cons_self _ _)
    simp only [List.cons_append, rankIn, if_neg hxw, List.length_cons,
      List.append_eq]
    have := ih l₂ (fun hm => hw (List.mem_cons_of_mem _ hm)) hwv
    omega

/-- From the order invariant of the visited list: a dependency of a present
visited task is itself visited, strictly later in the (newest-first) list. -/
theorem depsBefore_rank_lt {tm : List (String × Task)} {visited : List String}
    (hnd : visited.Nodup) (hdb : CpmApp.DepsBefore tm visited)
    {v : String} (hv : v ∈ visited) {t : Task} (ht : lookupA tm v = some t)
    {d : String} (hd : d ∈ t.dependencies) :
    d ∈ visited ∧ rankIn visited v < rankIn visited d := by
  obtain ⟨l₁, l₂, rfl⟩ := List.append_of_mem hv
  have hdl₂ : d ∈ l₂ := hdb l₁ v l₂ rfl t ht d hd
  have hnd' := hnd
  rw [List.nodup_append] at hnd'
  obtain ⟨hnd₁, hnd₂, hdisj⟩ := hnd'
  have hvnotl₁ : v ∉ l₁ := fun hm => hdisj hm (List.mem_cons_self _ _)
  have hvnotl₂ : v ∉ l₂ := (List.nodup_cons.mp hnd₂).1
  have hdnotl₁ : d ∉ l₁ := fun hm => hdisj hm (List.mem_cons_of_mem _ hdl₂)
  have hdnev : d ≠ v := fun he => hvnotl₂ (he ▸ hdl₂)
  constructor
  · exact List.mem_append_right _ (List.mem_cons_of_mem _ hdl₂)
  · have h1 := rankIn_append_self l₂ hvnotl₁
    have h2 := rankIn_ge_of_notMem l₂ hdnotl₁ hdnev
    omega

/-- Rank strictly increases along a dependency chain inside a well-ordered
visited list. -/
theorem chain_rank_mono {tasks : List Task} {tm : List (String × Task)}
    (htm : ∀ u ∈ tasks, lookupA tm u.id = some u)
    {visited : List String} (hnd : visited.Nodup)
    (hdb : CpmApp.DepsBefore tm visited)
    (hall : ∀ u ∈ tasks, u.id ∈ visited) :
    ∀ (l : List Task) (a : Task), a ∈ tasks → (∀ u ∈ l, u ∈ tasks) →
      List.Chain (fun u v => v.id ∈ u.dependencies) a l →
      ∀ x ∈ l, rankIn visited a.id < rankIn visited x.id := by
  intro l
  induction l with
  | nil => intro a _ _ _ x hx; cases hx
  | cons b l ih =>
    intro a ha hl hchain x hx
    cases hchain with
    | cons hab hbl =>
      have hb : b ∈ tasks := hl b (List.mem_cons_self _ _)
      have hedge : rankIn visited a.id < rankIn visited b.id :=
        (depsBefore_rank_lt hnd hdb (hall a ha) (htm a ha) hab).2
      rcases List.mem_cons.mp hx with rfl | hxl
      · exact hedge
      · exact lt_trans hedge
          (ih b hb (fun u hu => hl u (List.mem_cons_of_mem _ hu)) hbl x hxl)

/-- A successful topological sort excludes dependency cycles. -/
theorem no_cycle_of_topo_ok {tasks : List Task} {sorted : List (Option Task)}
    (hnd : NodupIds tasks)
    (h : CpmApp.topologicalSort tasks (CpmApp.taskMapOf tasks) = .ok sorted) :
    ¬ HasCycle tasks := by
  rintro ⟨e, t, c, ht, -, hcmem, hchain⟩
  obtain ⟨visited, -, hvnd, hdb, hall, -⟩ := CpmApp.topologicalSort_spec h
  have hmem : ∀ u ∈ c ++ [t], u ∈ tasks := by
    intro u hu
    rcases List.mem_append.mp hu with hc | hsing
    · exact hcmem u hc
    · rw [List.mem_singleton.mp hsing]; exact ht
  have := chain_rank_mono (fun u hu => lookupA_taskMapOf hnd hu) hvnd hdb
    (fun u hu => hall u hu) (c ++ [t]) t ht hmem hchain t
    (List.mem_append_right _ (List.mem_cons_self _ _))
  exact lt_irrefl _ this

/-- A dependency edge between ids, through the task map. -/
def IdEdge (tm : List (String × Task)) (x y : String) : Prop :=
  ∃ t, lookupA tm x = some t ∧ y ∈ t.dependencies

/-- `e` lies on a cycle of the id-level dependency graph. -/
def IdOnCycle (tm : List (String × Task)) (e : String) : Prop :=
  ∃ p : List String, List.Chain (IdEdge tm) e (p ++ [e])

/-- The DFS stack invariant: each entry of `visiting` (newest first) is a
dependency of the task of the entry below it. -/
def VisitingChain (tm : List (String × Task)) (vis : List String) : Prop :=
  List.Chain' (fun newer older => IdEdge tm older newer) vis

theorem foldListE_error_ex {ε α β : Type} {f : α → β → Except ε β} {e : ε}
    (P : β → Prop) :
    ∀ {ds : List α} {s : β}, P s →
      (∀ x ∈ ds, ∀ a a', P a → f x a = .ok a' → P a') →
      foldListE f ds s = .error e → ∃ x ∈ ds, ∃ a, P a ∧ f x a = .error e := by
  intro ds
  induction ds with
  | nil => intro s _ _ h; simp [foldListE] at h
  | cons x xs ih =>
    intro s hs hpres h
    rw [foldListE] at h
    cases hx : f x s with
    | error e' =>
      rw [hx] at h
      simp only [Bind.bind, Except.bind] at h
      injection h with he
      exact ⟨x, List.mem_cons_self _ _, s, hs, he ▸ hx⟩
    | ok s₁ =>
      rw [hx] at h
      simp only [Bind.bind, Except.bind] at h
      obtain ⟨y, hy, a, hPa, herr⟩ := ih
        (hpres x (List.mem_cons_self _ _) s s₁ hs hx)
        (fun z hz => hpres z (List.mem_cons_of_mem _ hz)) h
      exact ⟨y, List.mem_cons_of_mem _ hy, a, hPa, herr⟩

namespace CpmApp

/-- A `visit` call that throws the cycle error was given an id lying on an
id-level dependency cycle, provided the call target extends the current DFS
stack chain. -/
theorem visit_cycle_sound (tm : List (String × Task)) :
    ∀ fuel id (s : DfsState) e,
      visit tm fuel id s = .error (.cycleDetected e) →
      VisitingChain tm s.visiting →
      (∀ hd, s.visiting.head? = some hd → IdEdge tm hd id) →
      IdOnCycle tm e := by
  intro fuel
  induction fuel with
  | zero =>
    intro id s e h _ _
    injection h with h'
    cases h'
  | succ n ih =>
    intro id s e h hchain hpre
    simp only [visit] at h
    by_cases hvd : id ∈ s.visited
    · rw [if_pos hvd] at h; cases h
    · rw [if_neg hvd] at h
      by_cases hvg : id ∈ s.visiting
      · rw [if_pos hvg] at h
        injection h with h'
        injection h' with h''
        subst h''
        obtain ⟨l₁, l₂, hsplit⟩ := List.append_of_mem hvg
        rw [hsplit] at hchain hpre
        have hc1 : List.Chain' (IdEdge tm) (id :: l₁.reverse) := by
          have hfront : List.Chain' (fun newer older => IdEdge tm older newer)
              (l₁ ++ [id]) := (List.chain'_split.mp hchain).1
          have := List.chain'_reverse.mpr hfront
          rwa [List.reverse_append, List.reverse_singleton,
            List.singleton_append] at this
        have hlast : ∀ x, (id :: l₁.reverse).getLast? = some x → IdEdge tm x id := by
          intro x hx
          cases l₁ with
          | nil =>
            simp only [List.reverse_nil, List.getLast?_singleton,
              Option.some.injEq] at hx
            rw [← hx]
            exact hpre id (by simp)
          | cons a l₁' =>
            have : (id :: (a :: l₁').reverse) = (id :: l₁'.reverse) ++ [a] := by
              simp
            rw [this, List.getLast?_concat] at hx
            injection hx with hx'
            rw [← hx']
            exact hpre a (by simp)
        refine ⟨l₁.reverse, ?_⟩
        have hfull : List.Chain' (IdEdge tm) ((id :: l₁.reverse) ++ [id]) := by
          refine List.chain'_append.mpr ⟨hc1, List.chain'_singleton _, ?_⟩
          intro x hx y hy
          simp only [List.head?_cons, Option.mem_def, Option.some.injEq] at hy
          subst hy
          exact hlast x hx
        rwa [List.cons_append] at hfull
      · rw [if_neg hvg] at h
        split at h
        case _ task hlk =>
          simp only [Bind.bind, Except.bind] at h
          split at h
          case _ e' hfold =>
            injection h with h'
            subst h'
            obtain ⟨x, hx, a, hPa, herr⟩ := foldListE_error_ex
              (fun a => a.visiting = id :: s.visiting) rfl
              (fun y _ b b' hP hok => by
                rw [← hP]; exact (visit_post tm n y b b' hok).1) hfold
            refine ih x a e herr ?_ ?_
            · rw [hPa]
              exact List.chain'_cons'.mpr ⟨fun hd hhd => hpre hd hhd, hchain⟩
            · intro hd hhd
              rw [hPa] at hhd
              simp only [List.head?_cons, Option.some.injEq] at hhd
              subst hhd
              exact ⟨task, hlk, hx⟩
          case _ s2 hfold => cases h
        case _ hlk => cases h

/-- `visit` never raises a `TypeError`. -/
theorem visit_not_type (tm : List (String × Task)) :
    ∀ fuel id (s : DfsState), visit tm fuel id s ≠ .error .typeError := by
  intro fuel
  induction fuel with
  | zero =>
    intro id s h
    injection h with h'
    cases h'
  | succ n ih =>
    intro id s h
    simp only [visit] at h
    by_cases hvd : id ∈ s.visited
    · rw [if_pos hvd] at h; cases h
    · rw [if_neg hvd] at h
      by_cases hvg : id ∈ s.visiting
      · rw [if_pos hvg] at h
        injection h with h'
        cases h'
      · rw [if_neg hvg] at h
        split at h
        case _ task hlk =>
          simp only [Bind.bind, Except.bind] at h
          split at h
          case _ e' hfold =>
            injection h with h'
            subst h'
            exact absurd hfold (foldListE_no_bad (fun _ => True) trivial
              (fun _ _ _ _ _ _ => trivial) (fun x _ a _ => ih x a))
          case _ s2 hfold => cases h
        case _ hlk => cases h

theorem topoGo_cycle_sound (tm : List (String × Task)) (fuel : Nat) {e : String} :
    ∀ ts (s : DfsState), s.visiting = [] →
      topoGo tm fuel ts s = .error (.cycleDetected e) → IdOnCycle tm e := by
  intro ts
  induction ts with
  | nil => intro s _ h; cases h
  | cons t ts ih =>
    intro s hvis h
    simp only [topoGo, Bind.bind, Except.bind] at h
    by_cases hvd : t.id ∈ s.visited
    · rw [if_pos hvd] at h
      exact ih s hvis h
    · rw [if_neg hvd] at h
      cases hv : visit tm fuel t.id s with
      | error e' =>
        rw [hv] at h
        injection h with h'
        subst h'
        refine visit_cycle_sound tm fuel t.id s e hv ?_ ?_
        · rw [hvis]; exact List.chain'_nil
        · intro hd hhd
          rw [hvis] at hhd
          cases hhd
      | ok s₁ =>
        rw [hv] at h
        have hvis₁ : s₁.visiting = [] := by
          rw [(visit_post tm fuel t.id s s₁ hv).1, hvis]
        exact ih s₁ hvis₁ h

theorem topoGo_not_type (tm : List (String × Task)) (fuel : Nat) :
    ∀ ts (s : DfsState), topoGo tm fuel ts s ≠ .error .typeError := by
  intro ts
  induction ts with
  | nil => intro s h; cases h
  | cons t ts ih =>
    intro s h
    simp only [topoGo, Bind.bind, Except.bind] at h
    by_cases hvd : t.id ∈ s.visited
    · rw [if_pos hvd] at h
      exact ih s h
    · rw [if_neg hvd] at h
      cases hv : visit tm fuel t.id s with
      | error e' =>
        rw [hv] at h
        injection h with h'
        exact visit_not_type tm fuel t.id s (h' ▸ hv)
      | ok s₁ =>
        rw [hv] at h
        exact ih s₁ h

theorem topologicalSort_cycle_sound (tasks : List Task) {e : String}
    (h : topologicalSort tasks (taskMapOf tasks) = .error (.cycleDetected e)) :
    IdOnCycle (taskMapOf tasks) e := by
  simp only [topologicalSort, Bind.bind, Except.bind] at h
  cases hgo : topoGo (taskMapOf tasks) ((taskMapOf tasks).length + 1) tasks
      ⟨[], [], []⟩ with
  | error err =>
    rw [hgo] at h
    injection h with h'
    exact topoGo_cycle_sound (taskMapOf tasks) _ tasks ⟨[], [], []⟩ rfl
      (h' ▸ hgo)
  | ok sfin => rw [hgo] at h; cases h

theorem topologicalSort_not_type (tasks : List Task) :
    topologicalSort tasks (taskMapOf tasks) ≠ .error .typeError := by
  intro h
  simp only [topologicalSort, Bind.bind, Except.bind] at h
  cases hgo : topoGo (taskMapOf tasks) ((taskMapOf tasks).length + 1) tasks
      ⟨[], [], []⟩ with
  | error err =>
    rw [hgo] at h
    injection h with h'
    exact topoGo_not_type (taskMapOf tasks) _ tasks ⟨[], [], []⟩ (h' ▸ hgo)
  | ok sfin => rw [hgo] at h; cases h

end CpmApp

/-- Turn an id-level chain into a task-level chain (the tasks are the map
images of the ids on the chain). -/
theorem idChain_to_tasks {tasks : List Task} {e : String} {te : Task}
    (hte : lookupA (CpmApp.taskMapOf tasks) e = some te) :
    ∀ (p : List String) (x : String) (tx : Task),
      lookupA (CpmApp.taskMapOf tasks) x = some tx →
      List.Chain (IdEdge (CpmApp.taskMapOf tasks)) x (p ++ [e]) →
      ∃ c : List Task, (∀ u ∈ c, u ∈ tasks) ∧
        List.Chain (fun u v => v.id ∈ u.dependencies) tx (c ++ [te]) := by
  intro p
  induction p with
  | nil =>
    intro x tx hx hchain
    rw [List.nil_append] at hchain
    cases hchain with
    | cons hedge htail =>
      obtain ⟨t, ht, hdep⟩ := hedge
      rw [hx] at ht
      injection ht with ht'
      subst ht'
      have hteid : te.id = e := ((mem_taskMapOf (lookupA_mem hte)).2).symm
      exact ⟨[], by simp, List.Chain.cons (by rw [hteid]; exact hdep) List.Chain.nil⟩
  | cons y p ih =>
    intro x tx hx hchain
    rw [List.cons_append] at hchain
    cases hchain with
    | cons hedge htail =>
      obtain ⟨t, ht, hdep⟩ := hedge
      rw [hx] at ht
      injection ht with ht'
      subst ht'
      have hylook : ∃ ty, lookupA (CpmApp.taskMapOf tasks) y = some ty := by
        have hne : ∃ z rest, p ++ [e] = z :: rest := by
          cases p <;> exact ⟨_, _, rfl⟩
        obtain ⟨z, rest, hzr⟩ := hne
        rw [hzr] at htail
        cases htail with
        | cons hedge' _ =>
          obtain ⟨ty, hty, -⟩ := hedge'
          exact ⟨ty, hty⟩
      obtain ⟨ty, hty⟩ := hylook
      obtain ⟨c, hcmem, hcchain⟩ := ih y ty hty htail
      have htymem := mem_taskMapOf (lookupA_mem hty)
      refine ⟨ty :: c, ?_, ?_⟩
      · intro u hu
        rcases List.mem_cons.mp hu with rfl | hm
        · exact htymem.1
        · exact hcmem u hm
      · rw [List.cons_append]
        exact List.Chain.cons (by rw [← htymem.2]; exact hdep) hcchain

theorem idOnCycle_to_onCycle {tasks : List Task} {e : String}
    (h : IdOnCycle (CpmApp.taskMapOf tasks) e) : OnCycle tasks e := by
  obtain ⟨p, hchain⟩ := h
  have hte : ∃ te, lookupA (CpmApp.taskMapOf tasks) e = some te := by
    have hne : ∃ z rest, p ++ [e] = z :: rest := by
      cases p <;> exact ⟨_, _, rfl⟩
    obtain ⟨z, rest, hzr⟩ := hne
    rw [hzr] at hchain
    cases hchain with
    | cons hedge _ =>
      obtain ⟨te, hte, -⟩ := hedge
      exact ⟨te, hte⟩
  obtain ⟨te, hte⟩ := hte
  have htemem := mem_taskMapOf (lookupA_mem hte)
  obtain ⟨c, hcmem, hcchain⟩ := idChain_to_tasks hte p e te hte hchain
  exact ⟨te, c, htemem.1, htemem.2.symm, hcmem, hcchain⟩

/-- C2 (amended): on every collection with unique ids whose dependency graph
has a cycle, the topological-order implementation's `calculateCPM` fails with
`CycleDetected` naming a task on a cycle, and returns no schedule; (the
fixed-point implementation, by contrast, performs no cycle detection — see its
counterexample). -/
theorem c2_cycle_detected (tasks : List Task) (projectId : String)
    (hnd : NodupIds tasks) (hcyc : HasCycle tasks) :
    ∃ e, CpmApp.calculateCPM tasks projectId = .error (.cycleDetected e) ∧
      OnCycle tasks e := by
  cases hts : CpmApp.topologicalSort tasks (CpmApp.taskMapOf tasks) with
  | ok sorted => exact absurd hcyc (no_cycle_of_topo_ok hnd hts)
  | error err =>
    cases err with
    | cycleDetected e =>
      refine ⟨e, ?_,
        idOnCycle_to_onCycle (CpmApp.topologicalSort_cycle_sound tasks hts)⟩
      simp only [CpmApp.calculateCPM, Bind.bind, Except.bind, hts]
    | typeError => exact absurd hts (CpmApp.topologicalSort_not_type tasks)
    | fuelExhausted => exact absurd hts (CpmApp.topologicalSort_no_fuel tasks)

/-- Witness for C2 at the two-task cycle. -/
theorem c2_cycle_detected_witness :
    NodupIds posCycleTasks ∧ HasCycle posCycleTasks ∧
    (∃ e, CpmApp.calculateCPM posCycleTasks "" = .error (.cycleDetected e) ∧
      OnCycle posCycleTasks e) := by
  have hcyc : HasCycle posCycleTasks :=
    ⟨"X", ⟨"X", "X", 1, ["Y"]⟩, [⟨"Y", "Y", 1, ["X"]⟩], by decide, rfl, by decide,
      List.Chain.cons (by decide) (List.Chain.cons (by decide) List.Chain.nil)⟩
  exact ⟨by decide, hcyc, c2_cycle_detected posCycleTasks "" (by decide) hcyc⟩

/-! ### Characterisation of the forward pass of `CpmApp` -/

/-- Every task duration is non-negative (data-model invariant). -/
def NonnegDur (tasks : List Task) : Prop :=
  ∀ t ∈ tasks, 0 ≤ t.duration

instance (tasks : List Task) : Decidable (NonnegDur tasks) := by
  unfold NonnegDur
  exact List.decidableBAll _ tasks

namespace CpmApp

/-- Earliest start prescribed by the final table (the forward recurrence). -/
def esOf (acc : List (String × ETimes)) (t : Task) : Int :=
  if t.dependencies.length > 0 then maxDepEF t.dependencies acc else 0

/-- The entry of `t` satisfies the forward recurrence relative to `acc`. -/
def ETrec (acc : List (String × ETimes)) (t : Task) : Prop :=
  lookupA acc t.id = some ⟨esOf acc t, esOf acc t + t.duration⟩

theorem initET_map_some (order : List Task) :
    ∀ acc, initET (order.map some) acc =
      .ok (order.foldl (fun m t => objSet m t.id ⟨0, 0⟩) acc) := by
  induction order with
  | nil => intro acc; rfl
  | cons t order ih => intro acc; exact ih (objSet acc t.id ⟨0, 0⟩)

theorem mainET_map_some (order : List Task) :
    ∀ acc, mainET (order.map some) acc = .ok (order.foldl stepET acc) := by
  induction order with
  | nil => intro acc; rfl
  | cons t order ih => intro acc; exact ih (stepET acc t)

theorem foldl_objSet_pairs {α : Type} (v : α) :
    ∀ (order : List Task) (acc : List (String × α)),
      (∀ t ∈ order, lookupA acc t.id = none) → NodupIds order →
      order.foldl (fun m t => objSet m t.id v) acc =
        acc ++ order.map (fun t => (t.id, v)) := by
  intro order
  induction order with
  | nil => intro acc _ _; simp
  | cons t order ih =>
    intro acc hnone hnd
    have hobj : objSet acc t.id v = acc ++ [(t.id, v)] := by
      unfold objSet
      rw [if_neg (by
        rw [hnone t (List.mem_cons_self _ _)]
        simp)]
    simp only [List.foldl_cons, hobj]
    rw [ih (acc ++ [(t.id, v)]) ?_ ?_]
    · simp
    · intro u hu
      rw [lookupA_append]
      rw [hnone u (List.mem_cons_of_mem _ hu)]
      have : ¬ t.id = u.id := by
        intro he
        have hh := (List.nodup_cons.mp hnd).1
        exact hh (List.mem_map.mpr ⟨u, hu, he.symm⟩)
      simp [lookupA, this]
    · exact (List.nodup_cons.mp hnd).2

theorem lookupA_pairs_self {α : Type} (v : α) {order : List Task}
    (hnd : NodupIds order) {t : Task} (ht : t ∈ order) :
    lookupA (order.map (fun u => (u.id, v))) t.id = some v := by
  induction order with
  | nil => cases ht
  | cons u order ih =>
    rcases List.mem_cons.mp ht with rfl | hmem
    · simp [lookupA]
    · have : ¬ u.id = t.id := by
        intro he
        exact (List.nodup_cons.mp hnd).1 (List.mem_map.mpr ⟨t, hmem, he.symm⟩)
      simp only [List.map_cons, lookupA_cons, if_neg this]
      exact ih (List.nodup_cons.mp hnd).2 hmem

theorem maxDepEF_congr {deps : List String} {a b : List (String × ETimes)}
    (h : ∀ d ∈ deps, lookupA a d = lookupA b d) :
    maxDepEF deps a = maxDepEF deps b := by
  unfold maxDepEF
  suffices hgen : ∀ (m : Int) (ds : List String),
      (∀ d ∈ ds, lookupA a d = lookupA b d) →
      ds.foldl (fun m d =>
        match lookupA a d with
        | some r => if r.earliestFinish > m then r.earliestFinish else m
        | none => m) m =
      ds.foldl (fun m d =>
        match lookupA b d with
        | some r => if r.earliestFinish > m then r.earliestFinish else m
        | none => m) m by
    exact hgen 0 deps h
  intro m ds
  induction ds generalizing m with
  | nil => intro _; rfl
  | cons d ds ih =>
    intro hd
    simp only [List.foldl_cons]
    rw [hd d (List.mem_cons_self _ _)]
    exact ih _ (fun x hx => hd x (List.mem_cons_of_mem _ hx))

theorem lookupA_stepET_ne (acc : List (String × ETimes)) (t : Task)
    {k : String} (hk : ¬ t.id = k) :
    lookupA (stepET acc t) k = lookupA acc k := by
  unfold stepET
  by_cases hd : t.dependencies.length > 0 <;>
    simp [hd, lookupA_updk, hk]

theorem lookupA_stepET_self (acc : List (String × ETimes)) (t : Task)
    {r : ETimes} (hr : lookupA acc t.id = some r) :
    lookupA (stepET acc t) t.id =
      some ⟨(if t.dependencies.length > 0 then maxDepEF t.dependencies acc
             else r.earliestStart),
            (if t.dependencies.length > 0 then maxDepEF t.dependencies acc
             else r.earliestStart) + t.duration⟩ := by
  unfold stepET
  by_cases hd : t.dependencies.length > 0 <;>
    simp [hd, lookupA_updk, hr]

theorem keysA_stepET (acc : List (String × ETimes)) (t : Task) :
    keysA (stepET acc t) = keysA acc := by
  unfold stepET
  by_cases hd : t.dependencies.length > 0 <;> simp [hd, keysA_updk]

theorem keysA_eq_ids_aux {order : List Task} (hnd : NodupIds order) :
    ∀ {l₁ : List Task} {t : Task} {l₂ : List Task}, order = l₁ ++ t :: l₂ →
      t.id ∉ l₁.map (fun u => u.id) ∧ t.id ∉ l₂.map (fun u => u.id) := by
  intro l₁ t l₂ hsplit
  subst hsplit
  unfold NodupIds at hnd
  rw [List.map_append, List.map_cons, List.nodup_append] at hnd
  obtain ⟨h₁, h₂, hdisj⟩ := hnd
  exact ⟨fun hm => hdisj hm (List.mem_cons_self _ _),
    (List.nodup_cons.mp h₂).1⟩

/-- Invariant of the second `calculateEarliestTimes` loop: processed entries
satisfy the forward recurrence, unprocessed ones still hold `{0, 0}`, and keys
are stable. -/
theorem fwd_fold_spec :
    ∀ (todo done : List Task) (acc : List (String × ETimes)),
      NodupIds (done ++ todo) →
      DepsFirst (done ++ todo) →
      (∀ t ∈ done, ETrec acc t) →
      (∀ t ∈ todo, lookupA acc t.id = some ⟨0, 0⟩) →
      (∀ t ∈ done ++ todo, ETrec (todo.foldl stepET acc) t) ∧
        keysA (todo.foldl stepET acc) = keysA acc ∧
        (∀ k, k ∉ todo.map (fun t => t.id) →
          lookupA (todo.foldl stepET acc) k = lookupA acc k) := by
  intro todo
  induction todo with
  | nil =>
    intro done acc _ _ hdone _
    refine ⟨?_, rfl, fun k _ => rfl⟩
    intro t ht
    rw [List.append_nil] at ht
    exact hdone t ht
  | cons t todo ih =>
    intro done acc hnd hdf hdone htodo
    obtain ⟨hfresh_done, hfresh_todo⟩ := keysA_eq_ids_aux hnd (rfl :
      done ++ t :: todo = done ++ t :: todo)
    have hdeps_done : ∀ d ∈ t.dependencies, d ∈ done.map (fun u => u.id) :=
      hdf done t todo rfl
    have hstep_pres_done : ∀ u ∈ done,
        lookupA (stepET acc t) u.id = lookupA acc u.id := by
      intro u hu
      refine lookupA_stepET_ne acc t ?_
      intro he
      exact hfresh_done (by rw [he]; exact List.mem_map.mpr ⟨u, hu, rfl⟩)
    have hdep_pres : ∀ u ∈ done, ∀ d ∈ u.dependencies,
        lookupA (stepET acc t) d = lookupA acc d := by
      intro u hu d hd
      obtain ⟨pre, post, hpre⟩ := List.append_of_mem hu
      have hsplit : done ++ t :: todo = pre ++ u :: (post ++ t :: todo) := by
        rw [hpre]; simp
      have hdpre : d ∈ pre.map (fun w => w.id) := hdf pre u _ hsplit d hd
      refine lookupA_stepET_ne acc t ?_
      intro he
      apply hfresh_done
      rw [he]
      rw [hpre, List.map_append]
      exact List.mem_append_left _ hdpre
    have hdep_t_pres : ∀ d ∈ t.dependencies,
        lookupA (stepET acc t) d = lookupA acc d := by
      intro d hd
      refine lookupA_stepET_ne acc t ?_
      intro he
      exact hfresh_done (he ▸ hdeps_done d hd)
    have hrec_done' : ∀ u ∈ done, ETrec (stepET acc t) u := by
      intro u hu
      have := hdone u hu
      unfold ETrec at this ⊢
      rw [hstep_pres_done u hu, this]
      have hes : esOf (stepET acc t) u = esOf acc u := by
        unfold esOf
        by_cases hl : u.dependencies.length > 0
        · rw [if_pos hl, if_pos hl]
          exact maxDepEF_congr (hdep_pres u hu)
        · rw [if_neg hl, if_neg hl]
      rw [hes]
    have hrec_t' : ETrec (stepET acc t) t := by
      unfold ETrec
      rw [lookupA_stepET_self acc t (htodo t (List.mem_cons_self _ _))]
      have hes : esOf (stepET acc t) t =
          (if t.dependencies.length > 0 then maxDepEF t.dependencies acc
           else ETimes.earliestStart ⟨0, 0⟩) := by
        unfold esOf
        by_cases hl : t.dependencies.length > 0
        · rw [if_pos hl, if_pos hl]
          exact maxDepEF_congr hdep_t_pres
        · rw [if_neg hl, if_neg hl]
      rw [hes]
    have htodo' : ∀ u ∈ todo, lookupA (stepET acc t) u.id = some ⟨0, 0⟩ := by
      intro u hu
      rw [lookupA_stepET_ne acc t (fun he =>
        hfresh_todo (by rw [he]; exact List.mem_map.mpr ⟨u, hu, rfl⟩))]
      exact htodo u (List.mem_cons_of_mem _ hu)
    have hdone' : ∀ u ∈ done ++ [t], ETrec (stepET acc t) u := by
      intro u hu
      rcases List.mem_append.mp hu with hm | hm
      · exact hrec_done' u hm
      · rw [List.mem_singleton.mp hm]
        exact hrec_t'
    have hshape : (done ++ [t]) ++ todo = done ++ t :: todo := by simp
    obtain ⟨hall', hkeys', hframe'⟩ := ih (done ++ [t]) (stepET acc t)
      (by rw [hshape]; exact hnd) (by rw [hshape]; exact hdf) hdone' htodo'
    simp only [List.foldl_cons]
    refine ⟨?_, ?_, ?_⟩
    · intro u hu
      refine hall' u ?_
      rw [hshape]
      exact hu
    · rw [hkeys', keysA_stepET]
    · intro k hk
      simp only [List.map_cons, List.mem_cons] at hk
      push_neg at hk
      rw [hframe' k hk.2,
        lookupA_stepET_ne acc t (fun he => hk.1 he.symm)]

/-- Full specification of `calculateEarliestTimes` on a duplicate-free
dependency-ordered list: it succeeds and its table satisfies the forward
recurrence. -/
theorem calculateEarliestTimes_spec (order : List Task)
    (tm : List (String × Task)) (hnd : NodupIds order) (hdf : DepsFirst order) :
    ∃ et, calculateEarliestTimes (order.map some) tm = .ok et ∧
      keysA et = order.map (fun t => t.id) ∧
      ∀ t ∈ order, ETrec et t := by
  have hinit : initET (order.map some) [] =
      .ok (order.map (fun t => (t.id, (⟨0, 0⟩ : ETimes)))) := by
    rw [initET_map_some]
    rw [foldl_objSet_pairs _ order [] (fun _ _ => rfl) hnd]
    rfl
  set init := order.map (fun t => (t.id, (⟨0, 0⟩ : ETimes))) with hinitdef
  obtain ⟨hall, hkeys, -⟩ := fwd_fold_spec order [] init
    (by simpa using hnd) (by simpa using hdf) (by simp)
    (fun t ht => lookupA_pairs_self _ hnd ht)
  refine ⟨order.foldl stepET init, ?_, ?_, ?_⟩
  · unfold calculateEarliestTimes
    rw [hinit]
    simp only [Bind.bind, Except.bind]
    exact mainET_map_some order init
  · rw [hkeys, hinitdef]
    unfold keysA
    simp
  · intro t ht
    exact hall t (by simpa using ht)

theorem maxDepEF_fold_ge (acc : List (String × ETimes)) :
    ∀ (deps : List String) (m : Int),
      m ≤ deps.foldl (fun m d =>
        match lookupA acc d with
        | some r => if r.earliestFinish > m then r.earliestFinish else m
        | none => m) m := by
  intro deps
  induction deps with
  | nil => intro m; exact le_refl m
  | cons d ds ih =>
    intro m
    simp only [List.foldl_cons]
    refine le_trans ?_ (ih _)
    cases lookupA acc d with
    | none => exact le_refl m
    | some r =>
      by_cases h : r.earliestFinish > m
      · simp only [if_pos h]; omega
      · simp only [if_neg h]; exact le_refl m

theorem maxDepEF_nonneg (deps : List String) (acc : List (String × ETimes)) :
    0 ≤ maxDepEF deps acc :=
  maxDepEF_fold_ge acc deps 0

theorem maxDepEF_ge_dep {deps : List String} {acc : List (String × ETimes)}
    {d : String} {r : ETimes} (hd : d ∈ deps) (hr : lookupA acc d = some r) :
    r.earliestFinish ≤ maxDepEF deps acc := by
  unfold maxDepEF
  suffices hgen : ∀ (ds : List String) (m : Int), d ∈ ds →
      r.earliestFinish ≤ ds.foldl (fun m d =>
        match lookupA acc d with
        | some r => if r.earliestFinish > m then r.earliestFinish else m
        | none => m) m by
    exact hgen deps 0 hd
  intro ds
  induction ds with
  | nil => intro m h; cases h
  | cons x ds ih =>
    intro m hmem
    simp only [List.foldl_cons]
    rcases List.mem_cons.mp hmem with rfl | hmem'
    · rw [hr]
      refine le_trans ?_ (maxDepEF_fold_ge acc ds _)
      by_cases h : r.earliestFinish > m
      · simp only [if_pos h]; exact le_refl _
      · simp only [if_neg h]; omega
    · exact ih _ hmem'

theorem maxDepEF_cases (acc : List (String × ETimes)) :
    ∀ (deps : List String) (m : Int),
      deps.foldl (fun m d =>
        match lookupA acc d with
        | some r => if r.earliestFinish > m then r.earliestFinish else m
        | none => m) m = m ∨
      ∃ d ∈ deps, ∃ r, lookupA acc d = some r ∧
        deps.foldl (fun m d =>
          match lookupA acc d with
          | some r => if r.earliestFinish > m then r.earliestFinish else m
          | none => m) m = r.earliestFinish := by
  intro deps
  induction deps with
  | nil => intro m; exact Or.inl rfl
  | cons x ds ih =>
    intro m
    simp only [List.foldl_cons]
    cases hx : lookupA acc x with
    | none =>
      rcases ih m with h | ⟨d, hd, r, hr, hfold⟩
      · exact Or.inl h
      · exact Or.inr ⟨d, List.mem_cons_of_mem _ hd, r, hr, hfold⟩
    | some r₀ =>
      by_cases h : r₀.earliestFinish > m
      · simp only [if_pos h]
        rcases ih r₀.earliestFinish with heq | ⟨d, hd, r, hr, hfold⟩
        · exact Or.inr ⟨x, List.mem_cons_self _ _, r₀, hx, heq⟩
        · exact Or.inr ⟨d, List.mem_cons_of_mem _ hd, r, hr, hfold⟩
      · simp only [if_neg h]
        rcases ih m with heq | ⟨d, hd, r, hr, hfold⟩
        · exact Or.inl heq
        · exact Or.inr ⟨d, List.mem_cons_of_mem _ hd, r, hr, hfold⟩

theorem maxDepEF_achieved {deps : List String} {acc : List (String × ETimes)}
    (hne : deps ≠ [])
    (hall : ∀ d ∈ deps, ∃ r, lookupA acc d = some r ∧ 0 ≤ r.earliestFinish) :
    ∃ d ∈ deps, ∃ r, lookupA acc d = some r ∧
      r.earliestFinish = maxDepEF deps acc := by
  rcases maxDepEF_cases acc deps 0 with hzero | ⟨d, hd, r, hr, hfold⟩
  · cases deps with
    | nil => exact absurd rfl hne
    | cons d ds =>
      obtain ⟨r, hr, hrge⟩ := hall d (List.mem_cons_self _ _)
      have hle : r.earliestFinish ≤ maxDepEF (d :: ds) acc :=
        maxDepEF_ge_dep (List.mem_cons_self _ _) hr
      unfold maxDepEF at hle ⊢
      refine ⟨d, List.mem_cons_self _ _, r, hr, ?_⟩
      omega
  · exact ⟨d, hd, r, hr, hfold.symm⟩

theorem esOf_nonneg (acc : List (String × ETimes)) (t : Task) :
    0 ≤ esOf acc t := by
  unfold esOf
  by_cases h : t.dependencies.length > 0
  · rw [if_pos h]; exact maxDepEF_nonneg _ _
  · rw [if_neg h]

end CpmApp

/-- Dependency chains: `DepChain tasks t p` says `p` is a non-empty directed
dependency path through `tasks` ending at `t` (every element depends on its
predecessor in the list). -/
inductive DepChain (tasks : List Task) : Task → List Task → Prop where
  | single (t : Task) (ht : t ∈ tasks) : DepChain tasks t [t]
  | snoc (u t : Task) (p : List Task) (hp : DepChain tasks u p) (ht : t ∈ tasks)
      (hdep : u.id ∈ t.dependencies) : DepChain tasks t (p ++ [t])

/-- Total duration of a path. -/
def pathDuration (p : List Task) : Int :=
  (p.map (fun t => t.duration)).sum

/-- A root-to-sink path: a dependency chain from a task without dependencies
to a task on which no task depends. -/
def RootToSink (tasks : List Task) (t : Task) (p : List Task) : Prop :=
  DepChain tasks t p ∧
  (∃ h rest, p = h :: rest ∧ h.dependencies = []) ∧
  (∀ u ∈ tasks, t.id ∉ u.dependencies)

theorem DepChain.end_mem {tasks : List Task} {t : Task} {p : List Task}
    (h : DepChain tasks t p) : t ∈ tasks := by
  cases h with
  | single t ht => exact ht
  | snoc u t p hp ht hdep => exact ht

theorem DepChain.sublist_mem {tasks : List Task} {t : Task} {p : List Task}
    (h : DepChain tasks t p) : ∀ u ∈ p, u ∈ tasks := by
  induction h with
  | single t ht => intro u hu; rw [List.mem_singleton.mp hu]; exact ht
  | snoc u t p hp ht hdep ih =>
    intro w hw
    rcases List.mem_append.mp hw with hm | hm
    · exact ih w hm
    · rw [List.mem_singleton.mp hm]; exact ht

theorem DepChain.congr {tasks tasks' : List Task}
    (hiff : ∀ x, x ∈ tasks ↔ x ∈ tasks') {t : Task} {p : List Task}
    (h : DepChain tasks t p) : DepChain tasks' t p := by
  induction h with
  | single t ht => exact DepChain.single t ((hiff t).mp ht)
  | snoc u t p hp ht hdep ih => exact DepChain.snoc u t p ih ((hiff t).mp ht) hdep

/-- F1 (soundness): no dependency chain's total duration exceeds the earliest
finish of its endpoint. -/
theorem chain_sum_le {order : List Task} {et : List (String × CpmApp.ETimes)}
    (hnd : NodupIds order) (hdur : NonnegDur order)
    (hrec : ∀ t ∈ order, CpmApp.ETrec et t) :
    ∀ {t : Task} {p : List Task}, DepChain order t p →
      pathDuration p ≤ CpmApp.esOf et t + t.duration := by
  intro t p h
  induction h with
  | single t ht =>
    have := CpmApp.esOf_nonneg et t
    simp only [pathDuration, List.map_cons, List.map_nil, List.sum_cons,
      List.sum_nil]
    omega
  | snoc u t p hp ht hdep ih =>
    have hu := hp.end_mem
    have hrecu := hrec u hu
    unfold CpmApp.ETrec at hrecu
    have hge : CpmApp.esOf et u + u.duration ≤
        CpmApp.maxDepEF t.dependencies et := by
      have := CpmApp.maxDepEF_ge_dep hdep hrecu
      simpa using this
    have hlen : t.dependencies.length > 0 :=
      List.length_pos.mpr (List.ne_nil_of_mem hdep)
    have hesd : CpmApp.esOf et t = CpmApp.maxDepEF t.dependencies et := by
      unfold CpmApp.esOf
      rw [if_pos hlen]
    have hsum : pathDuration (p ++ [t]) = pathDuration p + t.duration := by
      simp [pathDuration]
    rw [hsum, hesd]
    omega

/-! ### The maximum of a list in `WithBot Int` -/

theorem foldMaxBot_ge_init (l : List Int) :
    ∀ m : WithBot Int, m ≤ l.foldl (fun m (x : Int) => max m (x : WithBot Int)) m := by
  induction l with
  | nil => intro m; exact le_refl m
  | cons x xs ih =>
    intro m
    simp only [List.foldl_cons]
    exact le_trans (le_max_left _ _) (ih _)

theorem foldMaxBot_ge_mem (l : List Int) (x : Int) :
    x ∈ l → ∀ m : WithBot Int,
      (x : WithBot Int) ≤ l.foldl (fun m (x : Int) => max m (x : WithBot Int)) m := by
  induction l with
  | nil => intro hx; cases hx
  | cons y ys ih =>
    intro hx m
    simp only [List.foldl_cons]
    rcases List.mem_cons.mp hx with rfl | hmem
    · exact le_trans (le_max_right _ _) (foldMaxBot_ge_init ys _)
    · exact ih hmem _

theorem foldMaxBot_cases (l : List Int) :
    ∀ m : WithBot Int, l.foldl (fun m (x : Int) => max m (x : WithBot Int)) m = m ∨
      ∃ x ∈ l, l.foldl (fun m (x : Int) => max m (x : WithBot Int)) m = (x : WithBot Int) := by
  induction l with
  | nil => intro m; exact Or.inl rfl
  | cons y ys ih =>
    intro m
    simp only [List.foldl_cons]
    rcases ih (max m (y : WithBot Int)) with heq | ⟨x, hx, heq⟩
    · rcases max_cases m (y : WithBot Int) with ⟨hmax, -⟩ | ⟨hmax, -⟩
      · exact Or.inl (by rw [heq, hmax])
      · exact Or.inr ⟨y, List.mem_cons_self _ _, by rw [heq, hmax]⟩
    · exact Or.inr ⟨x, List.mem_cons_of_mem _ hx, heq⟩

theorem foldMaxBot_le (l : List Int) (b : WithBot Int) :
    ∀ m : WithBot Int, m ≤ b → (∀ x ∈ l, (x : WithBot Int) ≤ b) →
      l.foldl (fun m (x : Int) => max m (x : WithBot Int)) m ≤ b := by
  induction l with
  | nil => intro m hm _; exact hm
  | cons y ys ih =>
    intro m hm hall
    simp only [List.foldl_cons]
    exact ih _ (max_le hm (hall y (List.mem_cons_self _ _)))
      (fun x hx => hall x (List.mem_cons_of_mem _ hx))

theorem listMaxBot_eq (l : List Int) :
    ∀ m : WithBot Int,
      l.foldl (fun m x => max m (x : WithBot Int)) m =
        l.foldl (fun m (x : Int) => max m (x : WithBot Int)) m := by
  induction l with
  | nil => intro m; rfl
  | cons x xs ih => intro m; exact ih _

theorem listMaxBot_ge {l : List Int} {x : Int} (hx : x ∈ l) :
    (x : WithBot Int) ≤ listMaxBot l := by
  unfold listMaxBot
  rw [listMaxBot_eq]
  exact foldMaxBot_ge_mem l x hx ⊥

theorem listMaxBot_le {l : List Int} {b : WithBot Int}
    (hall : ∀ x ∈ l, (x : WithBot Int) ≤ b) : listMaxBot l ≤ b := by
  unfold listMaxBot
  rw [listMaxBot_eq]
  exact foldMaxBot_le l b ⊥ bot_le hall

theorem listMaxBot_achieved {l : List Int} (hne : l ≠ []) :
    ∃ x ∈ l, listMaxBot l = (x : WithBot Int) := by
  unfold listMaxBot
  rw [listMaxBot_eq]
  rcases foldMaxBot_cases l ⊥ with heq | h
  · cases l with
    | nil => exact absurd rfl hne
    | cons y ys =>
      have hge := foldMaxBot_ge_mem (y :: ys) y (List.mem_cons_self _ _) ⊥
      rw [heq] at hge
      exact absurd hge (by simp)
  · exact h

/-- A nodup-keyed table whose keys and lookups are given by a task list is
pointwise that task list's image. -/
theorem table_vals {α : Type} :
    ∀ (m : List (String × α)) (order : List Task) (g : Task → α),
      keysA m = order.map (fun t => t.id) → NodupIds order →
      (∀ t ∈ order, lookupA m t.id = some (g t)) →
      m.map Prod.snd = order.map g := by
  intro m
  induction m with
  | nil =>
    intro order g hk _ _
    cases order with
    | nil => rfl
    | cons t ord => simp [keysA] at hk
  | cons p m ih =>
    intro order g hk hnd hlook
    cases order with
    | nil => simp [keysA] at hk
    | cons t ord =>
      obtain ⟨k, v⟩ := p
      simp only [keysA, List.map_cons, List.cons.injEq] at hk
      obtain ⟨hk1, hk2⟩ := hk
      have ht := hlook t (List.mem_cons_self _ _)
      rw [lookupA_cons, hk1, if_pos rfl] at ht
      injection ht with hv
      have hnd' : NodupIds ord := by
        unfold NodupIds at hnd ⊢
        simp only [List.map_cons, List.nodup_cons] at hnd
        exact hnd.2
      have hlook' : ∀ u ∈ ord, lookupA m u.id = some (g u) := by
        intro u hu
        have hl := hlook u (List.mem_cons_of_mem _ hu)
        rw [lookupA_cons] at hl
        have hne : k ≠ u.id := by
          rw [hk1]
          intro heq
          unfold NodupIds at hnd
          simp only [List.map_cons, List.nodup_cons] at hnd
          exact hnd.1 (by rw [heq]; exact List.mem_map.mpr ⟨u, hu, rfl⟩)
        rw [if_neg hne] at hl
        exact hl
      simp only [List.map_cons]
      rw [hv, ih ord g hk2 hnd' hlook']

theorem nodup_middle_not_mem {α : Type} {l₁ l₂ : List α} {x : α}
    (h : (l₁ ++ x :: l₂).Nodup) : x ∉ l₁ ∧ x ∉ l₂ := by
  rw [List.nodup_middle] at h
  have hx := (List.nodup_cons.mp h).1
  rw [List.mem_append] at hx
  exact ⟨fun h1 => hx (Or.inl h1), fun h2 => hx (Or.inr h2)⟩

/-- F2 (achievability): in a table satisfying the forward recurrence along a
dependency-closed topological order, every task is the endpoint of a
dependency chain from a dependency-free task whose total duration is exactly
its earliest finish. -/
theorem ef_achieved {order : List Task} {et : List (String × CpmApp.ETimes)}
    (hnd : NodupIds order) (hdf : DepsFirst order) (hdur : NonnegDur order)
    (hrec : ∀ t ∈ order, CpmApp.ETrec et t) :
    ∀ n l₁ t l₂, order = l₁ ++ t :: l₂ → l₁.length = n →
      ∃ p, DepChain order t p ∧
        pathDuration p = CpmApp.esOf et t + t.duration ∧
        ∃ h rest, p = h :: rest ∧ h.dependencies = [] := by
  intro n
  induction n using Nat.strong_induction_on with
  | _ n ih =>
    intro l₁ t l₂ hsplit hlen
    have htmem : t ∈ order := by
      rw [hsplit]; exact List.mem_append_right _ (List.mem_cons_self _ _)
    by_cases hdeps : t.dependencies = []
    · refine ⟨[t], DepChain.single t htmem, ?_, t, [], rfl, hdeps⟩
      unfold CpmApp.esOf
      rw [hdeps]
      simp [pathDuration]
    · have hlenpos : t.dependencies.length > 0 :=
        List.length_pos.mpr hdeps
      have hes : CpmApp.esOf et t = CpmApp.maxDepEF t.dependencies et := by
        unfold CpmApp.esOf; rw [if_pos hlenpos]
      have hall : ∀ d ∈ t.dependencies,
          ∃ r, lookupA et d = some r ∧ 0 ≤ r.earliestFinish := by
        intro d hd
        obtain ⟨u, hu, hud⟩ := List.mem_map.mp (hdf l₁ t l₂ hsplit d hd)
        have humem : u ∈ order := by rw [hsplit]; exact List.mem_append_left _ hu
        have hru := hrec u humem
        unfold CpmApp.ETrec at hru
        refine ⟨_, by rw [← hud]; exact hru, ?_⟩
        have h1 := CpmApp.esOf_nonneg et u
        have h2 := hdur u humem
        simp only
        omega
      obtain ⟨d, hd, r, hr, hreq⟩ := CpmApp.maxDepEF_achieved hdeps hall
      obtain ⟨u, hu, hud⟩ := List.mem_map.mp (hdf l₁ t l₂ hsplit d hd)
      have humem : u ∈ order := by rw [hsplit]; exact List.mem_append_left _ hu
      have hru := hrec u humem
      unfold CpmApp.ETrec at hru
      have hr' : lookupA et u.id = some r := by rw [hud]; exact hr
      have hre := hr'.symm.trans hru
      injection hre with hre
      have hef : r.earliestFinish = CpmApp.esOf et u + u.duration := by rw [hre]
      obtain ⟨s, s', hseq⟩ := List.append_of_mem hu
      have hlt : s.length < n := by
        rw [hseq] at hlen
        simp only [List.length_append, List.length_cons] at hlen
        omega
      have horder : order = s ++ u :: (s' ++ t :: l₂) := by
        rw [hsplit, hseq, List.append_assoc, List.cons_append]
      obtain ⟨p, hp, hsum, hh, hrest, hpe, hhdeps⟩ :=
        ih s.length hlt s u (s' ++ t :: l₂) horder rfl
      refine ⟨p ++ [t], DepChain.snoc u t p hp htmem (by rw [hud]; exact hd),
        ?_, hh, hrest ++ [t], by rw [hpe, List.cons_append], hhdeps⟩
      have hsum2 : pathDuration (p ++ [t]) = pathDuration p + t.duration := by
        simp [pathDuration]
      rw [hsum2, hsum, hes, ← hreq, hef]

/-- Every task's earliest finish is dominated by the total duration of some
root-to-sink chain (obtained by repeatedly stepping to a dependent task). -/
theorem sink_chain_ge {order : List Task} {et : List (String × CpmApp.ETimes)}
    (hnd : NodupIds order) (hdf : DepsFirst order) (hdur : NonnegDur order)
    (hrec : ∀ t ∈ order, CpmApp.ETrec et t) :
    ∀ n l₁ t l₂, order = l₁ ++ t :: l₂ → l₂.length = n →
      ∃ s p, DepChain order s p ∧ (∀ u ∈ order, s.id ∉ u.dependencies) ∧
        (∃ h rest, p = h :: rest ∧ h.dependencies = []) ∧
        CpmApp.esOf et t + t.duration ≤ pathDuration p := by
  intro n
  induction n using Nat.strong_induction_on with
  | _ n ih =>
    intro l₁ t l₂ hsplit hlen
    have htmem : t ∈ order := by
      rw [hsplit]; exact List.mem_append_right _ (List.mem_cons_self _ _)
    have hmapsplit : order.map (fun v => v.id) =
        l₁.map (fun v => v.id) ++ t.id :: l₂.map (fun v => v.id) := by
      rw [hsplit]; simp
    have hnotid : t.id ∉ l₁.map (fun v => v.id) ∧
        t.id ∉ l₂.map (fun v => v.id) := by
      have hnd' : (l₁.map (fun v => v.id) ++
          t.id :: l₂.map (fun v => v.id)).Nodup := by
        rw [← hmapsplit]; exact hnd
      exact nodup_middle_not_mem hnd'
    by_cases hsink : ∀ u ∈ order, t.id ∉ u.dependencies
    · obtain ⟨p, hp, hsum, hhead⟩ :=
        ef_achieved hnd hdf hdur hrec l₁.length l₁ t l₂ hsplit rfl
      exact ⟨t, p, hp, hsink, hhead, le_of_eq hsum.symm⟩
    · push_neg at hsink
      obtain ⟨u, humem, hdep⟩ := hsink
      have humem' := humem
      rw [hsplit, List.mem_append, List.mem_cons] at humem'
      rcases humem' with hul | hut | hul2
      · exfalso
        obtain ⟨a, b, haeq⟩ := List.append_of_mem hul
        have horder : order = a ++ u :: (b ++ t :: l₂) := by
          rw [hsplit, haeq, List.append_assoc, List.cons_append]
        have := hdf a u (b ++ t :: l₂) horder t.id hdep
        refine hnotid.1 ?_
        rw [haeq]
        simp only [List.map_append, List.mem_append]
        exact Or.inl this
      · exfalso
        rw [hut] at hdep
        have := hdf l₁ t l₂ hsplit t.id hdep
        exact hnotid.1 this
      · obtain ⟨a, b, haeq⟩ := List.append_of_mem hul2
        have horder : order = (l₁ ++ t :: a) ++ u :: b := by
          rw [hsplit, haeq]
          simp [List.append_assoc]
        have hblt : b.length < n := by
          rw [haeq] at hlen
          simp only [List.length_append, List.length_cons] at hlen
          omega
        obtain ⟨s, p, hp, hssink, hhead, hge⟩ :=
          ih b.length hblt (l₁ ++ t :: a) u b horder rfl
        refine ⟨s, p, hp, hssink, hhead, le_trans ?_ hge⟩
        have hrt := hrec t htmem
        have hru := hrec u humem
        unfold CpmApp.ETrec at hrt hru
        have hmd : CpmApp.esOf et t + t.duration ≤
            CpmApp.maxDepEF u.dependencies et := by
          have := CpmApp.maxDepEF_ge_dep hdep hrt
          simpa using this
        have hupos : u.dependencies.length > 0 :=
          List.length_pos.mpr (List.ne_nil_of_mem hdep)
        have hesu : CpmApp.esOf et u = CpmApp.maxDepEF u.dependencies et := by
          unfold CpmApp.esOf; rw [if_pos hupos]
        have hdu := hdur u humem
        rw [hesu] at *
        omega

/-! ### Totality of the latest-times pass on a fully resolved order -/

theorem keysA_foldl_objSet_fn {α : Type} (f : Task → α) (us : List Task) :
    ∀ (acc : List (String × α)) (k : String),
      k ∈ keysA (us.foldl (fun m u => objSet m u.id (f u)) acc) ↔
        k ∈ keysA acc ∨ k ∈ us.map (fun t => t.id) := by
  induction us with
  | nil => simp
  | cons u us ih =>
    intro acc k
    simp only [List.foldl_cons, List.map_cons, List.mem_cons]
    rw [ih, mem_keysA_objSet]
    tauto

namespace CpmApp

theorem initSucc_map_some (order : List Task) :
    ∀ acc, initSucc (order.map some) acc =
      .ok (order.foldl (fun m t => objSet m t.id ([] : List String)) acc) := by
  induction order with
  | nil => intro acc; rfl
  | cons t order ih => intro acc; exact ih (objSet acc t.id [])

theorem pushSuccs_ok (tid : String) :
    ∀ (ds : List String) (acc : List (String × List String)),
      (∀ d ∈ ds, d ∈ keysA acc) →
      ∃ acc', pushSuccs tid ds acc = .ok acc' ∧ keysA acc' = keysA acc := by
  intro ds
  induction ds with
  | nil => intro acc _; exact ⟨acc, rfl, rfl⟩
  | cons d ds ih =>
    intro acc hall
    have hd : (lookupA acc d).isSome :=
      (lookupA_isSome_iff acc d).mpr (hall d (List.mem_cons_self _ _))
    obtain ⟨acc', hok, hk⟩ := ih (updk acc d (fun l => l ++ [tid]))
      (fun e he => by rw [keysA_updk]; exact hall e (List.mem_cons_of_mem _ he))
    refine ⟨acc', ?_, by rw [hk, keysA_updk]⟩
    simp only [pushSuccs]
    rw [if_pos hd]
    exact hok

theorem fillSucc_ok :
    ∀ (order : List Task) (acc : List (String × List String)),
      (∀ t ∈ order, ∀ d ∈ t.dependencies, d ∈ keysA acc) →
      ∃ acc', fillSucc (order.map some) acc = .ok acc' ∧
        keysA acc' = keysA acc := by
  intro order
  induction order with
  | nil => intro acc _; exact ⟨acc, rfl, rfl⟩
  | cons t order ih =>
    intro acc hall
    obtain ⟨acc1, hok1, hk1⟩ :=
      pushSuccs_ok t.id t.dependencies acc (hall t (List.mem_cons_self _ _))
    obtain ⟨acc', hok', hk'⟩ := ih acc1
      (fun u hu d hd => by rw [hk1]; exact hall u (List.mem_cons_of_mem _ hu) d hd)
    refine ⟨acc', ?_, by rw [hk', hk1]⟩
    simp only [List.map_cons, fillSucc, Bind.bind, Except.bind, hok1]
    exact hok'

theorem initLT_map_some (pd : Int) (order : List Task) :
    ∀ acc, initLT pd (order.map some) acc =
      .ok (order.foldl (fun m t => objSet m t.id ⟨pd, pd⟩) acc) := by
  induction order with
  | nil => intro acc; rfl
  | cons t order ih => intro acc; exact ih (objSet acc t.id ⟨pd, pd⟩)

theorem stepLT_ok (pd : Int) (succMap : List (String × List String))
    (acc : List (String × LTimes)) (t : Task)
    (h : t.id ∈ keysA succMap) :
    ∃ acc', stepLT pd succMap acc t = .ok acc' := by
  obtain ⟨succs, hsuccs⟩ := Option.isSome_iff_exists.mp
    ((lookupA_isSome_iff succMap t.id).mpr h)
  unfold stepLT
  rw [hsuccs]
  exact ⟨_, rfl⟩

theorem revLT_ok (pd : Int) (succMap : List (String × List String)) :
    ∀ (l : List Task) (acc : List (String × LTimes)),
      (∀ t ∈ l, t.id ∈ keysA succMap) →
      ∃ acc', revLT pd succMap (l.map some) acc = .ok acc' := by
  intro l
  induction l with
  | nil => intro acc _; exact ⟨acc, rfl⟩
  | cons t l ih =>
    intro acc hall
    obtain ⟨acc1, hstep⟩ :=
      stepLT_ok pd succMap acc t (hall t (List.mem_cons_self _ _))
    obtain ⟨acc', hok⟩ := ih acc1 (fun u hu => hall u (List.mem_cons_of_mem _ hu))
    refine ⟨acc', ?_⟩
    simp only [List.map_cons, revLT, Bind.bind, Except.bind, hstep]
    exact hok

theorem calculateLatestTimes_ok (order : List Task)
    (tm : List (String × Task)) (pd : Int)
    (hdeps : ∀ t ∈ order, ∀ d ∈ t.dependencies,
      d ∈ order.map (fun u => u.id)) :
    ∃ lt, calculateLatestTimes (order.map some) tm pd = .ok lt := by
  have hkeys0 : ∀ k, k ∈ keysA
      (order.foldl (fun m t => objSet m t.id ([] : List String)) []) ↔
      k ∈ order.map (fun t => t.id) := by
    intro k
    have := keysA_foldl_objSet_fn (fun _ => ([] : List String)) order [] k
    simpa [keysA] using this
  obtain ⟨succ, hsuccok, hsk⟩ := fillSucc_ok order _
    (fun t ht d hd => (hkeys0 d).mpr (hdeps t ht d hd))
  have hsucckeys : ∀ t ∈ order, t.id ∈ keysA succ := by
    intro t ht
    rw [hsk]
    exact (hkeys0 t.id).mpr (List.mem_map.mpr ⟨t, ht, rfl⟩)
  obtain ⟨lt, hltok⟩ := revLT_ok pd succ order.reverse _
    (fun t ht => hsucckeys t (List.mem_reverse.mp ht))
  refine ⟨lt, ?_⟩
  unfold calculateLatestTimes
  simp only [Bind.bind, Except.bind, initSucc_map_some, hsuccok,
    initLT_map_some]
  rw [← List.map_reverse]
  exact hltok

end CpmApp

/-- One successful run of the topological-order `calculateCPM`: on a
collection with unique ids, fully resolved dependencies and no cycle, it
returns a result whose project duration is the maximum earliest finish over a
topological order satisfying the forward recurrence. -/
theorem cpmApp_run (tasks : List Task) (pid : String)
    (hnd : NodupIds tasks) (hap : AllPresent tasks) (hnc : ¬ HasCycle tasks) :
    ∃ (order : List Task) (et : List (String × CpmApp.ETimes))
      (lt : List (String × CpmApp.LTimes)) (r : CpmApp.ProjectCPMResults),
      CpmApp.topologicalSort tasks (CpmApp.taskMapOf tasks) =
        .ok (order.map some) ∧
      order.Perm tasks ∧ DepsFirst order ∧ NodupIds order ∧
      keysA et = order.map (fun t => t.id) ∧
      (∀ t ∈ order, CpmApp.ETrec et t) ∧
      CpmApp.calculateCPM tasks pid = .ok r ∧
      r.projectDuration =
        listMaxBot (order.map (fun t => CpmApp.esOf et t + t.duration)) ∧
      CpmApp.calculateLatestTimes (order.map some) (CpmApp.taskMapOf tasks)
        (r.projectDuration.unbot' 0) = .ok lt ∧
      r.taskResults = CpmApp.calculateTaskResults et lt ∧
      r.criticalPath = CpmApp.findCriticalPath (CpmApp.calculateTaskResults et lt) := by
  cases hts : CpmApp.topologicalSort tasks (CpmApp.taskMapOf tasks) with
  | error err =>
    exfalso
    cases err with
    | cycleDetected e =>
      exact hnc ⟨e,
        idOnCycle_to_onCycle (CpmApp.topologicalSort_cycle_sound tasks hts)⟩
    | typeError => exact CpmApp.topologicalSort_not_type tasks hts
    | fuelExhausted => exact CpmApp.topologicalSort_no_fuel tasks hts
  | ok sorted =>
    obtain ⟨order, hsorted, hperm, hdf, hndo⟩ :=
      topologicalSort_order hnd hap hts
    subst hsorted
    obtain ⟨et, hetok, hkeys, hrec⟩ :=
      CpmApp.calculateEarliestTimes_spec order (CpmApp.taskMapOf tasks) hndo hdf
    have hdeps : ∀ t ∈ order, ∀ d ∈ t.dependencies,
        d ∈ order.map (fun u => u.id) := by
      intro t ht d hd
      have := hap t (hperm.subset ht) d hd
      exact (hperm.map (fun u => u.id)).mem_iff.mpr this
    have hvals : (et.map Prod.snd).map (fun r => r.earliestFinish) =
        order.map (fun t => CpmApp.esOf et t + t.duration) := by
      have h1 : et.map Prod.snd = order.map
          (fun t => (⟨CpmApp.esOf et t, CpmApp.esOf et t + t.duration⟩ :
            CpmApp.ETimes)) :=
        table_vals et order _ hkeys hndo (fun t ht => hrec t ht)
      rw [h1, List.map_map]
      rfl
    obtain ⟨lt, hltok⟩ := CpmApp.calculateLatestTimes_ok order
      (CpmApp.taskMapOf tasks)
      ((listMaxBot (order.map (fun t => CpmApp.esOf et t + t.duration))).unbot' 0)
      hdeps
    refine ⟨order, et, lt,
      ⟨pid, listMaxBot (order.map (fun t => CpmApp.esOf et t + t.duration)),
        CpmApp.findCriticalPath (CpmApp.calculateTaskResults et lt),
        CpmApp.calculateTaskResults et lt⟩,
      rfl, hperm, hdf, hndo, hkeys, hrec, ?_, rfl, hltok, rfl, rfl⟩
    simp only [CpmApp.calculateCPM, Bind.bind, Except.bind, hts, hetok,
      hvals, hltok]

/-- The project duration on a well-formed acyclic collection dominates the
total duration of every dependency chain, and is attained by some
root-to-sink chain. -/
theorem cpmApp_pd_bounds (tasks : List Task) (pid : String)
    (hne : tasks ≠ []) (hnd : NodupIds tasks) (hap : AllPresent tasks)
    (hdur : NonnegDur tasks) (hnc : ¬ HasCycle tasks) :
    ∃ r, CpmApp.calculateCPM tasks pid = .ok r ∧
      (∀ t p, DepChain tasks t p →
        (pathDuration p : WithBot Int) ≤ r.projectDuration) ∧
      (∃ t p, RootToSink tasks t p ∧
        (pathDuration p : WithBot Int) = r.projectDuration) := by
  obtain ⟨order, et, lt, r, htopo, hperm, hdf, hndo, hkeys, hrec, hok, hpd,
    hlt, hres, hcp⟩ := cpmApp_run tasks pid hnd hap hnc
  have hmemiff : ∀ x, x ∈ tasks ↔ x ∈ order := fun x => hperm.mem_iff.symm
  have hduro : NonnegDur order := fun t ht => hdur t (hperm.subset ht)
  have horder_ne : order ≠ [] := by
    intro h
    rw [h] at hperm
    exact hne hperm.symm.eq_nil
  refine ⟨r, hok, ?_, ?_⟩
  · intro t p hchain
    have hchain' : DepChain order t p := hchain.congr hmemiff
    have hbound := chain_sum_le hndo hduro hrec hchain'
    have hle2 : ((CpmApp.esOf et t + t.duration : Int) : WithBot Int) ≤
        listMaxBot (order.map (fun u => CpmApp.esOf et u + u.duration)) :=
      listMaxBot_ge (List.mem_map.mpr ⟨t, hchain'.end_mem, rfl⟩)
    rw [hpd]
    refine le_trans ?_ hle2
    exact_mod_cast hbound
  · obtain ⟨x, hx, hpdx⟩ :=
      @listMaxBot_achieved (order.map (fun u => CpmApp.esOf et u + u.duration))
      (by
        intro hmap
        exact horder_ne (List.map_eq_nil.mp hmap))
    obtain ⟨tstar, htstar, hxeq⟩ := List.mem_map.mp hx
    obtain ⟨l₁, l₂, hsplit⟩ := List.append_of_mem htstar
    obtain ⟨s, p, hp, hsink, hhead, hge⟩ :=
      sink_chain_ge hndo hdf hduro hrec l₂.length l₁ tstar l₂ hsplit rfl
    have hboundp := chain_sum_le hndo hduro hrec hp
    have hefs_le : ((CpmApp.esOf et s + s.duration : Int) : WithBot Int) ≤
        listMaxBot (order.map (fun u => CpmApp.esOf et u + u.duration)) :=
      listMaxBot_ge (List.mem_map.mpr ⟨s, hp.end_mem, rfl⟩)
    have h1 : CpmApp.esOf et s + s.duration ≤ x := by
      rw [hpdx] at hefs_le
      exact_mod_cast hefs_le
    have h2 : x ≤ pathDuration p := by
      rw [← hxeq]
      exact hge
    have heq : pathDuration p = x := le_antisymm (hboundp.trans h1) h2
    refine ⟨s, p, ⟨hp.congr (fun y => (hmemiff y).symm), hhead,
      fun u hu => hsink u ((hmemiff u).mp hu)⟩, ?_⟩
    rw [hpd, hpdx]
    exact_mod_cast heq

/-! ### Characterisation of the successor map of the latest-times pass -/

namespace CpmApp

/-- `sid` is recorded as a successor of `k` in table `m`. -/
def MemSucc (m : List (String × List String)) (k sid : String) : Prop :=
  ∃ L, lookupA m k = some L ∧ sid ∈ L

theorem keysA_depsFold (tid : String) :
    ∀ (ds : List String) (m : List (String × List String)),
      keysA (ds.foldl (fun acc' d => updk acc' d (fun l => l ++ [tid])) m) =
        keysA m := by
  intro ds
  induction ds with
  | nil => intro m; rfl
  | cons d ds ih =>
    intro m
    simp only [List.foldl_cons]
    rw [ih, keysA_updk]

theorem memSucc_updk_app (tid d : String) (m : List (String × List String))
    (k sid : String) :
    MemSucc (updk m d (fun l => l ++ [tid])) k sid ↔
      MemSucc m k sid ∨ (sid = tid ∧ k = d ∧ k ∈ keysA m) := by
  unfold MemSucc
  rw [lookupA_updk]
  by_cases hdk : d = k
  · rw [if_pos hdk, ← hdk]
    cases hm : lookupA m d with
    | none =>
      constructor
      · rintro ⟨L, hL, -⟩
        cases hL
      · rintro (⟨L, hL, -⟩ | ⟨-, -, hk⟩)
        · cases hL
        · rw [← lookupA_isSome_iff, hm] at hk
          cases hk
    | some L0 =>
      simp only [Option.map_some']
      constructor
      · rintro ⟨L, hL, hmem⟩
        injection hL with hL
        rw [← hL] at hmem
        rcases List.mem_append.mp hmem with h | h
        · exact Or.inl ⟨L0, rfl, h⟩
        · exact Or.inr ⟨List.mem_singleton.mp h, by trivial,
            (lookupA_isSome_iff m d).mp (by rw [hm]; rfl)⟩
      · rintro (⟨L1, hL1, hmem⟩ | ⟨hsid, -, -⟩)
        · injection hL1 with hL1
          exact ⟨L0 ++ [tid], rfl, List.mem_append_left _ (hL1 ▸ hmem)⟩
        · exact ⟨L0 ++ [tid], rfl, List.mem_append_right _
            (by rw [hsid]; exact List.mem_singleton_self _)⟩
  · rw [if_neg hdk]
    constructor
    · exact fun h => Or.inl h
    · rintro (h | ⟨-, hkd, -⟩)
      · exact h
      · exact absurd hkd.symm hdk

theorem memSucc_depsFold (tid : String) :
    ∀ (ds : List String) (m : List (String × List String)) (k sid : String),
      MemSucc (ds.foldl (fun acc' d => updk acc' d (fun l => l ++ [tid])) m)
          k sid ↔
        MemSucc m k sid ∨ (sid = tid ∧ k ∈ ds ∧ k ∈ keysA m) := by
  intro ds
  induction ds with
  | nil =>
    intro m k sid
    constructor
    · exact Or.inl
    · rintro (h | ⟨-, h, -⟩)
      · exact h
      · cases h
  | cons d ds ih =>
    intro m k sid
    simp only [List.foldl_cons]
    rw [ih, memSucc_updk_app]
    simp only [keysA_updk, List.mem_cons]
    constructor
    · rintro ((h | ⟨h1, h2, h3⟩) | ⟨h1, h2, h3⟩)
      · exact Or.inl h
      · exact Or.inr ⟨h1, Or.inl h2, h3⟩
      · exact Or.inr ⟨h1, Or.inr h2, h3⟩
    · rintro (h | ⟨h1, h2 | h2, h3⟩)
      · exact Or.inl (Or.inl h)
      · exact Or.inl (Or.inr ⟨h1, h2, h3⟩)
      · exact Or.inr ⟨h1, h2, h3⟩

theorem keysA_taskFold :
    ∀ (us : List Task) (m : List (String × List String)),
      keysA (us.foldl (fun acc t => t.dependencies.foldl
        (fun acc' d => updk acc' d (fun l => l ++ [t.id])) acc) m) = keysA m := by
  intro us
  induction us with
  | nil => intro m; rfl
  | cons u us ih =>
    intro m
    simp only [List.foldl_cons]
    rw [ih, keysA_depsFold]

theorem memSucc_taskFold :
    ∀ (us : List Task) (m : List (String × List String)) (k sid : String),
      MemSucc (us.foldl (fun acc t => t.dependencies.foldl
          (fun acc' d => updk acc' d (fun l => l ++ [t.id])) acc) m) k sid ↔
        MemSucc m k sid ∨
          ∃ u ∈ us, sid = u.id ∧ k ∈ u.dependencies ∧ k ∈ keysA m := by
  intro us
  induction us with
  | nil =>
    intro m k sid
    constructor
    · exact Or.inl
    · rintro (h | ⟨u, hu, -⟩)
      · exact h
      · cases hu
  | cons u us ih =>
    intro m k sid
    simp only [List.foldl_cons]
    rw [ih, memSucc_depsFold]
    simp only [keysA_depsFold, List.exists_mem_cons_iff]
    constructor
    · rintro ((h | ⟨h1, h2, h3⟩) | ⟨v, hv, h1, h2, h3⟩)
      · exact Or.inl h
      · exact Or.inr (Or.inl ⟨h1, h2, h3⟩)
      · exact Or.inr (Or.inr ⟨v, hv, h1, h2, h3⟩)
    · rintro (h | ⟨h1, h2, h3⟩ | ⟨v, hv, h1, h2, h3⟩)
      · exact Or.inl (Or.inl h)
      · exact Or.inl (Or.inr ⟨h1, h2, h3⟩)
      · exact Or.inr ⟨v, hv, h1, h2, h3⟩

theorem pushSuccs_eq (tid : String) :
    ∀ (ds : List String) (acc : List (String × List String)),
      (∀ d ∈ ds, d ∈ keysA acc) →
      pushSuccs tid ds acc = .ok
        (ds.foldl (fun acc' d => updk acc' d (fun l => l ++ [tid])) acc) := by
  intro ds
  induction ds with
  | nil => intro acc _; rfl
  | cons d ds ih =>
    intro acc hall
    have hd : (lookupA acc d).isSome :=
      (lookupA_isSome_iff acc d).mpr (hall d (List.mem_cons_self _ _))
    simp only [pushSuccs, List.foldl_cons]
    rw [if_pos hd]
    exact ih _ (fun e he => by
      rw [keysA_updk]; exact hall e (List.mem_cons_of_mem _ he))

theorem fillSucc_eq :
    ∀ (order : List Task) (acc : List (String × List String)),
      (∀ t ∈ order, ∀ d ∈ t.dependencies, d ∈ keysA acc) →
      fillSucc (order.map some) acc = .ok (order.foldl
        (fun acc t => t.dependencies.foldl
          (fun acc' d => updk acc' d (fun l => l ++ [t.id])) acc) acc) := by
  intro order
  induction order with
  | nil => intro acc _; rfl
  | cons t order ih =>
    intro acc hall
    simp only [List.map_cons, fillSucc, Bind.bind, Except.bind,
      pushSuccs_eq t.id t.dependencies acc (hall t (List.mem_cons_self _ _)),
      List.foldl_cons]
    exact ih _ (fun u hu d hd => by
      rw [keysA_depsFold]
      exact hall u (List.mem_cons_of_mem _ hu) d hd)

theorem lookupA_initSucc_fold (order : List Task) :
    ∀ (acc : List (String × List String)) (k : String),
      lookupA (order.foldl (fun m t => objSet m t.id ([] : List String)) acc)
          k =
        if k ∈ order.map (fun t => t.id) then some [] else lookupA acc k := by
  induction order with
  | nil =>
    intro acc k
    simp
  | cons t order ih =>
    intro acc k
    simp only [List.foldl_cons, List.map_cons, List.mem_cons]
    rw [ih]
    by_cases hko : k ∈ order.map (fun t => t.id)
    · rw [if_pos hko, if_pos (Or.inr hko)]
    · rw [if_neg hko, lookupA_objSet]
      by_cases hkt : t.id = k
      · rw [if_pos hkt, if_pos (Or.inl hkt.symm)]
      · rw [if_neg hkt, if_neg ?_]
        rintro (h | h)
        · exact hkt h.symm
        · exact hko h

/-- The successor table built by `calculateLatestTimes`: for every task of the
order it holds a list whose members are exactly the ids of the tasks that
depend on it. -/
theorem succMap_spec (order : List Task)
    (hdeps : ∀ t ∈ order, ∀ d ∈ t.dependencies,
      d ∈ order.map (fun u => u.id)) :
    ∃ succ,
      initSucc (order.map some) [] = .ok
        (order.foldl (fun m t => objSet m t.id ([] : List String)) []) ∧
      fillSucc (order.map some)
        (order.foldl (fun m t => objSet m t.id ([] : List String)) []) =
        .ok succ ∧
      keysA succ =
        keysA (order.foldl (fun m t => objSet m t.id ([] : List String)) []) ∧
      ∀ t ∈ order, ∃ succs, lookupA succ t.id = some succs ∧
        ∀ sid, sid ∈ succs ↔
          ∃ u ∈ order, sid = u.id ∧ t.id ∈ u.dependencies := by
  set succ0 := order.foldl (fun m t => objSet m t.id ([] : List String)) []
    with hsucc0
  have hlook0 : ∀ k, lookupA succ0 k =
      if k ∈ order.map (fun t => t.id) then some [] else none := by
    intro k
    rw [hsucc0, lookupA_initSucc_fold]
    rfl
  have hkeys0 : ∀ k, k ∈ keysA succ0 ↔ k ∈ order.map (fun t => t.id) := by
    intro k
    rw [← lookupA_isSome_iff, hlook0]
    by_cases hk : k ∈ order.map (fun t => t.id)
    · simp [hk]
    · simp [hk]
  have hclosed : ∀ t ∈ order, ∀ d ∈ t.dependencies, d ∈ keysA succ0 :=
    fun t ht d hd => (hkeys0 d).mpr (hdeps t ht d hd)
  refine ⟨_, initSucc_map_some order [], fillSucc_eq order succ0 hclosed,
    keysA_taskFold order succ0, ?_⟩
  intro t ht
  have htk : t.id ∈ keysA (order.foldl (fun acc t => t.dependencies.foldl
      (fun acc' d => updk acc' d (fun l => l ++ [t.id])) acc) succ0) := by
    rw [keysA_taskFold]
    exact (hkeys0 t.id).mpr (List.mem_map.mpr ⟨t, ht, rfl⟩)
  obtain ⟨succs, hsuccs⟩ := Option.isSome_iff_exists.mp
    ((lookupA_isSome_iff _ _).mpr htk)
  refine ⟨succs, hsuccs, ?_⟩
  intro sid
  have hmem := memSucc_taskFold order succ0 t.id sid
  unfold MemSucc at hmem
  rw [hsuccs] at hmem
  constructor
  · intro hs
    rcases hmem.mp ⟨succs, rfl, hs⟩ with ⟨L, hL, hsl⟩ | ⟨u, hu, h1, h2, -⟩
    · rw [hlook0 t.id, if_pos (List.mem_map.mpr ⟨t, ht, rfl⟩)] at hL
      injection hL with hL
      rw [← hL] at hsl
      cases hsl
    · exact ⟨u, hu, h1, h2⟩
  · rintro ⟨u, hu, h1, h2⟩
    obtain ⟨L, hL, hsl⟩ := hmem.mpr
      (Or.inr ⟨u, hu, h1, h2, (hkeys0 t.id).mpr
        (List.mem_map.mpr ⟨t, ht, rfl⟩)⟩)
    injection hL with hL
    rw [hL]
    exact hsl

/-! #### The minimum over successor latest starts -/

/-- One step of the `minSuccessorLS` fold. -/
def minStep (acc : List (String × LTimes)) (m : Option Int) (sid : String) :
    Option Int :=
  match lookupA acc sid with
  | some r =>
    match m with
    | none => some r.latestStart
    | some v => if r.latestStart < v then some r.latestStart else m
  | none => m

theorem minSuccLS_eq (succs : List String) (acc : List (String × LTimes)) :
    minSuccLS succs acc = succs.foldl (minStep acc) none := rfl

theorem minStep_none (acc : List (String × LTimes)) (sid : String)
    (m : Option Int) (h : lookupA acc sid = none) : minStep acc m sid = m := by
  unfold minStep; rw [h]

theorem minStep_some_none (acc : List (String × LTimes)) (sid : String)
    (r : LTimes) (h : lookupA acc sid = some r) :
    minStep acc none sid = some r.latestStart := by
  unfold minStep; rw [h]

theorem minStep_some_some (acc : List (String × LTimes)) (sid : String)
    (r : LTimes) (v : Int) (h : lookupA acc sid = some r) :
    minStep acc (some v) sid =
      if r.latestStart < v then some r.latestStart else some v := by
  unfold minStep; rw [h]

theorem minStep_fold_le_init (acc : List (String × LTimes)) :
    ∀ (ds : List String) (v w : Int),
      ds.foldl (minStep acc) (some v) = some w → w ≤ v := by
  intro ds
  induction ds with
  | nil =>
    intro v w h
    injection h with h
    omega
  | cons sid ds ih =>
    intro v w h
    simp only [List.foldl_cons] at h
    cases hl : lookupA acc sid with
    | none =>
      rw [minStep_none acc sid _ hl] at h
      exact ih v w h
    | some r =>
      rw [minStep_some_some acc sid r v hl] at h
      by_cases hlt : r.latestStart < v
      · rw [if_pos hlt] at h
        have := ih _ _ h
        omega
      · rw [if_neg hlt] at h
        exact ih v w h

theorem minStep_fold_some (acc : List (String × LTimes)) :
    ∀ (ds : List String) (v : Int),
      ∃ w, ds.foldl (minStep acc) (some v) = some w ∧ w ≤ v := by
  intro ds
  induction ds with
  | nil => intro v; exact ⟨v, rfl, le_refl v⟩
  | cons sid ds ih =>
    intro v
    simp only [List.foldl_cons]
    cases hl : lookupA acc sid with
    | none =>
      rw [minStep_none acc sid _ hl]
      exact ih v
    | some r =>
      rw [minStep_some_some acc sid r v hl]
      by_cases hlt : r.latestStart < v
      · rw [if_pos hlt]
        obtain ⟨w, hw, hle⟩ := ih r.latestStart
        exact ⟨w, hw, by omega⟩
      · rw [if_neg hlt]
        exact ih v

theorem minStep_fold_le_mem (acc : List (String × LTimes)) :
    ∀ (ds : List String) (m : Option Int) (sid : String) (r : LTimes) (w : Int),
      sid ∈ ds → lookupA acc sid = some r →
      ds.foldl (minStep acc) m = some w → w ≤ r.latestStart := by
  intro ds
  induction ds with
  | nil =>
    intro m sid r w h
    cases h
  | cons x ds ih =>
    intro m sid r w hmem hr h
    simp only [List.foldl_cons] at h
    rcases List.mem_cons.mp hmem with rfl | hmem'
    · cases m with
      | none =>
        rw [minStep_some_none acc sid r hr] at h
        exact minStep_fold_le_init acc ds _ w h
      | some v =>
        rw [minStep_some_some acc sid r v hr] at h
        by_cases hlt : r.latestStart < v
        · rw [if_pos hlt] at h
          exact minStep_fold_le_init acc ds _ w h
        · rw [if_neg hlt] at h
          have := minStep_fold_le_init acc ds v w h
          omega
    · exact ih _ sid r w hmem' hr h

theorem minStep_fold_achieved (acc : List (String × LTimes)) :
    ∀ (ds : List String) (m : Option Int) (w : Int),
      ds.foldl (minStep acc) m = some w →
      m = some w ∨
        ∃ sid ∈ ds, ∃ r, lookupA acc sid = some r ∧ w = r.latestStart := by
  intro ds
  induction ds with
  | nil => intro m w h; exact Or.inl h
  | cons x ds ih =>
    intro m w h
    simp only [List.foldl_cons] at h
    cases hl : lookupA acc x with
    | none =>
      rw [minStep_none acc x m hl] at h
      rcases ih m w h with h1 | ⟨sid, hs, r, hr, he⟩
      · exact Or.inl h1
      · exact Or.inr ⟨sid, List.mem_cons_of_mem _ hs, r, hr, he⟩
    | some r =>
      cases m with
      | none =>
        rw [minStep_some_none acc x r hl] at h
        rcases ih _ w h with h1 | ⟨sid, hs, r2, hr2, he⟩
        · injection h1 with h1
          exact Or.inr ⟨x, List.mem_cons_self _ _, r, hl, h1.symm⟩
        · exact Or.inr ⟨sid, List.mem_cons_of_mem _ hs, r2, hr2, he⟩
      | some v =>
        rw [minStep_some_some acc x r v hl] at h
        by_cases hlt : r.latestStart < v
        · rw [if_pos hlt] at h
          rcases ih _ w h with h1 | ⟨sid, hs, r2, hr2, he⟩
          · injection h1 with h1
            exact Or.inr ⟨x, List.mem_cons_self _ _, r, hl, h1.symm⟩
          · exact Or.inr ⟨sid, List.mem_cons_of_mem _ hs, r2, hr2, he⟩
        · rw [if_neg hlt] at h
          rcases ih _ w h with h1 | ⟨sid, hs, r2, hr2, he⟩
          · exact Or.inl h1
          · exact Or.inr ⟨sid, List.mem_cons_of_mem _ hs, r2, hr2, he⟩

theorem minSuccLS_some {succs : List String} {acc : List (String × LTimes)}
    (hne : succs ≠ [])
    (hall : ∀ sid ∈ succs, (lookupA acc sid).isSome) :
    ∃ w, minSuccLS succs acc = some w := by
  cases succs with
  | nil => exact absurd rfl hne
  | cons x ds =>
    obtain ⟨r, hr⟩ := Option.isSome_iff_exists.mp
      (hall x (List.mem_cons_self _ _))
    rw [minSuccLS_eq]
    simp only [List.foldl_cons]
    rw [minStep_some_none acc x r hr]
    obtain ⟨w, hw, -⟩ := minStep_fold_some acc ds r.latestStart
    exact ⟨w, hw⟩

theorem minSuccLS_le {succs : List String} {acc : List (String × LTimes)}
    {sid : String} {r : LTimes} {w : Int} (hmem : sid ∈ succs)
    (hr : lookupA acc sid = some r) (hw : minSuccLS succs acc = some w) :
    w ≤ r.latestStart := by
  rw [minSuccLS_eq] at hw
  exact minStep_fold_le_mem acc succs none sid r w hmem hr hw

theorem minSuccLS_achieved {succs : List String} {acc : List (String × LTimes)}
    {w : Int} (hw : minSuccLS succs acc = some w) :
    ∃ sid ∈ succs, ∃ r, lookupA acc sid = some r ∧ w = r.latestStart := by
  rw [minSuccLS_eq] at hw
  rcases minStep_fold_achieved acc succs none w hw with h | h
  · cases h
  · exact h

end CpmApp

/-! ### Characterisation of the backward pass of `CpmApp` -/

theorem id_ne_of_not_mem {l : List Task} {u : Task} {x : String}
    (hu : u ∈ l) (hx : x ∉ l.map (fun v => v.id)) : u.id ≠ x :=
  fun h => hx (h ▸ List.mem_map.mpr ⟨u, hu, rfl⟩)

theorem split_id_not_mem {order : List Task} (hnd : NodupIds order)
    {l₁ : List Task} {t : Task} {l₂ : List Task}
    (hsplit : order = l₁ ++ t :: l₂) :
    t.id ∉ l₁.map (fun v => v.id) ∧ t.id ∉ l₂.map (fun v => v.id) := by
  have hnd' : (l₁.map (fun v => v.id) ++
      t.id :: l₂.map (fun v => v.id)).Nodup := by
    have heq : order.map (fun v => v.id) =
        l₁.map (fun v => v.id) ++ t.id :: l₂.map (fun v => v.id) := by
      rw [hsplit]; simp
    rw [← heq]
    exact hnd
  exact nodup_middle_not_mem hnd'

theorem split_ids_disjoint {order : List Task} (hnd : NodupIds order)
    {l₁ : List Task} {t : Task} {l₂ : List Task}
    (hsplit : order = l₁ ++ t :: l₂) :
    ∀ x, x ∈ l₁.map (fun v => v.id) → x ∉ l₂.map (fun v => v.id) := by
  have heq : order.map (fun v => v.id) =
      l₁.map (fun v => v.id) ++ t.id :: l₂.map (fun v => v.id) := by
    rw [hsplit]; simp
  have hnd' := hnd
  unfold NodupIds at hnd'
  rw [heq, List.nodup_append] at hnd'
  intro x hx1 hx2
  exact hnd'.2.2 hx1 (List.mem_cons_of_mem _ hx2)

/-- In a dependency-closed order a task's dependents lie strictly after it. -/
theorem dependent_in_suffix {order : List Task} (hnd : NodupIds order)
    (hdf : DepsFirst order) {l₁ : List Task} {t : Task} {l₂ : List Task}
    (hsplit : order = l₁ ++ t :: l₂) {u : Task} (hu : u ∈ order)
    (hdep : t.id ∈ u.dependencies) : u ∈ l₂ := by
  obtain ⟨hnot1, hnot2⟩ := split_id_not_mem hnd hsplit
  have hu' := hu
  rw [hsplit, List.mem_append, List.mem_cons] at hu'
  rcases hu' with hul | hut | hul2
  · exfalso
    obtain ⟨a, b, haeq⟩ := List.append_of_mem hul
    have horder : order = a ++ u :: (b ++ t :: l₂) := by
      rw [hsplit, haeq, List.append_assoc, List.cons_append]
    have hmem := hdf a u (b ++ t :: l₂) horder t.id hdep
    refine hnot1 ?_
    rw [haeq]
    simp only [List.map_append, List.mem_append]
    exact Or.inl hmem
  · exfalso
    rw [hut] at hdep
    exact hnot1 (hdf l₁ t l₂ hsplit t.id hdep)
  · exact hul2

namespace CpmApp

/-- The entry of `t` satisfies the backward recurrence relative to `acc`: the
latest start is the latest finish minus the duration, and the latest finish
is the project duration when nothing depends on `t`, and otherwise the
minimum of the dependents' latest starts. -/
def LTrec (order : List Task) (acc : List (String × LTimes)) (pd : Int)
    (t : Task) : Prop :=
  ∃ rec, lookupA acc t.id = some rec ∧
    rec.latestStart = rec.latestFinish - t.duration ∧
    (((∀ u ∈ order, t.id ∉ u.dependencies) ∧ rec.latestFinish = pd) ∨
      ((∀ v ∈ order, t.id ∈ v.dependencies →
          ∃ rv, lookupA acc v.id = some rv ∧
            rec.latestFinish ≤ rv.latestStart) ∧
        ∃ u ∈ order, t.id ∈ u.dependencies ∧
          ∃ ru, lookupA acc u.id = some ru ∧
            rec.latestFinish = ru.latestStart))

theorem bwd_fold_spec (order : List Task) (pd : Int)
    (succ : List (String × List String)) (hnd : NodupIds order)
    (hdf : DepsFirst order)
    (hschar : ∀ t ∈ order, ∃ succs, lookupA succ t.id = some succs ∧
      ∀ sid, sid ∈ succs ↔
        ∃ u ∈ order, sid = u.id ∧ t.id ∈ u.dependencies) :
    ∀ (rl l₂ : List Task) (acc : List (String × LTimes)),
      order = rl.reverse ++ l₂ →
      (∀ t ∈ rl, lookupA acc t.id = some ⟨pd, pd⟩) →
      (∀ t ∈ l₂, LTrec order acc pd t) →
      ∃ acc', revLT pd succ (rl.map some) acc = .ok acc' ∧
        ∀ t ∈ order, LTrec order acc' pd t := by
  intro rl
  induction rl with
  | nil =>
    intro l₂ acc hsplit _ hdone
    refine ⟨acc, rfl, ?_⟩
    intro t ht
    rw [hsplit] at ht
    exact hdone t (by simpa using ht)
  | cons t rl ih =>
    intro l₂ acc hsplit hpri hdone
    have hsplit' : order = rl.reverse ++ (t :: l₂) := by
      rw [hsplit]; simp
    have htmem : t ∈ order := by
      rw [hsplit']
      exact List.mem_append_right _ (List.mem_cons_self _ _)
    obtain ⟨succs, hsuccs, hiff⟩ := hschar t htmem
    have htpri := hpri t (List.mem_cons_self _ _)
    have hdep_l₂ : ∀ u ∈ order, t.id ∈ u.dependencies → u ∈ l₂ :=
      fun u hu hd => dependent_in_suffix hnd hdf hsplit' hu hd
    obtain ⟨hnot1, hnot2⟩ := split_id_not_mem hnd hsplit'
    by_cases hne : succs = []
    · have hnodep : ∀ u ∈ order, t.id ∉ u.dependencies := by
        intro u hu hd
        have hm : u.id ∈ succs := (hiff u.id).mpr ⟨u, hu, rfl, hd⟩
        rw [hne] at hm
        cases hm
      have hstep : stepLT pd succ acc t = .ok
          (updk (updk acc t.id (fun r => { r with latestFinish := pd })) t.id
            (fun r => { r with latestStart := r.latestFinish - t.duration })) := by
        unfold stepLT
        rw [hsuccs, hne]
        rfl
      set acc2 := updk (updk acc t.id
          (fun r => { r with latestFinish := pd })) t.id
          (fun r => { r with latestStart := r.latestFinish - t.duration })
        with hacc2
      have hself : lookupA acc2 t.id = some ⟨pd - t.duration, pd⟩ := by
        rw [hacc2, lookupA_updk, if_pos rfl, lookupA_updk, if_pos rfl, htpri]
        rfl
      have hother : ∀ k, k ≠ t.id → lookupA acc2 k = lookupA acc k := by
        intro k hk
        rw [hacc2, lookupA_updk, if_neg (fun h => hk h.symm),
          lookupA_updk, if_neg (fun h => hk h.symm)]
      have htrec : LTrec order acc2 pd t :=
        ⟨⟨pd - t.duration, pd⟩, hself, rfl, Or.inl ⟨hnodep, rfl⟩⟩
      have hdone' : ∀ w ∈ t :: l₂, LTrec order acc2 pd w := by
        intro w hw
        rcases List.mem_cons.mp hw with rfl | hw2
        · exact htrec
        · obtain ⟨rec, hrec, hls, hor⟩ := hdone w hw2
          have hwid : w.id ≠ t.id := id_ne_of_not_mem hw2 hnot2
          have hdep_ne : ∀ vv ∈ order, w.id ∈ vv.dependencies →
              vv.id ≠ t.id := by
            intro vv hvv hvd hvt
            have hvvt : vv = t := taskId_inj hnd vv hvv t htmem hvt
            rw [hvvt] at hvd
            have h1 := hdf rl.reverse t l₂ hsplit' w.id hvd
            exact split_ids_disjoint hnd hsplit' w.id h1
              (List.mem_map.mpr ⟨w, hw2, rfl⟩)
          refine ⟨rec, by rw [hother w.id hwid]; exact hrec, hls, ?_⟩
          rcases hor with ⟨h1, h2⟩ | ⟨hbnd, u, hu, hud, ru, hru, heq⟩
          · exact Or.inl ⟨h1, h2⟩
          · refine Or.inr ⟨?_, u, hu, hud, ru,
              by rw [hother u.id (hdep_ne u hu hud)]; exact hru, heq⟩
            intro vv hvv hvd
            obtain ⟨rv, hrv, hle⟩ := hbnd vv hvv hvd
            exact ⟨rv, by rw [hother vv.id (hdep_ne vv hvv hvd)]; exact hrv,
              hle⟩
      have hpri' : ∀ w ∈ rl, lookupA acc2 w.id = some ⟨pd, pd⟩ := by
        intro w hw
        have hwid : w.id ≠ t.id := by
          intro h
          exact hnot1 (h ▸ List.mem_map.mpr ⟨w, List.mem_reverse.mpr hw, rfl⟩)
        rw [hother w.id hwid]
        exact hpri w (List.mem_cons_of_mem _ hw)
      obtain ⟨acc', hok, hall⟩ := ih (t :: l₂) acc2 hsplit' hpri' hdone'
      refine ⟨acc', ?_, hall⟩
      simp only [List.map_cons, revLT, Bind.bind, Except.bind, hstep]
      exact hok
    · have hlsome : ∀ sid ∈ succs, (lookupA acc sid).isSome := by
        intro sid hs
        obtain ⟨u, hu, rfl, hd⟩ := (hiff sid).mp hs
        obtain ⟨ru, hru, -, -⟩ := hdone u (hdep_l₂ u hu hd)
        rw [hru]
        rfl
      obtain ⟨v, hv⟩ := minSuccLS_some hne hlsome
      have hlen : succs.length > 0 := List.length_pos.mpr hne
      have hstep : stepLT pd succ acc t = .ok
          (updk (updk acc t.id (fun r => { r with latestFinish := v })) t.id
            (fun r => { r with latestStart := r.latestFinish - t.duration })) := by
        unfold stepLT
        rw [hsuccs]
        simp only [hlen, if_pos, hv]
      set acc2 := updk (updk acc t.id
          (fun r => { r with latestFinish := v })) t.id
          (fun r => { r with latestStart := r.latestFinish - t.duration })
        with hacc2
      have hself : lookupA acc2 t.id = some ⟨v - t.duration, v⟩ := by
        rw [hacc2, lookupA_updk, if_pos rfl, lookupA_updk, if_pos rfl, htpri]
        rfl
      have hother : ∀ k, k ≠ t.id → lookupA acc2 k = lookupA acc k := by
        intro k hk
        rw [hacc2, lookupA_updk, if_neg (fun h => hk h.symm),
          lookupA_updk, if_neg (fun h => hk h.symm)]
      have htrec : LTrec order acc2 pd t := by
        refine ⟨⟨v - t.duration, v⟩, hself, rfl, Or.inr ⟨?_, ?_⟩⟩
        · intro vv hvv hvd
          have hvmem : vv ∈ l₂ := hdep_l₂ vv hvv hvd
          obtain ⟨rv, hrv, -, -⟩ := hdone vv hvmem
          have hvvid : vv.id ≠ t.id := id_ne_of_not_mem hvmem hnot2
          refine ⟨rv, by rw [hother vv.id hvvid]; exact hrv, ?_⟩
          exact minSuccLS_le ((hiff vv.id).mpr ⟨vv, hvv, rfl, hvd⟩) hrv hv
        · obtain ⟨sid, hsmem, r, hr, hveq⟩ := minSuccLS_achieved hv
          obtain ⟨u, hu, rfl, hud⟩ := (hiff sid).mp hsmem
          have humem2 : u ∈ l₂ := hdep_l₂ u hu hud
          have huid : u.id ≠ t.id := id_ne_of_not_mem humem2 hnot2
          exact ⟨u, hu, hud, r, by rw [hother u.id huid]; exact hr, hveq⟩
      have hdone' : ∀ w ∈ t :: l₂, LTrec order acc2 pd w := by
        intro w hw
        rcases List.mem_cons.mp hw with rfl | hw2
        · exact htrec
        · obtain ⟨rec, hrec, hls, hor⟩ := hdone w hw2
          have hwid : w.id ≠ t.id := id_ne_of_not_mem hw2 hnot2
          have hdep_ne : ∀ vv ∈ order, w.id ∈ vv.dependencies →
              vv.id ≠ t.id := by
            intro vv hvv hvd hvt
            have hvvt : vv = t := taskId_inj hnd vv hvv t htmem hvt
            rw [hvvt] at hvd
            have h1 := hdf rl.reverse t l₂ hsplit' w.id hvd
            exact split_ids_disjoint hnd hsplit' w.id h1
              (List.mem_map.mpr ⟨w, hw2, rfl⟩)
          refine ⟨rec, by rw [hother w.id hwid]; exact hrec, hls, ?_⟩
          rcases hor with ⟨h1, h2⟩ | ⟨hbnd, u, hu, hud, ru, hru, heq⟩
          · exact Or.inl ⟨h1, h2⟩
          · refine Or.inr ⟨?_, u, hu, hud, ru,
              by rw [hother u.id (hdep_ne u hu hud)]; exact hru, heq⟩
            intro vv hvv hvd
            obtain ⟨rv, hrv, hle⟩ := hbnd vv hvv hvd
            exact ⟨rv, by rw [hother vv.id (hdep_ne vv hvv hvd)]; exact hrv,
              hle⟩
      have hpri' : ∀ w ∈ rl, lookupA acc2 w.id = some ⟨pd, pd⟩ := by
        intro w hw
        have hwid : w.id ≠ t.id := by
          intro h
          exact hnot1 (h ▸ List.mem_map.mpr ⟨w, List.mem_reverse.mpr hw, rfl⟩)
        rw [hother w.id hwid]
        exact hpri w (List.mem_cons_of_mem _ hw)
      obtain ⟨acc', hok, hall⟩ := ih (t :: l₂) acc2 hsplit' hpri' hdone'
      refine ⟨acc', ?_, hall⟩
      simp only [List.map_cons, revLT, Bind.bind, Except.bind, hstep]
      exact hok

/-- Full specification of `calculateLatestTimes` on a duplicate-free
dependency-ordered, dependency-closed list: it succeeds and its table
satisfies the backward recurrence. -/
theorem calculateLatestTimes_spec (order : List Task)
    (tm : List (String × Task)) (pd : Int) (hnd : NodupIds order)
    (hdf : DepsFirst order)
    (hdeps : ∀ t ∈ order, ∀ d ∈ t.dependencies,
      d ∈ order.map (fun u => u.id)) :
    ∃ lt, calculateLatestTimes (order.map some) tm pd = .ok lt ∧
      ∀ t ∈ order, LTrec order lt pd t := by
  obtain ⟨succ, hinit, hfill, hkeys, hschar⟩ := succMap_spec order hdeps
  have hinitLT : initLT pd (order.map some) [] =
      .ok (order.map (fun t => (t.id, (⟨pd, pd⟩ : LTimes)))) := by
    rw [initLT_map_some]
    rw [foldl_objSet_pairs _ order [] (fun _ _ => rfl) hnd]
    rfl
  obtain ⟨acc', hok, hall⟩ := bwd_fold_spec order pd succ hnd hdf hschar
    order.reverse []
    (order.map (fun t => (t.id, (⟨pd, pd⟩ : LTimes))))
    (by simp)
    (fun t ht => lookupA_pairs_self _ hnd (List.mem_reverse.mp ht))
    (fun t ht => absurd ht (List.not_mem_nil t))
  refine ⟨acc', ?_, hall⟩
  unfold calculateLatestTimes
  simp only [Bind.bind, Except.bind, hinit, hfill, hinitLT]
  rw [← List.map_reverse]
  exact hok

end CpmApp

/-! ### Slack: latest finish dominates earliest finish -/

/-- On a table pair satisfying both recurrences, with the project duration
dominating every earliest finish, every task's latest finish is at least its
earliest finish (so its slack is non-negative). -/
theorem lf_ge_ef {order : List Task} {et : List (String × CpmApp.ETimes)}
    {lt : List (String × CpmApp.LTimes)} {pd : Int}
    (hnd : NodupIds order) (hdf : DepsFirst order)
    (hrec : ∀ t ∈ order, CpmApp.ETrec et t)
    (hlrec : ∀ t ∈ order, CpmApp.LTrec order lt pd t)
    (hpd : ∀ t ∈ order, CpmApp.esOf et t + t.duration ≤ pd) :
    ∀ n l₁ t l₂, order = l₁ ++ t :: l₂ → l₂.length = n →
      ∀ rec, lookupA lt t.id = some rec →
        CpmApp.esOf et t + t.duration ≤ rec.latestFinish := by
  intro n
  induction n using Nat.strong_induction_on with
  | _ n ih =>
    intro l₁ t l₂ hsplit hlen rec hrlook
    have htmem : t ∈ order := by
      rw [hsplit]
      exact List.mem_append_right _ (List.mem_cons_self _ _)
    obtain ⟨rec2, hrec2, hls, hor⟩ := hlrec t htmem
    have hre : rec2 = rec := by
      rw [hrlook] at hrec2
      injection hrec2 with h
      exact h.symm
    subst hre
    rcases hor with ⟨hnodep, hlf⟩ | ⟨hbnd, u, hu, hud, ru, hru, heq⟩
    · rw [hlf]
      exact hpd t htmem
    · have hul2 : u ∈ l₂ := dependent_in_suffix hnd hdf hsplit hu hud
      obtain ⟨a, b, haeq⟩ := List.append_of_mem hul2
      have horder : order = (l₁ ++ t :: a) ++ u :: b := by
        rw [hsplit, haeq]
        simp [List.append_assoc]
      have hblt : b.length < n := by
        rw [haeq] at hlen
        simp only [List.length_append, List.length_cons] at hlen
        omega
      have hihu := ih b.length hblt (l₁ ++ t :: a) u b horder rfl ru hru
      obtain ⟨ruu, hruu, hlsu, -⟩ := hlrec u hu
      have hre2 : ruu = ru := by
        rw [hru] at hruu
        injection hruu with h
        exact h.symm
      subst hre2
      have hrt := hrec t htmem
      unfold CpmApp.ETrec at hrt
      have hmd : CpmApp.esOf et t + t.duration ≤
          CpmApp.maxDepEF u.dependencies et := by
        have := CpmApp.maxDepEF_ge_dep hud hrt
        simpa using this
      have hupos : u.dependencies.length > 0 :=
        List.length_pos.mpr (List.ne_nil_of_mem hud)
      have hesu : CpmApp.esOf et u = CpmApp.maxDepEF u.dependencies et := by
        unfold CpmApp.esOf
        rw [if_pos hupos]
      rw [heq, hlsu]
      omega

/-- On a non-empty order the maximum earliest finish is attained, and it is
attained by some task on which nothing depends. -/
theorem max_ef_sink {order : List Task} {et : List (String × CpmApp.ETimes)}
    (hnd : NodupIds order) (hdf : DepsFirst order) (hdur : NonnegDur order)
    (hrec : ∀ t ∈ order, CpmApp.ETrec et t) (hne : order ≠ []) :
    ∃ M : Int,
      listMaxBot (order.map (fun t => CpmApp.esOf et t + t.duration)) =
        (M : WithBot Int) ∧
      (∀ t ∈ order, CpmApp.esOf et t + t.duration ≤ M) ∧
      ∃ s ∈ order, (∀ u ∈ order, s.id ∉ u.dependencies) ∧
        CpmApp.esOf et s + s.duration = M := by
  obtain ⟨x, hx, hpdx⟩ :=
    @listMaxBot_achieved (order.map (fun u => CpmApp.esOf et u + u.duration))
    (by
      intro hmap
      exact hne (List.map_eq_nil.mp hmap))
  refine ⟨x, hpdx, ?_, ?_⟩
  · intro t ht
    have := @listMaxBot_ge
      (order.map (fun u => CpmApp.esOf et u + u.duration))
      (CpmApp.esOf et t + t.duration) (List.mem_map.mpr ⟨t, ht, rfl⟩)
    rw [hpdx] at this
    exact_mod_cast this
  · obtain ⟨tstar, htstar, hxeq⟩ := List.mem_map.mp hx
    obtain ⟨l₁, l₂, hsplit⟩ := List.append_of_mem htstar
    obtain ⟨s, p, hp, hsink, hhead, hge⟩ :=
      sink_chain_ge hnd hdf hdur hrec l₂.length l₁ tstar l₂ hsplit rfl
    have hboundp := chain_sum_le hnd hdur hrec hp
    have hefs_le : CpmApp.esOf et s + s.duration ≤ x := by
      have := @listMaxBot_ge
        (order.map (fun u => CpmApp.esOf et u + u.duration))
        (CpmApp.esOf et s + s.duration)
        (List.mem_map.mpr ⟨s, hp.end_mem, rfl⟩)
      rw [hpdx] at this
      exact_mod_cast this
    have hxle : x ≤ pathDuration p := by
      rw [← hxeq]
      exact hge
    exact ⟨s, hp.end_mem, hsink, by omega⟩

/-! ### The result tables of `calculateCPM` -/

theorem foldl_objSet_g_frame {α β : Type} (g : String × α → β) :
    ∀ (m : List (String × α)) (acc : List (String × β)) (k : String),
      k ∉ keysA m →
      lookupA (m.foldl (fun acc p => objSet acc p.1 (g p)) acc) k =
        lookupA acc k := by
  intro m
  induction m with
  | nil => intro acc k _; rfl
  | cons p m ih =>
    intro acc k hk
    simp only [keysA, List.map_cons, List.mem_cons] at hk
    push_neg at hk
    simp only [List.foldl_cons]
    rw [ih _ k hk.2, lookupA_objSet, if_neg (fun h => hk.1 h.symm)]

theorem lookupA_foldl_objSet_g {α β : Type} (g : String × α → β) :
    ∀ (m : List (String × α)) (acc : List (String × β)) (k : String) (v : α),
      (keysA m).Nodup → lookupA m k = some v →
      lookupA (m.foldl (fun acc p => objSet acc p.1 (g p)) acc) k =
        some (g (k, v)) := by
  intro m
  induction m with
  | nil => intro acc k v _ h; cases h
  | cons p m ih =>
    intro acc k v hnd hl
    obtain ⟨k0, v0⟩ := p
    rw [lookupA_cons] at hl
    simp only [List.foldl_cons]
    by_cases hk : k0 = k
    · rw [if_pos hk] at hl
      injection hl with hl
      subst hk
      subst hl
      have hk0 : k0 ∉ keysA m := (List.nodup_cons.mp hnd).1
      rw [foldl_objSet_g_frame g m _ k0 hk0, lookupA_objSet, if_pos rfl]
    · rw [if_neg hk] at hl
      exact ih _ k v (List.nodup_cons.mp hnd).2 hl

theorem keysA_foldl_objSet_g {α β : Type} (g : String × α → β) :
    ∀ (m : List (String × α)) (acc : List (String × β)),
      (∀ k ∈ keysA m, k ∉ keysA acc) → (keysA m).Nodup →
      keysA (m.foldl (fun acc p => objSet acc p.1 (g p)) acc) =
        keysA acc ++ keysA m := by
  intro m
  induction m with
  | nil => intro acc _ _; simp [keysA]
  | cons p m ih =>
    intro acc hdisj hnd
    obtain ⟨k0, v0⟩ := p
    simp only [List.foldl_cons]
    have hk0acc : k0 ∉ keysA acc := hdisj k0 (by simp [keysA])
    have hobj : keysA (objSet acc k0 (g (k0, v0))) = keysA acc ++ [k0] := by
      rw [keysA_objSet,
        if_neg (fun h => hk0acc ((lookupA_isSome_iff acc k0).mp h))]
    rw [ih (objSet acc k0 (g (k0, v0)))
        (fun k hk => by
          rw [hobj, List.mem_append, List.mem_singleton]
          push_neg
          refine ⟨hdisj k (List.mem_cons_of_mem _ hk), ?_⟩
          intro he
          exact (List.nodup_cons.mp hnd).1 (he ▸ hk)
          )
        (List.nodup_cons.mp hnd).2, hobj]
    simp [keysA]

namespace CpmApp

theorem calculateSlack_lookup {et : List (String × ETimes)}
    {lt : List (String × LTimes)} {k : String} {e : ETimes}
    (hnd : (keysA et).Nodup) (he : lookupA et k = some e) :
    lookupA (calculateSlack et lt) k = some
      ⟨((lookupA lt k).getD ⟨0, 0⟩).latestStart - e.earliestStart,
       decide (((lookupA lt k).getD ⟨0, 0⟩).latestStart -
         e.earliestStart = 0)⟩ := by
  unfold calculateSlack
  exact lookupA_foldl_objSet_g _ et [] k e hnd he

theorem calculateTaskResults_lookup {et : List (String × ETimes)}
    {lt : List (String × LTimes)} {k : String} {e : ETimes}
    (hnd : (keysA et).Nodup) (he : lookupA et k = some e) :
    lookupA (calculateTaskResults et lt) k = some
      ⟨k, e.earliestStart, e.earliestFinish,
       ((lookupA lt k).getD ⟨0, 0⟩).latestStart,
       ((lookupA lt k).getD ⟨0, 0⟩).latestFinish,
       ((lookupA (calculateSlack et lt) k).getD ⟨0, false⟩).slack,
       ((lookupA (calculateSlack et lt) k).getD ⟨0, false⟩).isCritical⟩ := by
  unfold calculateTaskResults
  exact lookupA_foldl_objSet_g _ et [] k e hnd he

theorem keysA_calculateTaskResults (et : List (String × ETimes))
    (lt : List (String × LTimes)) (hnd : (keysA et).Nodup) :
    keysA (calculateTaskResults et lt) = keysA et := by
  unfold calculateTaskResults
  rw [keysA_foldl_objSet_g _ et [] (fun k _ hk => (List.not_mem_nil k) hk) hnd]
  rfl

end CpmApp

/-- `cpmApp_run` extended with the backward recurrence for the latest-times
table of the successful run. -/
theorem cpmApp_run_lt (tasks : List Task) (pid : String)
    (hnd : NodupIds tasks) (hap : AllPresent tasks) (hnc : ¬ HasCycle tasks) :
    ∃ (order : List Task) (et : List (String × CpmApp.ETimes))
      (lt : List (String × CpmApp.LTimes)) (r : CpmApp.ProjectCPMResults),
      CpmApp.calculateCPM tasks pid = .ok r ∧
      order.Perm tasks ∧ DepsFirst order ∧ NodupIds order ∧
      keysA et = order.map (fun t => t.id) ∧
      (∀ t ∈ order, CpmApp.ETrec et t) ∧
      (∀ t ∈ order, CpmApp.LTrec order lt (r.projectDuration.unbot' 0) t) ∧
      r.projectDuration =
        listMaxBot (order.map (fun t => CpmApp.esOf et t + t.duration)) ∧
      r.taskResults = CpmApp.calculateTaskResults et lt ∧
      r.criticalPath =
        CpmApp.findCriticalPath (CpmApp.calculateTaskResults et lt) := by
  obtain ⟨order, et, lt, r, htopo, hperm, hdf, hndo, hkeys, hrec, hok, hpd,
    hlt, hres, hcp⟩ := cpmApp_run tasks pid hnd hap hnc
  have hdeps : ∀ t ∈ order, ∀ d ∈ t.dependencies,
      d ∈ order.map (fun u => u.id) := by
    intro t ht d hd
    have := hap t (hperm.subset ht) d hd
    exact (hperm.map (fun u => u.id)).mem_iff.mpr this
  obtain ⟨lt', hok', hltrec⟩ := CpmApp.calculateLatestTimes_spec order
    (CpmApp.taskMapOf tasks) (r.projectDuration.unbot' 0) hndo hdf hdeps
  have hlteq : lt' = lt := by
    rw [hok'] at hlt
    exact Except.ok.inj hlt
  rw [hlteq] at hltrec
  exact ⟨order, et, lt, r, hok, hperm, hdf, hndo, hkeys, hrec, hltrec, hpd,
    hres, hcp⟩

/-- C5: on a collection satisfying the data-model invariants (unique ids,
resolved dependency references, non-negative durations) whose graph is
acyclic, `calculateCPM` succeeds, every entry of the returned task results
has non-negative slack, and whenever the collection is non-empty some entry
has slack zero and the critical path is non-empty. -/
theorem c5_slack_nonneg (tasks : List Task) (pid : String)
    (hnd : NodupIds tasks) (hap : AllPresent tasks) (hdur : NonnegDur tasks)
    (hnc : ¬ HasCycle tasks) :
    ∃ r, CpmApp.calculateCPM tasks pid = .ok r ∧
      (∀ e ∈ r.taskResults, 0 ≤ e.2.slack) ∧
      (tasks ≠ [] →
        (∃ e ∈ r.taskResults, e.2.slack = 0) ∧ r.criticalPath ≠ []) := by
  obtain ⟨order, et, lt, r, hok, hperm, hdf, hndo, hkeys, hrec, hlrec, hpd,
    hres, hcp⟩ := cpmApp_run_lt tasks pid hnd hap hnc
  have hduro : NonnegDur order := fun t ht => hdur t (hperm.subset ht)
  have hkeysnd : (keysA et).Nodup := by
    rw [hkeys]
    exact hndo
  have hlookres : ∀ t ∈ order,
      lookupA (CpmApp.calculateTaskResults et lt) t.id = some
        ⟨t.id, CpmApp.esOf et t, CpmApp.esOf et t + t.duration,
         ((lookupA lt t.id).getD ⟨0, 0⟩).latestStart,
         ((lookupA lt t.id).getD ⟨0, 0⟩).latestFinish,
         ((lookupA lt t.id).getD ⟨0, 0⟩).latestStart - CpmApp.esOf et t,
         decide (((lookupA lt t.id).getD ⟨0, 0⟩).latestStart -
           CpmApp.esOf et t = 0)⟩ := by
    intro t ht
    have he := hrec t ht
    unfold CpmApp.ETrec at he
    have h2 := @CpmApp.calculateTaskResults_lookup et lt t.id _ hkeysnd he
    rw [@CpmApp.calculateSlack_lookup et lt t.id _ hkeysnd he] at h2
    exact h2
  have hvals : (CpmApp.calculateTaskResults et lt).map Prod.snd =
      order.map (fun t =>
        (⟨t.id, CpmApp.esOf et t, CpmApp.esOf et t + t.duration,
         ((lookupA lt t.id).getD ⟨0, 0⟩).latestStart,
         ((lookupA lt t.id).getD ⟨0, 0⟩).latestFinish,
         ((lookupA lt t.id).getD ⟨0, 0⟩).latestStart - CpmApp.esOf et t,
         decide (((lookupA lt t.id).getD ⟨0, 0⟩).latestStart -
           CpmApp.esOf et t = 0)⟩ : CPMResult)) :=
    table_vals _ order _
      (by rw [CpmApp.keysA_calculateTaskResults et lt hkeysnd]; exact hkeys)
      hndo hlookres
  have hpdbound : ∀ t ∈ order,
      CpmApp.esOf et t + t.duration ≤ r.projectDuration.unbot' 0 := by
    intro t ht
    have hne : order ≠ [] := List.ne_nil_of_mem ht
    obtain ⟨M, hM, hMb, -⟩ := max_ef_sink hndo hdf hduro hrec hne
    rw [hpd, hM]
    exact hMb t ht
  have hslack_ge : ∀ t ∈ order,
      0 ≤ ((lookupA lt t.id).getD ⟨0, 0⟩).latestStart - CpmApp.esOf et t := by
    intro t ht
    obtain ⟨recL, hrecL, hls, -⟩ := hlrec t ht
    obtain ⟨l₁, l₂, hsplit⟩ := List.append_of_mem ht
    have hge := lf_ge_ef hndo hdf hrec hlrec hpdbound l₂.length l₁ t l₂
      hsplit rfl recL hrecL
    rw [hrecL]
    simp only [Option.getD_some]
    omega
  refine ⟨r, hok, ?_, ?_⟩
  · intro e he
    rw [hres] at he
    have hsnd : e.2 ∈ (CpmApp.calculateTaskResults et lt).map Prod.snd :=
      List.mem_map.mpr ⟨e, he, rfl⟩
    rw [hvals] at hsnd
    obtain ⟨t, ht, hgt⟩ := List.mem_map.mp hsnd
    rw [← hgt]
    exact hslack_ge t ht
  · intro hne
    have horder_ne : order ≠ [] := by
      intro h
      rw [h] at hperm
      exact hne hperm.symm.eq_nil
    obtain ⟨M, hM, hMb, s, hs, hsink, hsEF⟩ :=
      max_ef_sink hndo hdf hduro hrec horder_ne
    obtain ⟨recL, hrecL, hls, hor⟩ := hlrec s hs
    have hlf : recL.latestFinish = r.projectDuration.unbot' 0 := by
      rcases hor with ⟨-, h⟩ | ⟨-, u, hu, hud, -⟩
      · exact h
      · exact absurd hud (hsink u hu)
    have hpdM : r.projectDuration.unbot' 0 = M := by
      rw [hpd, hM]
      rfl
    have hslack0 : ((lookupA lt s.id).getD ⟨0, 0⟩).latestStart -
        CpmApp.esOf et s = 0 := by
      rw [hrecL]
      simp only [Option.getD_some]
      rw [hls, hlf, hpdM]
      omega
    constructor
    · refine ⟨(s.id,
        ⟨s.id, CpmApp.esOf et s, CpmApp.esOf et s + s.duration,
         ((lookupA lt s.id).getD ⟨0, 0⟩).latestStart,
         ((lookupA lt s.id).getD ⟨0, 0⟩).latestFinish,
         ((lookupA lt s.id).getD ⟨0, 0⟩).latestStart - CpmApp.esOf et s,
         decide (((lookupA lt s.id).getD ⟨0, 0⟩).latestStart -
           CpmApp.esOf et s = 0)⟩), ?_, ?_⟩
      · rw [hres]
        exact lookupA_mem (hlookres s hs)
      · exact hslack0
    · rw [hcp]
      unfold CpmApp.findCriticalPath
      refine List.ne_nil_of_mem (a := (⟨s.id, CpmApp.esOf et s,
        CpmApp.esOf et s + s.duration,
        ((lookupA lt s.id).getD ⟨0, 0⟩).latestStart,
        ((lookupA lt s.id).getD ⟨0, 0⟩).latestFinish,
        ((lookupA lt s.id).getD ⟨0, 0⟩).latestStart - CpmApp.esOf et s,
        decide (((lookupA lt s.id).getD ⟨0, 0⟩).latestStart -
          CpmApp.esOf et s = 0)⟩ : CPMResult).taskId) ?_
      refine List.mem_map.mpr ⟨_, ?_, rfl⟩
      refine List.mem_filter.mpr ⟨?_, ?_⟩
      · rw [hvals]
        exact List.mem_map.mpr ⟨s, hs, rfl⟩
      · simp only [decide_eq_true_eq]
        exact hslack0

/-- Acyclicity from a computed successful sort: lets concrete witnesses
discharge the no-cycle hypothesis by evaluation. -/
theorem no_cycle_of_isOk {tasks : List Task} (hnd : NodupIds tasks)
    (h : (CpmApp.topologicalSort tasks
      (CpmApp.taskMapOf tasks)).toOption.isSome = true) :
    ¬ HasCycle tasks := by
  cases hts : CpmApp.topologicalSort tasks (CpmApp.taskMapOf tasks) with
  | ok sorted => exact no_cycle_of_topo_ok hnd hts
  | error e =>
    rw [hts] at h
    cases h

/-- Witness for C5 at the six-task scenario. -/
theorem c5_slack_nonneg_witness :
    NodupIds exTasks ∧ AllPresent exTasks ∧ NonnegDur exTasks ∧
    ¬ HasCycle exTasks ∧
    ∃ r, CpmApp.calculateCPM exTasks "" = .ok r ∧
      (∀ e ∈ r.taskResults, 0 ≤ e.2.slack) ∧
      (exTasks ≠ [] →
        (∃ e ∈ r.taskResults, e.2.slack = 0) ∧ r.criticalPath ≠ []) :=
  ⟨by decide, by decide, by decide, no_cycle_of_isOk (by decide) (by decide),
    c5_slack_nonneg exTasks "" (by decide) (by decide) (by decide)
      (no_cycle_of_isOk (by decide) (by decide))⟩

/-! ### Path enumeration of `cpmCalculator` -/

theorem foldListO_rel_mem {α β : Type} {f : α → β → Option β}
    (R : β → β → Prop) (hrefl : ∀ b, R b b)
    (htrans : ∀ a b c, R a b → R b c → R a c) :
    ∀ (ds : List α) (s s' : β),
      (∀ x ∈ ds, ∀ a a', f x a = some a' → R a a') →
      foldListO f ds s = some s' → R s s' := by
  intro ds
  induction ds with
  | nil =>
    intro s s' _ h
    obtain rfl : s = s' := by simpa [foldListO] using h
    exact hrefl s
  | cons d ds ih =>
    intro s s' hstep h
    obtain ⟨s₁, h₁, h₂⟩ := foldListO_cons_some.mp h
    exact htrans _ _ _ (hstep d (List.mem_cons_self d ds) s s₁ h₁)
      (ih s₁ s' (fun x hx => hstep x (List.mem_cons_of_mem d hx)) h₂)

theorem foldListO_split {α β : Type} {f : α → β → Option β} :
    ∀ (xs : List α) (s out : β), foldListO f xs s = some out →
      ∀ x ∈ xs, ∃ s₁ s₂ post, f x s₁ = some s₂ ∧
        foldListO f post s₂ = some out ∧ ∀ y ∈ post, y ∈ xs := by
  intro xs
  induction xs with
  | nil =>
    intro s out _ x hx
    cases hx
  | cons d ds ih =>
    intro s out h x hx
    obtain ⟨s₁, h₁, h₂⟩ := foldListO_cons_some.mp h
    rcases List.mem_cons.mp hx with rfl | hmem
    · exact ⟨s, s₁, ds, h₁, h₂, fun y hy => List.mem_cons_of_mem _ hy⟩
    · obtain ⟨t₁, t₂, post, hf, hfold, hsub⟩ := ih s₁ out h₂ x hmem
      exact ⟨t₁, t₂, post, hf, hfold,
        fun y hy => List.mem_cons_of_mem _ (hsub y hy)⟩

theorem foldListO_all_isSome {α β : Type} {f : α → β → Option β} :
    ∀ (xs : List α), (∀ x ∈ xs, ∀ acc, (f x acc).isSome = true) →
      ∀ s, (foldListO f xs s).isSome = true := by
  intro xs
  induction xs with
  | nil => intro _ s; rfl
  | cons d ds ih =>
    intro hall s
    obtain ⟨s₁, h₁⟩ := Option.isSome_iff_exists.mp
      (hall d (List.mem_cons_self _ _) s)
    have : foldListO f (d :: ds) s = foldListO f ds s₁ := by
      simp [foldListO, h₁, Option.bind]
    rw [this]
    exact ih (fun x hx => hall x (List.mem_cons_of_mem _ hx)) s₁

namespace CpmCalc

theorem mapGet_fold_mem :
    ∀ (acts : List Activity) (aid : String) (acc : Option Activity)
      (a : Activity),
      acts.foldl (fun acc b => if b.id = aid then some b else acc) acc =
        some a →
      acc = some a ∨ (a ∈ acts ∧ a.id = aid) := by
  intro acts
  induction acts with
  | nil => intro aid acc a h; exact Or.inl h
  | cons b acts ih =>
    intro aid acc a h
    simp only [List.foldl_cons] at h
    rcases ih aid _ a h with hacc | ⟨hmem, hid⟩
    · by_cases hb : b.id = aid
      · rw [if_pos hb] at hacc
        injection hacc with hacc
        subst hacc
        exact Or.inr ⟨List.mem_cons_self _ _, hb⟩
      · rw [if_neg hb] at hacc
        exact Or.inl hacc
    · exact Or.inr ⟨List.mem_cons_of_mem _ hmem, hid⟩

theorem mapGet_mem {acts : List Activity} {aid : String} {a : Activity}
    (h : mapGet acts aid = some a) : a ∈ acts ∧ a.id = aid := by
  rcases mapGet_fold_mem acts aid none a h with hn | hg
  · cases hn
  · exact hg

theorem mapGet_fold_no_match :
    ∀ (acts : List Activity) (aid : String) (acc : Option Activity),
      (∀ a ∈ acts, a.id ≠ aid) →
      acts.foldl (fun acc b => if b.id = aid then some b else acc) acc =
        acc := by
  intro acts
  induction acts with
  | nil => intro aid acc _; rfl
  | cons b acts ih =>
    intro aid acc hall
    simp only [List.foldl_cons,
      if_neg (hall b (List.mem_cons_self _ _))]
    exact ih aid acc (fun a ha => hall a (List.mem_cons_of_mem _ ha))

theorem mapGet_self {acts : List Activity}
    (hnd : (acts.map (fun a => a.id)).Nodup) {a : Activity} (ha : a ∈ acts) :
    mapGet acts a.id = some a := by
  obtain ⟨l₁, l₂, hsplit⟩ := List.append_of_mem ha
  have hmap : acts.map (fun b => b.id) =
      l₁.map (fun b => b.id) ++ a.id :: l₂.map (fun b => b.id) := by
    rw [hsplit]; simp
  have hnd' : (l₁.map (fun b => b.id) ++
      a.id :: l₂.map (fun b => b.id)).Nodup := by
    rw [← hmap]; exact hnd
  have hnol2 : ∀ b ∈ l₂, b.id ≠ a.id := by
    intro b hb he
    exact (nodup_middle_not_mem hnd').2 (he ▸ List.mem_map.mpr ⟨b, hb, rfl⟩)
  unfold mapGet
  rw [hsplit, List.foldl_append, List.foldl_cons, if_pos rfl]
  exact mapGet_fold_no_match l₂ a.id (some a) hnol2

theorem lookupA_initSuccC_fold (acts : List Activity) :
    ∀ (acc : List (String × List String)) (k : String),
      lookupA (acts.foldl (fun m a => objSet m a.id ([] : List String)) acc)
          k =
        if k ∈ acts.map (fun a => a.id) then some [] else lookupA acc k := by
  induction acts with
  | nil =>
    intro acc k
    simp
  | cons a acts ih =>
    intro acc k
    simp only [List.foldl_cons, List.map_cons, List.mem_cons]
    rw [ih]
    by_cases hko : k ∈ acts.map (fun a => a.id)
    · rw [if_pos hko, if_pos (Or.inr hko)]
    · rw [if_neg hko, lookupA_objSet]
      by_cases hkt : a.id = k
      · rw [if_pos hkt, if_pos (Or.inl hkt.symm)]
      · rw [if_neg hkt, if_neg ?_]
        rintro (h | h)
        · exact hkt h.symm
        · exact hko h

theorem memSucc_objSet_getD (aid pid : String)
    (m : List (String × List String)) (k sid : String) :
    CpmApp.MemSucc (objSet m pid (((lookupA m pid).getD []) ++ [aid])) k sid ↔
      CpmApp.MemSucc m k sid ∨ (sid = aid ∧ k = pid) := by
  unfold CpmApp.MemSucc
  rw [lookupA_objSet]
  by_cases hpk : pid = k
  · rw [if_pos hpk, ← hpk]
    cases hm : lookupA m pid with
    | none =>
      constructor
      · rintro ⟨L, hL, hmem⟩
        injection hL with hL
        rw [← hL] at hmem
        simp only [Option.getD_none, List.nil_append,
          List.mem_singleton] at hmem
        exact Or.inr ⟨hmem, by trivial⟩
      · rintro (⟨L, hL, -⟩ | ⟨hsid, -⟩)
        · cases hL
        · exact ⟨[aid], rfl, by rw [hsid]; exact List.mem_singleton_self _⟩
    | some L0 =>
      constructor
      · rintro ⟨L, hL, hmem⟩
        injection hL with hL
        rw [← hL] at hmem
        simp only [Option.getD_some] at hmem
        rcases List.mem_append.mp hmem with h | h
        · exact Or.inl ⟨L0, rfl, h⟩
        · exact Or.inr ⟨List.mem_singleton.mp h, by trivial⟩
      · rintro (⟨L1, hL1, hmem⟩ | ⟨hsid, -⟩)
        · injection hL1 with hL1
          exact ⟨L0 ++ [aid], by rfl,
            List.mem_append_left _ (hL1 ▸ hmem)⟩
        · exact ⟨L0 ++ [aid], by rfl, List.mem_append_right _
            (by rw [hsid]; exact List.mem_singleton_self _)⟩
  · rw [if_neg hpk]
    constructor
    · exact fun h => Or.inl h
    · rintro (h | ⟨-, hkp⟩)
      · exact h
      · exact absurd hkp.symm hpk

theorem memSucc_predsFoldC (aid : String) :
    ∀ (ps : List String) (m : List (String × List String)) (k sid : String),
      CpmApp.MemSucc (ps.foldl (fun m' pid =>
          objSet m' pid (((lookupA m' pid).getD []) ++ [aid])) m) k sid ↔
        CpmApp.MemSucc m k sid ∨ (sid = aid ∧ k ∈ ps) := by
  intro ps
  induction ps with
  | nil =>
    intro m k sid
    constructor
    · exact Or.inl
    · rintro (h | ⟨-, h⟩)
      · exact h
      · cases h
  | cons pid ps ih =>
    intro m k sid
    simp only [List.foldl_cons]
    rw [ih, memSucc_objSet_getD]
    simp only [List.mem_cons]
    constructor
    · rintro ((h | ⟨h1, h2⟩) | ⟨h1, h2⟩)
      · exact Or.inl h
      · exact Or.inr ⟨h1, Or.inl h2⟩
      · exact Or.inr ⟨h1, Or.inr h2⟩
    · rintro (h | ⟨h1, h2 | h2⟩)
      · exact Or.inl (Or.inl h)
      · exact Or.inl (Or.inr ⟨h1, h2⟩)
      · exact Or.inr ⟨h1, h2⟩

theorem memSucc_buildFoldC :
    ∀ (us : List Activity) (m : List (String × List String)) (k sid : String),
      CpmApp.MemSucc (us.foldl (fun m a => a.predecessors.foldl
          (fun m' pid =>
            objSet m' pid (((lookupA m' pid).getD []) ++ [a.id])) m) m)
          k sid ↔
        CpmApp.MemSucc m k sid ∨
          ∃ b ∈ us, sid = b.id ∧ k ∈ b.predecessors := by
  intro us
  induction us with
  | nil =>
    intro m k sid
    constructor
    · exact Or.inl
    · rintro (h | ⟨b, hb, -⟩)
      · exact h
      · cases hb
  | cons a us ih =>
    intro m k sid
    simp only [List.foldl_cons]
    rw [ih, memSucc_predsFoldC]
    simp only [List.exists_mem_cons_iff]
    constructor
    · rintro ((h | ⟨h1, h2⟩) | ⟨b, hb, h1, h2⟩)
      · exact Or.inl h
      · exact Or.inr (Or.inl ⟨h1, h2⟩)
      · exact Or.inr (Or.inr ⟨b, hb, h1, h2⟩)
    · rintro (h | ⟨h1, h2⟩ | ⟨b, hb, h1, h2⟩)
      · exact Or.inl (Or.inl h)
      · exact Or.inl (Or.inr ⟨h1, h2⟩)
      · exact Or.inr ⟨b, hb, h1, h2⟩

theorem lookupA_isSome_objSet {α : Type} (m : List (String × α))
    (k key : String) (v : α) (h : (lookupA m key).isSome = true) :
    (lookupA (objSet m k v) key).isSome = true := by
  rw [lookupA_objSet]
  by_cases hk : k = key
  · rw [if_pos hk]; rfl
  · rw [if_neg hk]; exact h

theorem predsFoldC_isSome (aid : String) :
    ∀ (ps : List String) (m : List (String × List String)) (key : String),
      (lookupA m key).isSome = true →
      (lookupA (ps.foldl (fun m' pid =>
        objSet m' pid (((lookupA m' pid).getD []) ++ [aid])) m)
        key).isSome = true := by
  intro ps
  induction ps with
  | nil => intro m key h; exact h
  | cons pid ps ih =>
    intro m key h
    simp only [List.foldl_cons]
    exact ih _ key (lookupA_isSome_objSet m pid key _ h)

theorem buildFoldC_isSome :
    ∀ (us : List Activity) (m : List (String × List String)) (key : String),
      (lookupA m key).isSome = true →
      (lookupA (us.foldl (fun m a => a.predecessors.foldl
        (fun m' pid =>
          objSet m' pid (((lookupA m' pid).getD []) ++ [a.id])) m) m)
        key).isSome = true := by
  intro us
  induction us with
  | nil => intro m key h; exact h
  | cons a us ih =>
    intro m key h
    simp only [List.foldl_cons]
    exact ih _ key (predsFoldC_isSome a.id a.predecessors m key h)

/-- The successor map built by `backwardPass` and `findAllPaths`: every
activity's entry lists exactly the ids of the activities having it as a
predecessor. -/
theorem buildSuccC_spec (acts : List Activity) :
    ∀ a ∈ acts, ∃ succs, lookupA (buildSuccC acts) a.id = some succs ∧
      ∀ sid, sid ∈ succs ↔
        ∃ b ∈ acts, sid = b.id ∧ a.id ∈ b.predecessors := by
  intro a ha
  have hinit : lookupA (initSuccC acts) a.id = some [] := by
    unfold initSuccC
    rw [lookupA_initSuccC_fold]
    rw [if_pos (List.mem_map.mpr ⟨a, ha, rfl⟩)]
  have hsome : (lookupA (buildSuccC acts) a.id).isSome = true := by
    unfold buildSuccC
    exact buildFoldC_isSome acts _ a.id (by rw [hinit]; rfl)
  obtain ⟨succs, hsuccs⟩ := Option.isSome_iff_exists.mp hsome
  refine ⟨succs, hsuccs, ?_⟩
  intro sid
  have hmem := memSucc_buildFoldC acts (initSuccC acts) a.id sid
  unfold buildSuccC at hsuccs
  constructor
  · intro hs
    rcases hmem.mp ⟨succs, hsuccs, hs⟩ with ⟨L, hL, hsl⟩ | hgood
    · rw [hinit] at hL
      injection hL with hL
      rw [← hL] at hsl
      cases hsl
    · exact hgood
  · rintro ⟨b, hb, h1, h2⟩
    obtain ⟨L, hL, hsl⟩ := hmem.mpr (Or.inr ⟨b, hb, h1, h2⟩)
    rw [hsuccs] at hL
    injection hL with hL
    rw [hL]
    exact hsl

end CpmCalc

/-- One task as an engine activity (scheduling fields cleared). -/
def actOfTask (t : Task) : CpmCalc.Activity :=
  ⟨t.id, t.name, t.duration, t.dependencies, 0, 0, 0, 0, 0, false⟩

/-- Total duration of a path of activities. -/
def pathDurationA (p : List CpmCalc.Activity) : Int :=
  (p.map (fun a => a.duration)).sum

/-- A maximal successor path: from `a` along the successor map down to an
activity without successors, stepping only through ids resolved by the
activity map — exactly the paths `findPaths` walks. -/
inductive SuccPath (acts : List CpmCalc.Activity)
    (succMap : List (String × List String)) :
    CpmCalc.Activity → List CpmCalc.Activity → Prop where
  | sink (a : CpmCalc.Activity)
      (h : (lookupA succMap a.id).getD [] = []) : SuccPath acts succMap a [a]
  | step (a sa : CpmCalc.Activity) (q : List CpmCalc.Activity) (sid : String)
      (hs : sid ∈ (lookupA succMap a.id).getD [])
      (hm : CpmCalc.mapGet acts sid = some sa)
      (hq : SuccPath acts succMap sa q) : SuccPath acts succMap a (a :: q)

theorem findPathsC_succ_sink {acts : List CpmCalc.Activity}
    {succMap : List (String × List String)} {fuel : Nat}
    {a : CpmCalc.Activity} {cur : List CpmCalc.Activity}
    {all : List (List CpmCalc.Activity)}
    (h : ((lookupA succMap a.id).getD []).length = 0) :
    CpmCalc.findPathsC acts succMap (fuel + 1) a cur all =
      some (all ++ [cur ++ [a]]) := by
  simp only [CpmCalc.findPathsC]
  rw [if_pos h]

theorem findPathsC_succ_step {acts : List CpmCalc.Activity}
    {succMap : List (String × List String)} {fuel : Nat}
    {a : CpmCalc.Activity} {cur : List CpmCalc.Activity}
    {all : List (List CpmCalc.Activity)}
    (h : ¬ ((lookupA succMap a.id).getD []).length = 0) :
    CpmCalc.findPathsC acts succMap (fuel + 1) a cur all =
      foldListO (fun sid all' =>
        match CpmCalc.mapGet acts sid with
        | none => some all'
        | some sa => CpmCalc.findPathsC acts succMap fuel sa (cur ++ [a]) all')
        ((lookupA succMap a.id).getD []) all := by
  simp only [CpmCalc.findPathsC]
  rw [if_neg h]

theorem findPathsC_mono (acts : List CpmCalc.Activity)
    (succMap : List (String × List String)) :
    ∀ (fuel : Nat) (a : CpmCalc.Activity) (cur : List CpmCalc.Activity)
      (all out : List (List CpmCalc.Activity)),
      CpmCalc.findPathsC acts succMap fuel a cur all = some out →
      ∀ p ∈ all, p ∈ out := by
  intro fuel
  induction fuel with
  | zero => intro a cur all out h; cases h
  | succ fuel ih =>
    intro a cur all out h
    by_cases hlen : ((lookupA succMap a.id).getD []).length = 0
    · rw [findPathsC_succ_sink hlen] at h
      injection h with h
      intro p hp
      rw [← h]
      exact List.mem_append_left _ hp
    · rw [findPathsC_succ_step hlen] at h
      refine foldListO_rel_mem (fun acc acc' => ∀ p ∈ acc, p ∈ acc')
        (fun b p hp => hp) (fun x y z hxy hyz p hp => hyz p (hxy p hp))
        _ all out ?_ h
      intro sid hsid acc acc' hstep
      cases hm : CpmCalc.mapGet acts sid with
      | none =>
        rw [hm] at hstep
        have heq : some acc = some acc' := hstep
        injection heq with heq
        rw [← heq]
        exact fun p hp => hp
      | some sa =>
        rw [hm] at hstep
        exact ih sa (cur ++ [a]) acc acc' hstep

theorem findPathsC_sound (acts : List CpmCalc.Activity)
    (succMap : List (String × List String)) :
    ∀ (fuel : Nat) (a : CpmCalc.Activity) (cur : List CpmCalc.Activity)
      (all out : List (List CpmCalc.Activity)),
      CpmCalc.findPathsC acts succMap fuel a cur all = some out →
      ∀ p ∈ out, p ∈ all ∨
        ∃ q, SuccPath acts succMap a q ∧ p = cur ++ q := by
  intro fuel
  induction fuel with
  | zero => intro a cur all out h; cases h
  | succ fuel ih =>
    intro a cur all out h
    by_cases hlen : ((lookupA succMap a.id).getD []).length = 0
    · rw [findPathsC_succ_sink hlen] at h
      injection h with h
      intro p hp
      rw [← h] at hp
      rcases List.mem_append.mp hp with h1 | h1
      · exact Or.inl h1
      · rw [List.mem_singleton.mp h1]
        exact Or.inr ⟨[a], SuccPath.sink a (List.length_eq_zero.mp hlen), rfl⟩
    · rw [findPathsC_succ_step hlen] at h
      refine foldListO_rel_mem
        (fun acc acc' => ∀ p ∈ acc', p ∈ acc ∨
          ∃ q, SuccPath acts succMap a q ∧ p = cur ++ q)
        (fun b p hp => Or.inl hp)
        (fun x y z hxy hyz p hp => (hyz p hp).elim (fun h2 => hxy p h2) Or.inr)
        _ all out ?_ h
      intro sid hsid acc acc' hstep
      cases hm : CpmCalc.mapGet acts sid with
      | none =>
        rw [hm] at hstep
        have heq : some acc = some acc' := hstep
        injection heq with heq
        intro p hp
        rw [← heq] at hp
        exact Or.inl hp
      | some sa =>
        rw [hm] at hstep
        have hrec : CpmCalc.findPathsC acts succMap fuel sa (cur ++ [a]) acc =
            some acc' := hstep
        intro p hp
        rcases ih sa (cur ++ [a]) acc acc' hrec p hp with h1 | ⟨q, hq, hpq⟩
        · exact Or.inl h1
        · refine Or.inr ⟨a :: q, SuccPath.step a sa q sid hsid hm hq, ?_⟩
          rw [hpq, List.append_assoc]
          rfl

theorem findPathsC_complete (acts : List CpmCalc.Activity)
    (succMap : List (String × List String)) :
    ∀ {a : CpmCalc.Activity} {q : List CpmCalc.Activity},
      SuccPath acts succMap a q →
      ∀ (fuel : Nat) (cur : List CpmCalc.Activity)
        (all out : List (List CpmCalc.Activity)),
        CpmCalc.findPathsC acts succMap fuel a cur all = some out →
        cur ++ q ∈ out := by
  intro a q hpath
  induction hpath with
  | sink a h =>
    intro fuel cur all out hok
    cases fuel with
    | zero => cases hok
    | succ fuel =>
      rw [findPathsC_succ_sink (by rw [h]; rfl)] at hok
      injection hok with hok
      rw [← hok]
      exact List.mem_append_right _ (List.mem_singleton_self _)
  | step a sa q sid hs hm hq ihq =>
    intro fuel cur all out hok
    cases fuel with
    | zero => cases hok
    | succ fuel =>
      have hlen : ¬ ((lookupA succMap a.id).getD []).length = 0 := by
        intro h0
        rw [List.length_eq_zero.mp h0] at hs
        cases hs
      rw [findPathsC_succ_step hlen] at hok
      obtain ⟨s₁, s₂, post, hf, hfold, hsub⟩ :=
        foldListO_split _ all out hok sid hs
      rw [hm] at hf
      have hrec : CpmCalc.findPathsC acts succMap fuel sa (cur ++ [a]) s₁ =
          some s₂ := hf
      have hmem2 : (cur ++ [a]) ++ q ∈ s₂ := ihq fuel (cur ++ [a]) s₁ s₂ hrec
      have hmono : ∀ p ∈ s₂, p ∈ out := by
        refine foldListO_rel_mem (fun x y => ∀ p ∈ x, p ∈ y)
          (fun b p hp => hp)
          (fun x y z hxy hyz p hp => hyz p (hxy p hp)) post s₂ out ?_ hfold
        intro sid2 hsid2 acc acc' hstep
        cases hm2 : CpmCalc.mapGet acts sid2 with
        | none =>
          rw [hm2] at hstep
          have heq : some acc = some acc' := hstep
          injection heq with heq
          rw [← heq]
          exact fun p hp => hp
        | some sa2 =>
          rw [hm2] at hstep
          exact findPathsC_mono acts succMap fuel sa2 (cur ++ [a]) acc acc'
            hstep
      have hfin := hmono _ hmem2
      rw [List.append_assoc] at hfin
      exact hfin

/-- A dependent's first position is strictly later. -/
theorem dependent_rank_lt {order : List Task} (hnd : NodupIds order)
    (hdf : DepsFirst order) {t u : Task} (ht : t ∈ order) (hu : u ∈ order)
    (hdep : t.id ∈ u.dependencies) :
    rankIn (order.map (fun v => v.id)) t.id <
      rankIn (order.map (fun v => v.id)) u.id := by
  obtain ⟨l₁, l₂, hsplit⟩ := List.append_of_mem ht
  have hul2 : u ∈ l₂ := dependent_in_suffix hnd hdf hsplit hu hdep
  obtain ⟨hn1, hn2⟩ := split_id_not_mem hnd hsplit
  have hmap : order.map (fun v => v.id) =
      l₁.map (fun v => v.id) ++ t.id :: l₂.map (fun v => v.id) := by
    rw [hsplit]; simp
  have huid2 : u.id ∈ l₂.map (fun v => v.id) := List.mem_map.mpr ⟨u, hul2, rfl⟩
  have hune : u.id ≠ t.id := id_ne_of_not_mem hul2 hn2
  have hu_not1 : u.id ∉ l₁.map (fun v => v.id) :=
    fun hm => split_ids_disjoint hnd hsplit u.id hm huid2
  rw [hmap]
  have h1 := rankIn_append_self (l₂.map (fun v => v.id)) hn1
  have h2 := rankIn_ge_of_notMem (l₂.map (fun v => v.id)) hu_not1 hune
  omega

theorem acts_ids (tasks : List Task) :
    (tasks.map actOfTask).map (fun a => a.id) =
      tasks.map (fun t => t.id) := by
  rw [List.map_map]
  rfl

theorem rankIn_lt_length {order : List Task} (hnd : NodupIds order)
    {t : Task} (ht : t ∈ order) :
    rankIn (order.map (fun v => v.id)) t.id < order.length := by
  obtain ⟨l₁, l₂, hsplit⟩ := List.append_of_mem ht
  obtain ⟨hn1, -⟩ := split_id_not_mem hnd hsplit
  have hmap : order.map (fun v => v.id) =
      l₁.map (fun v => v.id) ++ t.id :: l₂.map (fun v => v.id) := by
    rw [hsplit]; simp
  have hlen : order.length = l₁.length + l₂.length + 1 := by
    rw [hsplit]
    simp only [List.length_append, List.length_cons]
    omega
  rw [hmap, rankIn_append_self (l₂.map (fun v => v.id)) hn1]
  simp only [List.length_map] at *
  omega

/-- With enough fuel `findPaths` returns on every task of an acyclic
order. -/
theorem findPathsC_isSome {tasks order : List Task}
    (hperm : order.Perm tasks) (hnd : NodupIds order) (hdf : DepsFirst order)
    {succMap : List (String × List String)}
    (hschar : ∀ a ∈ tasks.map actOfTask,
      ∃ succs, lookupA succMap a.id = some succs ∧
        ∀ sid, sid ∈ succs ↔
          ∃ b ∈ tasks.map actOfTask, sid = b.id ∧ a.id ∈ b.predecessors) :
    ∀ (fuel : Nat) (t : Task), t ∈ order →
      order.length - rankIn (order.map (fun u => u.id)) t.id < fuel →
      ∀ (cur : List CpmCalc.Activity) (all : List (List CpmCalc.Activity)),
        (CpmCalc.findPathsC (tasks.map actOfTask) succMap fuel
          (actOfTask t) cur all).isSome = true := by
  intro fuel
  induction fuel with
  | zero =>
    intro t ht hlt
    exact absurd hlt (Nat.not_lt_zero _)
  | succ fuel ih =>
    intro t ht hlt cur all
    have hta : actOfTask t ∈ tasks.map actOfTask :=
      List.mem_map.mpr ⟨t, hperm.subset ht, rfl⟩
    obtain ⟨succs, hsuccs, hiff⟩ := hschar (actOfTask t) hta
    have hgetd : (lookupA succMap (actOfTask t).id).getD [] = succs := by
      rw [hsuccs]
      rfl
    by_cases hlen : ((lookupA succMap (actOfTask t).id).getD []).length = 0
    · rw [findPathsC_succ_sink hlen]
      rfl
    · rw [findPathsC_succ_step hlen, hgetd]
      refine foldListO_all_isSome succs ?_ all
      intro sid hsid acc
      cases hm : CpmCalc.mapGet (tasks.map actOfTask) sid with
      | none => rfl
      | some sa =>
        obtain ⟨b, hb, hsidb, hdep⟩ := (hiff sid).mp hsid
        obtain ⟨u, hu, hbu⟩ := List.mem_map.mp hb
        have hsamem := CpmCalc.mapGet_mem hm
        obtain ⟨u2, hu2, hsau2⟩ := List.mem_map.mp hsamem.1
        have hndt : NodupIds tasks := by
          unfold NodupIds
          have hnd2 := hnd
          unfold NodupIds at hnd2
          exact (hperm.map (fun v => v.id)).nodup_iff.mp hnd2
        have hu2u : u2 = u := by
          refine taskId_inj hndt u2 hu2 u hu ?_
          have e1 : u2.id = sa.id := by rw [← hsau2]; rfl
          have e2 : u.id = b.id := by rw [← hbu]; rfl
          rw [e1, hsamem.2, hsidb, ← e2]
        have hsau : sa = actOfTask u := by
          rw [← hsau2, hu2u]
        have hdep' : t.id ∈ u.dependencies := by
          have hda : (actOfTask t).id ∈ (actOfTask u).predecessors := by
            rw [← hbu] at hdep
            exact hdep
          exact hda
        have huo : u ∈ order := hperm.mem_iff.mpr hu
        have hrt := dependent_rank_lt hnd hdf ht huo hdep'
        have hru := rankIn_lt_length hnd huo
        have hfu : order.length -
            rankIn (order.map (fun v => v.id)) u.id < fuel := by
          omega
        have hgoal : (CpmCalc.findPathsC (tasks.map actOfTask) succMap fuel
            sa (cur ++ [actOfTask t]) acc).isSome = true := by
          rw [hsau]
          exact ih u huo hfu (cur ++ [actOfTask t]) acc
        exact hgoal

/-- Resolving one successor step of the enumeration back to a dependent
task. -/
theorem succ_step_resolve {tasks : List Task} (hndt : NodupIds tasks)
    {t : Task} {succs : List String}
    (hiff : ∀ sid, sid ∈ succs ↔
      ∃ b ∈ tasks.map actOfTask, sid = b.id ∧
        (actOfTask t).id ∈ b.predecessors)
    {sid : String} {sa : CpmCalc.Activity} (hsid : sid ∈ succs)
    (hm : CpmCalc.mapGet (tasks.map actOfTask) sid = some sa) :
    ∃ u ∈ tasks, sa = actOfTask u ∧ t.id ∈ u.dependencies := by
  obtain ⟨b, hb, hsidb, hdepb⟩ := (hiff sid).mp hsid
  obtain ⟨u, hu, hbu⟩ := List.mem_map.mp hb
  have hsamem := CpmCalc.mapGet_mem hm
  obtain ⟨u2, hu2, hsau2⟩ := List.mem_map.mp hsamem.1
  have hu2u : u2 = u := by
    refine taskId_inj hndt u2 hu2 u hu ?_
    have e1 : u2.id = sa.id := by rw [← hsau2]; rfl
    have e2 : u.id = b.id := by rw [← hbu]; rfl
    rw [e1, hsamem.2, hsidb, ← e2]
  have hsau : sa = actOfTask u := by rw [← hsau2, hu2u]
  have hdep' : t.id ∈ u.dependencies := by
    rw [← hbu] at hdepb
    exact hdepb
  exact ⟨u, hu, hsau, hdep'⟩

/-- Every enumerated successor path is bounded by some task's earliest
finish. -/
theorem succPath_sum_le {tasks order : List Task}
    {et : List (String × CpmApp.ETimes)}
    (hperm : order.Perm tasks) (hndo : NodupIds order)
    (hrec : ∀ t ∈ order, CpmApp.ETrec et t)
    {succMap : List (String × List String)}
    (hschar : ∀ a ∈ tasks.map actOfTask,
      ∃ succs, lookupA succMap a.id = some succs ∧
        ∀ sid, sid ∈ succs ↔
          ∃ b ∈ tasks.map actOfTask, sid = b.id ∧ a.id ∈ b.predecessors) :
    ∀ {a : CpmCalc.Activity} {q : List CpmCalc.Activity},
      SuccPath (tasks.map actOfTask) succMap a q →
      ∀ t, t ∈ order → a = actOfTask t →
        ∃ tend ∈ order, CpmApp.esOf et t + pathDurationA q ≤
          CpmApp.esOf et tend + tend.duration := by
  have hndt : NodupIds tasks := by
    unfold NodupIds
    have hnd2 := hndo
    unfold NodupIds at hnd2
    exact (hperm.map (fun v => v.id)).nodup_iff.mp hnd2
  intro a q hpath
  induction hpath with
  | sink a h =>
    intro t ht ha
    refine ⟨t, ht, ?_⟩
    subst ha
    have hsum : pathDurationA [actOfTask t] = t.duration := by
      simp [pathDurationA, actOfTask]
    rw [hsum]
  | step a sa q sid hs hm hq ihq =>
    intro t ht ha
    subst ha
    have hta : actOfTask t ∈ tasks.map actOfTask :=
      List.mem_map.mpr ⟨t, hperm.subset ht, rfl⟩
    obtain ⟨succs, hsuccs, hiff⟩ := hschar _ hta
    have hs' : sid ∈ succs := by
      rw [hsuccs] at hs
      exact hs
    obtain ⟨u, hu, hsau, hdep'⟩ := succ_step_resolve hndt hiff hs' hm
    have huo : u ∈ order := hperm.mem_iff.mpr hu
    obtain ⟨tend, htend, hle⟩ := ihq u huo hsau
    refine ⟨tend, htend, ?_⟩
    have hsum : pathDurationA (actOfTask t :: q) =
        t.duration + pathDurationA q := by
      simp [pathDurationA, actOfTask]
    have hrt := hrec t ht
    unfold CpmApp.ETrec at hrt
    have hmd : CpmApp.esOf et t + t.duration ≤
        CpmApp.maxDepEF u.dependencies et := by
      have := CpmApp.maxDepEF_ge_dep hdep' hrt
      simpa using this
    have hupos : u.dependencies.length > 0 :=
      List.length_pos.mpr (List.ne_nil_of_mem hdep')
    have hesu : CpmApp.esOf et u = CpmApp.maxDepEF u.dependencies et := by
      unfold CpmApp.esOf
      rw [if_pos hupos]
    rw [hsum]
    omega

theorem depChain_adj {tasks : List Task} {t : Task} {p : List Task}
    (h : DepChain tasks t p) :
    List.Chain' (fun u v => u.id ∈ v.dependencies) p ∧
      p.getLast? = some t := by
  induction h with
  | single t ht => exact ⟨List.chain'_singleton t, rfl⟩
  | snoc u t p hp ht hdep ih =>
    constructor
    · rw [List.chain'_append]
      refine ⟨ih.1, List.chain'_singleton t, ?_⟩
      intro x hx y hy
      have hxu : x = u := by
        rw [ih.2] at hx
        exact (Option.mem_some_iff.mp hx).symm
      have hyt : y = t := (Option.mem_some_iff.mp hy).symm
      rw [hxu, hyt]
      exact hdep
    · exact List.getLast?_concat p

theorem pathDurationA_map (q : List Task) :
    pathDurationA (q.map actOfTask) = pathDuration q := by
  unfold pathDurationA pathDuration
  rw [List.map_map]
  rfl

/-- A dependency chain over the tasks whose last element is a sink gives a
maximal successor path of the corresponding activities. -/
theorem taskChain_to_succPath {tasks : List Task} (hndt : NodupIds tasks)
    {succMap : List (String × List String)}
    (hschar : ∀ a ∈ tasks.map actOfTask,
      ∃ succs, lookupA succMap a.id = some succs ∧
        ∀ sid, sid ∈ succs ↔
          ∃ b ∈ tasks.map actOfTask, sid = b.id ∧ a.id ∈ b.predecessors) :
    ∀ (q : List Task) (t0 s : Task), t0 ∈ tasks → (∀ u ∈ q, u ∈ tasks) →
      List.Chain' (fun u v => u.id ∈ v.dependencies) (t0 :: q) →
      (t0 :: q).getLast? = some s →
      (∀ u ∈ tasks, s.id ∉ u.dependencies) →
      SuccPath (tasks.map actOfTask) succMap (actOfTask t0)
        ((t0 :: q).map actOfTask) := by
  have hnda : ((tasks.map actOfTask).map (fun a => a.id)).Nodup := by
    rw [acts_ids]
    exact hndt
  intro q
  induction q with
  | nil =>
    intro t0 s ht0 _ _ hlast hsink
    have hst0 : s = t0 := by
      injection hlast with h
      exact h.symm
    obtain ⟨succs, hsuccs, hiff⟩ :=
      hschar (actOfTask t0) (List.mem_map.mpr ⟨t0, ht0, rfl⟩)
    have hempty : succs = [] := by
      rw [List.eq_nil_iff_forall_not_mem]
      intro sid hsid
      obtain ⟨b, hb, -, hdep⟩ := (hiff sid).mp hsid
      obtain ⟨u, hu, hbu⟩ := List.mem_map.mp hb
      have hd : t0.id ∈ u.dependencies := by
        rw [← hbu] at hdep
        exact hdep
      rw [← hst0] at hd
      exact hsink u hu hd
    exact SuccPath.sink _ (by rw [hsuccs, hempty]; rfl)
  | cons t1 q ih =>
    intro t0 s ht0 hq hchain hlast hsink
    have h01 : t0.id ∈ t1.dependencies := (List.chain'_cons.mp hchain).1
    have ht1 : t1 ∈ tasks := hq t1 (List.mem_cons_self _ _)
    obtain ⟨succs, hsuccs, hiff⟩ :=
      hschar (actOfTask t0) (List.mem_map.mpr ⟨t0, ht0, rfl⟩)
    have hmem : t1.id ∈ succs := (hiff t1.id).mpr
      ⟨actOfTask t1, List.mem_map.mpr ⟨t1, ht1, rfl⟩, rfl, h01⟩
    have hmg : CpmCalc.mapGet (tasks.map actOfTask) t1.id =
        some (actOfTask t1) :=
      CpmCalc.mapGet_self hnda (List.mem_map.mpr ⟨t1, ht1, rfl⟩)
    refine SuccPath.step _ _ _ t1.id (by rw [hsuccs]; exact hmem) hmg ?_
    exact ih t1 s ht1 (fun u hu => hq u (List.mem_cons_of_mem _ hu))
      (List.chain'_cons.mp hchain).2
      (by rw [← hlast]; rfl) hsink

/-- `findAllPaths` on the activity images of an acyclic order returns, for
some fuel, a list of paths whose maximal total duration is exactly the
maximal earliest finish. -/
theorem findAllPaths_spec {tasks order : List Task}
    {et : List (String × CpmApp.ETimes)}
    (hperm : order.Perm tasks) (hndo : NodupIds order) (hdf : DepsFirst order)
    (hduro : NonnegDur order)
    (hrec : ∀ t ∈ order, CpmApp.ETrec et t) (hne : order ≠ []) :
    ∃ fuel paths,
      CpmCalc.findAllPaths fuel ⟨tasks.map actOfTask⟩ = some paths ∧
      listMaxBot (paths.map pathDurationA) =
        listMaxBot (order.map (fun t => CpmApp.esOf et t + t.duration)) := by
  have hndt : NodupIds tasks := by
    unfold NodupIds
    have hnd2 := hndo
    unfold NodupIds at hnd2
    exact (hperm.map (fun v => v.id)).nodup_iff.mp hnd2
  have hschar := CpmCalc.buildSuccC_spec (tasks.map actOfTask)
  have hok : (CpmCalc.findAllPaths (order.length + 1)
      ⟨tasks.map actOfTask⟩).isSome = true := by
    simp only [CpmCalc.findAllPaths]
    refine foldListO_all_isSome _ ?_ []
    intro s hs acc
    have hsmem := (List.mem_filter.mp hs).1
    obtain ⟨t0, ht0, hs0⟩ := List.mem_map.mp hsmem
    have ht0o : t0 ∈ order := hperm.mem_iff.mpr ht0
    rw [← hs0]
    refine findPathsC_isSome hperm hndo hdf hschar (order.length + 1) t0 ht0o
      ?_ [] acc
    have := rankIn_lt_length hndo ht0o
    omega
  obtain ⟨paths, hpaths⟩ := Option.isSome_iff_exists.mp hok
  obtain ⟨M, hM, hMb, s, hsmem, hsink, hsEF⟩ :=
    max_ef_sink hndo hdf hduro hrec hne
  have hpaths' : foldListO (fun s all =>
      CpmCalc.findPathsC (tasks.map actOfTask)
        (CpmCalc.buildSuccC (tasks.map actOfTask)) (order.length + 1)
        s [] all)
      ((tasks.map actOfTask).filter (fun a => a.predecessors.length = 0)) [] =
      some paths := hpaths
  have hsound : ∀ p ∈ paths, ∃ s0 q,
      s0 ∈ tasks.map actOfTask ∧ s0.predecessors.length = 0 ∧
      SuccPath (tasks.map actOfTask)
        (CpmCalc.buildSuccC (tasks.map actOfTask)) s0 q ∧ p = q := by
    have hrel := foldListO_rel_mem
      (fun acc acc' => ∀ p ∈ acc', p ∈ acc ∨ ∃ s0 q,
        s0 ∈ tasks.map actOfTask ∧ s0.predecessors.length = 0 ∧
        SuccPath (tasks.map actOfTask)
          (CpmCalc.buildSuccC (tasks.map actOfTask)) s0 q ∧ p = q)
      (fun b p hp => Or.inl hp)
      (fun x y z hxy hyz p hp => (hyz p hp).elim (fun h2 => hxy p h2) Or.inr)
      _ [] paths ?_ hpaths'
    · intro p hp
      rcases hrel p hp with h0 | hgood
      · cases h0
      · exact hgood
    · intro s0 hs0 acc acc' hstep
      intro p hp
      have hsf := List.mem_filter.mp hs0
      rcases findPathsC_sound (tasks.map actOfTask)
        (CpmCalc.buildSuccC (tasks.map actOfTask)) (order.length + 1)
        s0 [] acc acc' hstep p hp with h1 | ⟨q, hq, hpq⟩
      · exact Or.inl h1
      · exact Or.inr ⟨s0, q, hsf.1, of_decide_eq_true hsf.2, hq, hpq⟩
  have hbound : ∀ p ∈ paths, pathDurationA p ≤ M := by
    intro p hp
    obtain ⟨s0, q, hs0m, hlen0, hq, rfl⟩ := hsound p hp
    obtain ⟨t0, ht0, hs0eq⟩ := List.mem_map.mp hs0m
    have hdeps0 : t0.dependencies = [] := by
      have : (actOfTask t0).predecessors.length = 0 := by
        rw [hs0eq]
        exact hlen0
      exact List.length_eq_zero.mp this
    have ht0o : t0 ∈ order := hperm.mem_iff.mpr ht0
    obtain ⟨tend, htend, hle⟩ := succPath_sum_le hperm hndo hrec hschar hq t0
      ht0o hs0eq.symm
    have hes0 : CpmApp.esOf et t0 = 0 := by
      unfold CpmApp.esOf
      rw [hdeps0]
      rfl
    have := hMb tend htend
    omega
  obtain ⟨l₁, l₂, hsplit⟩ := List.append_of_mem hsmem
  obtain ⟨pchain, hchain, hsum, hh, hrest, hpe, hhdeps⟩ :=
    ef_achieved hndo hdf hduro hrec l₁.length l₁ s l₂ hsplit rfl
  have hadj := depChain_adj hchain
  have hchainmem : ∀ u ∈ pchain, u ∈ tasks :=
    fun u hu => hperm.subset (hchain.sublist_mem u hu)
  have hsink' : ∀ u ∈ tasks, s.id ∉ u.dependencies :=
    fun u hu => hsink u (hperm.mem_iff.mpr hu)
  have hchain' : List.Chain' (fun u v => u.id ∈ v.dependencies)
      (hh :: hrest) := by
    rw [← hpe]
    exact hadj.1
  have hlast' : (hh :: hrest).getLast? = some s := by
    rw [← hpe]
    exact hadj.2
  have hsp := taskChain_to_succPath hndt hschar hrest hh s
    (hchainmem hh (by rw [hpe]; exact List.mem_cons_self _ _))
    (fun u hu => hchainmem u (by rw [hpe]; exact List.mem_cons_of_mem _ hu))
    hchain' hlast' hsink'
  have hstart : actOfTask hh ∈ (tasks.map actOfTask).filter
      (fun a => a.predecessors.length = 0) := by
    refine List.mem_filter.mpr ⟨List.mem_map.mpr
      ⟨hh, hchainmem hh (by rw [hpe]; exact List.mem_cons_self _ _), rfl⟩, ?_⟩
    refine decide_eq_true ?_
    show hh.dependencies.length = 0
    rw [hhdeps]
    rfl
  obtain ⟨s₁, s₂, post, hf, hfold, hsub⟩ :=
    foldListO_split _ [] paths hpaths' (actOfTask hh) hstart
  have hmem2 : ([] : List CpmCalc.Activity) ++
      (hh :: hrest).map actOfTask ∈ s₂ :=
    findPathsC_complete _ _ hsp (order.length + 1) [] s₁ s₂ hf
  have hmono2 : ∀ p ∈ s₂, p ∈ paths := by
    refine foldListO_rel_mem (fun x y => ∀ p ∈ x, p ∈ y)
      (fun b p hp => hp)
      (fun x y z hxy hyz p hp => hyz p (hxy p hp)) post s₂ paths ?_ hfold
    intro s0 hs0 acc acc' hstep
    exact findPathsC_mono _ _ (order.length + 1) s0 [] acc acc' hstep
  have hmem3 : (hh :: hrest).map actOfTask ∈ paths := hmono2 _ hmem2
  have hdur3 : pathDurationA ((hh :: hrest).map actOfTask) = M := by
    rw [pathDurationA_map, ← hpe, hsum, hsEF]
  refine ⟨order.length + 1, paths, hpaths, ?_⟩
  rw [hM]
  refine le_antisymm ?_ ?_
  · refine listMaxBot_le ?_
    intro x hx
    obtain ⟨p, hp, hpx⟩ := List.mem_map.mp hx
    rw [← hpx]
    exact_mod_cast hbound p hp
  · have := @listMaxBot_ge (paths.map pathDurationA) M
      (List.mem_map.mpr ⟨_, hmem3, hdur3⟩)
    exact this

/-- The earliest-finish column of the results table. -/
theorem results_ef_map {order : List Task} {et : List (String × CpmApp.ETimes)}
    (lt : List (String × CpmApp.LTimes)) (hndo : NodupIds order)
    (hkeys : keysA et = order.map (fun t => t.id))
    (hrec : ∀ t ∈ order, CpmApp.ETrec et t) :
    ((CpmApp.calculateTaskResults et lt).map Prod.snd).map
        (fun c => c.earliestFinish) =
      order.map (fun t => CpmApp.esOf et t + t.duration) := by
  have hkeysnd : (keysA et).Nodup := by
    rw [hkeys]
    exact hndo
  have hlookres : ∀ t ∈ order,
      lookupA (CpmApp.calculateTaskResults et lt) t.id = some
        ⟨t.id, CpmApp.esOf et t, CpmApp.esOf et t + t.duration,
         ((lookupA lt t.id).getD ⟨0, 0⟩).latestStart,
         ((lookupA lt t.id).getD ⟨0, 0⟩).latestFinish,
         ((lookupA (CpmApp.calculateSlack et lt) t.id).getD
           ⟨0, false⟩).slack,
         ((lookupA (CpmApp.calculateSlack et lt) t.id).getD
           ⟨0, false⟩).isCritical⟩ := by
    intro t ht
    have he := hrec t ht
    unfold CpmApp.ETrec at he
    exact @CpmApp.calculateTaskResults_lookup et lt t.id _ hkeysnd he
  have hvals := table_vals _ order _
    (by rw [CpmApp.keysA_calculateTaskResults et lt hkeysnd]; exact hkeys)
    hndo hlookres
  rw [hvals, List.map_map]
  rfl

/-- C1: on a non-empty collection satisfying the data-model invariants whose
graph is acyclic, the returned `projectDuration` is the maximum total
duration over all root-to-sink dependency paths, equals the maximum
`earliestFinish` of the task results, and equals the maximal total duration
of the paths enumerated by `findAllPaths` over the same data. -/
theorem c1_project_duration (tasks : List Task) (pid : String)
    (hne : tasks ≠ []) (hnd : NodupIds tasks) (hap : AllPresent tasks)
    (hdur : NonnegDur tasks) (hnc : ¬ HasCycle tasks) :
    ∃ r, CpmApp.calculateCPM tasks pid = .ok r ∧
      (∀ t p, RootToSink tasks t p →
        (pathDuration p : WithBot Int) ≤ r.projectDuration) ∧
      (∃ t p, RootToSink tasks t p ∧
        (pathDuration p : WithBot Int) = r.projectDuration) ∧
      r.projectDuration = listMaxBot
        ((r.taskResults.map Prod.snd).map (fun c => c.earliestFinish)) ∧
      ∃ fuel paths,
        CpmCalc.findAllPaths fuel ⟨tasks.map actOfTask⟩ = some paths ∧
        listMaxBot (paths.map pathDurationA) = r.projectDuration := by
  obtain ⟨order, et, lt, r, hok, hperm, hdf, hndo, hkeys, hrec, hlrec, hpd,
    hres, hcp⟩ := cpmApp_run_lt tasks pid hnd hap hnc
  obtain ⟨r2, hok2, hbound, hach⟩ :=
    cpmApp_pd_bounds tasks pid hne hnd hap hdur hnc
  have hr2 : r2 = r := by
    rw [hok] at hok2
    exact (Except.ok.inj hok2).symm
  rw [hr2] at hbound hach
  have hduro : NonnegDur order := fun t ht => hdur t (hperm.subset ht)
  have horder_ne : order ≠ [] := by
    intro h
    rw [h] at hperm
    exact hne hperm.symm.eq_nil
  refine ⟨r, hok, ?_, hach, ?_, ?_⟩
  · intro t p hrts
    exact hbound t p hrts.1
  · rw [hres, results_ef_map lt hndo hkeys hrec]
    exact hpd
  · obtain ⟨fuel, paths, hfp, heq⟩ :=
      findAllPaths_spec hperm hndo hdf hduro hrec horder_ne
    refine ⟨fuel, paths, hfp, ?_⟩
    rw [heq, ← hpd]

/-- Witness for C1 at the six-task scenario. -/
theorem c1_project_duration_witness :
    exTasks ≠ [] ∧ NodupIds exTasks ∧ AllPresent exTasks ∧
    NonnegDur exTasks ∧ ¬ HasCycle exTasks ∧
    ∃ r, CpmApp.calculateCPM exTasks "" = .ok r ∧
      (∀ t p, RootToSink exTasks t p →
        (pathDuration p : WithBot Int) ≤ r.projectDuration) ∧
      (∃ t p, RootToSink exTasks t p ∧
        (pathDuration p : WithBot Int) = r.projectDuration) ∧
      r.projectDuration = listMaxBot
        ((r.taskResults.map Prod.snd).map (fun c => c.earliestFinish)) ∧
      ∃ fuel paths,
        CpmCalc.findAllPaths fuel ⟨exTasks.map actOfTask⟩ = some paths ∧
        listMaxBot (paths.map pathDurationA) = r.projectDuration :=
  ⟨by decide, by decide, by decide, by decide,
    no_cycle_of_isOk (by decide) (by decide),
    c1_project_duration exTasks "" (by decide) (by decide) (by decide)
      (by decide) (no_cycle_of_isOk (by decide) (by decide))⟩

/-! ### The only fuelled computation of `CpmApp` is the sort -/

namespace CpmApp

theorem except_bind_error {ε α β : Type} {x : Except ε α}
    {f : α → Except ε β} {e : ε} (h : Except.bind x f = .error e) :
    x = .error e ∨ ∃ v, x = .ok v ∧ f v = .error e := by
  cases x with
  | error err =>
    left
    injection h with h'
    rw [h']
  | ok v =>
    right
    exact ⟨v, rfl, h⟩

theorem initET_no_fuel :
    ∀ (l : List (Option Task)) (acc : List (String × ETimes)),
      initET l acc ≠ .error .fuelExhausted := by
  intro l
  induction l with
  | nil => intro acc h; exact Except.noConfusion h
  | cons o l ih =>
    intro acc h
    cases o with
    | none =>
      injection h with h'
      exact JsError.noConfusion h'
    | some t => exact ih _ h

theorem mainET_no_fuel :
    ∀ (l : List (Option Task)) (acc : List (String × ETimes)),
      mainET l acc ≠ .error .fuelExhausted := by
  intro l
  induction l with
  | nil => intro acc h; exact Except.noConfusion h
  | cons o l ih =>
    intro acc h
    cases o with
    | none =>
      injection h with h'
      exact JsError.noConfusion h'
    | some t => exact ih _ h

theorem calculateEarliestTimes_no_fuel (sorted : List (Option Task))
    (tm : List (String × Task)) :
    calculateEarliestTimes sorted tm ≠ .error .fuelExhausted := by
  intro h
  simp only [calculateEarliestTimes, Bind.bind, Except.bind] at h
  cases hi : initET sorted [] with
  | error e =>
    rw [hi] at h
    injection h with h'
    rw [h'] at hi
    exact initET_no_fuel _ _ hi
  | ok acc =>
    rw [hi] at h
    exact mainET_no_fuel _ _ h

theorem initSucc_no_fuel :
    ∀ (l : List (Option Task)) (acc : List (String × List String)),
      initSucc l acc ≠ .error .fuelExhausted := by
  intro l
  induction l with
  | nil => intro acc h; exact Except.noConfusion h
  | cons o l ih =>
    intro acc h
    cases o with
    | none =>
      injection h with h'
      exact JsError.noConfusion h'
    | some t => exact ih _ h

theorem pushSuccs_no_fuel (tid : String) :
    ∀ (ds : List String) (acc : List (String × List String)),
      pushSuccs tid ds acc ≠ .error .fuelExhausted := by
  intro ds
  induction ds with
  | nil => intro acc h; exact Except.noConfusion h
  | cons d ds ih =>
    intro acc h
    simp only [pushSuccs] at h
    by_cases hd : (lookupA acc d).isSome
    · rw [if_pos hd] at h
      exact ih _ h
    · rw [if_neg hd] at h
      injection h with h'
      exact JsError.noConfusion h'

theorem fillSucc_no_fuel :
    ∀ (l : List (Option Task)) (acc : List (String × List String)),
      fillSucc l acc ≠ .error .fuelExhausted := by
  intro l
  induction l with
  | nil => intro acc h; exact Except.noConfusion h
  | cons o l ih =>
    intro acc h
    cases o with
    | none =>
      injection h with h'
      exact JsError.noConfusion h'
    | some t =>
      simp only [fillSucc, Bind.bind, Except.bind] at h
      cases hp : pushSuccs t.id t.dependencies acc with
      | error e =>
        rw [hp] at h
        injection h with h'
        rw [h'] at hp
        exact pushSuccs_no_fuel _ _ _ hp
      | ok acc' =>
        rw [hp] at h
        exact ih _ h

theorem initLT_no_fuel (pd : Int) :
    ∀ (l : List (Option Task)) (acc : List (String × LTimes)),
      initLT pd l acc ≠ .error .fuelExhausted := by
  intro l
  induction l with
  | nil => intro acc h; exact Except.noConfusion h
  | cons o l ih =>
    intro acc h
    cases o with
    | none =>
      injection h with h'
      exact JsError.noConfusion h'
    | some t => exact ih _ h

theorem stepLT_no_fuel (pd : Int) (succMap : List (String × List String))
    (acc : List (String × LTimes)) (t : Task) :
    stepLT pd succMap acc t ≠ .error .fuelExhausted := by
  intro h
  unfold stepLT at h
  cases hl : lookupA succMap t.id with
  | none =>
    rw [hl] at h
    injection h with h'
    exact JsError.noConfusion h'
  | some succs =>
    rw [hl] at h
    exact Except.noConfusion h

theorem revLT_no_fuel (pd : Int) (succMap : List (String × List String)) :
    ∀ (l : List (Option Task)) (acc : List (String × LTimes)),
      revLT pd succMap l acc ≠ .error .fuelExhausted := by
  intro l
  induction l with
  | nil => intro acc h; exact Except.noConfusion h
  | cons o l ih =>
    intro acc h
    cases o with
    | none =>
      injection h with h'
      exact JsError.noConfusion h'
    | some t =>
      simp only [revLT, Bind.bind, Except.bind] at h
      cases hs : stepLT pd succMap acc t with
      | error e =>
        rw [hs] at h
        injection h with h'
        rw [h'] at hs
        exact stepLT_no_fuel _ _ _ _ hs
      | ok acc' =>
        rw [hs] at h
        exact ih _ h

theorem calculateLatestTimes_no_fuel (sorted : List (Option Task))
    (tm : List (String × Task)) (pd : Int) :
    calculateLatestTimes sorted tm pd ≠ .error .fuelExhausted := by
  intro h
  simp only [calculateLatestTimes, Bind.bind] at h
  rcases except_bind_error h with h0 | ⟨succ0, h0, h⟩
  · exact initSucc_no_fuel _ _ h0
  rcases except_bind_error h with h1 | ⟨succ, h1, h⟩
  · exact fillSucc_no_fuel _ _ h1
  rcases except_bind_error h with h2 | ⟨acc0, h2, h⟩
  · exact initLT_no_fuel _ _ _ h2
  exact revLT_no_fuel _ _ _ _ h

/-- `calculateCPM` never runs out of recursion: its only unbounded recursion
is the depth-first sort, whose depth is bounded by the task-map size. -/
theorem calculateCPM_no_fuel (tasks : List Task) (pid : String) :
    calculateCPM tasks pid ≠ .error .fuelExhausted := by
  intro h
  simp only [calculateCPM, Bind.bind] at h
  rcases except_bind_error h with hts | ⟨sorted, hts, h⟩
  · exact topologicalSort_no_fuel tasks hts
  rcases except_bind_error h with het | ⟨et, het, h⟩
  · exact calculateEarliestTimes_no_fuel _ _ het
  rcases except_bind_error h with hlt | ⟨lt, hlt, h⟩
  · exact calculateLatestTimes_no_fuel _ _ _ hlt
  exact Except.noConfusion h

end CpmApp

/-! ### Agreement of the fixed-point relaxation with the topological pass

The `while (changed)` loops of `src/lib/utils/cpm.ts` are analysed against the
reference tables of the topological implementation: every table reachable by
relaxation stays on the correct side of the reference values, every changed
round moves an integral measure strictly towards them, and a fixed point must
coincide with them. -/

theorem map_congr_mem {α β : Type} {l : List α} {f g : α → β}
    (h : ∀ a ∈ l, f a = g a) : l.map f = l.map g := by
  induction l with
  | nil => rfl
  | cons a l ih =>
    simp only [List.map_cons]
    rw [h a (List.mem_cons_self _ _),
      ih (fun x hx => h x (List.mem_cons_of_mem _ hx))]

/-- A relaxation step either leaves the state alone or raises the measure and
the `changed` flag; the induced facts about one `forEach` round. -/
theorem foldRelax_spec {σ : Type} {step : σ × Bool → Task → σ × Bool}
    {inv : σ → Prop} {meas : σ → Int} {allowed : Task → Prop}
    (hstep : ∀ p t, allowed t → inv p.1 →
      inv (step p t).1 ∧ meas p.1 ≤ meas (step p t).1 ∧
        (step p t = p ∨ ((step p t).2 = true ∧ meas p.1 < meas (step p t).1))) :
    ∀ (ts : List Task), (∀ t ∈ ts, allowed t) → ∀ p, inv p.1 →
      inv (ts.foldl step p).1 ∧ meas p.1 ≤ meas (ts.foldl step p).1 ∧
        (ts.foldl step p = p ∨ ((ts.foldl step p).2 = true ∧
          meas p.1 < meas (ts.foldl step p).1)) := by
  intro ts
  induction ts with
  | nil => intro _ p hp; exact ⟨hp, le_refl _, Or.inl rfl⟩
  | cons t ts ih =>
    intro hall p hp
    obtain ⟨h1, h2, h3⟩ := hstep p t (hall t (List.mem_cons_self _ _)) hp
    obtain ⟨g1, g2, g3⟩ :=
      ih (fun x hx => hall x (List.mem_cons_of_mem _ hx)) (step p t) h1
    simp only [List.foldl_cons]
    refine ⟨g1, le_trans h2 g2, ?_⟩
    rcases h3 with heq | ⟨hflag, hstrict⟩
    · rw [heq]
      rw [heq] at g3
      exact g3
    · rcases g3 with geq | ⟨gflag, gstrict⟩
      · rw [geq]
        exact Or.inr ⟨hflag, hstrict⟩
      · exact Or.inr ⟨gflag, lt_of_lt_of_le hstrict g2⟩

/-- If a whole round leaves the state alone, every individual step did. -/
theorem foldRelax_fix {σ : Type} {step : σ × Bool → Task → σ × Bool}
    {inv : σ → Prop} {meas : σ → Int} {allowed : Task → Prop}
    (hstep : ∀ p t, allowed t → inv p.1 →
      inv (step p t).1 ∧ meas p.1 ≤ meas (step p t).1 ∧
        (step p t = p ∨ ((step p t).2 = true ∧ meas p.1 < meas (step p t).1))) :
    ∀ (ts : List Task), (∀ t ∈ ts, allowed t) → ∀ p, inv p.1 →
      ts.foldl step p = p → ∀ t ∈ ts, step p t = p := by
  intro ts
  induction ts with
  | nil => intro _ p _ _ t ht; cases ht
  | cons t ts ih =>
    intro hall p hp hfold u hu
    obtain ⟨h1, h2, h3⟩ := hstep p t (hall t (List.mem_cons_self _ _)) hp
    rcases h3 with heq | ⟨hflag, hstrict⟩
    · rw [List.foldl_cons, heq] at hfold
      rcases List.mem_cons.mp hu with rfl | hmem
      · exact heq
      · exact ih (fun x hx => hall x (List.mem_cons_of_mem _ hx)) p hp hfold
          u hmem
    · exfalso
      rw [List.foldl_cons] at hfold
      obtain ⟨-, g2, -⟩ := foldRelax_spec hstep ts
        (fun x hx => hall x (List.mem_cons_of_mem _ hx)) (step p t) h1
      rw [hfold] at g2
      exact absurd g2 (not_le.mpr hstrict)

theorem foldl_objSet_fn_pairs {α : Type} (F : Task → α) :
    ∀ (order : List Task) (acc : List (String × α)),
      (∀ t ∈ order, lookupA acc t.id = none) → NodupIds order →
      order.foldl (fun m t => objSet m t.id (F t)) acc =
        acc ++ order.map (fun t => (t.id, F t)) := by
  intro order
  induction order with
  | nil => intro acc _ _; simp
  | cons t order ih =>
    intro acc hnone hnd
    have hobj : objSet acc t.id (F t) = acc ++ [(t.id, F t)] := by
      unfold objSet
      rw [if_neg (by
        rw [hnone t (List.mem_cons_self _ _)]
        simp)]
    simp only [List.foldl_cons, hobj]
    rw [ih (acc ++ [(t.id, F t)]) ?_ ?_]
    · simp
    · intro u hu
      rw [lookupA_append]
      rw [hnone u (List.mem_cons_of_mem _ hu)]
      have : ¬ t.id = u.id := by
        intro he
        have hh := (List.nodup_cons.mp hnd).1
        exact hh (List.mem_map.mpr ⟨u, hu, he.symm⟩)
      simp [lookupA, this]
    · exact (List.nodup_cons.mp hnd).2

theorem lookupA_pairs_fn {α : Type} (F : Task → α) {order : List Task}
    (hnd : NodupIds order) {t : Task} (ht : t ∈ order) :
    lookupA (order.map (fun u => (u.id, F u))) t.id = some (F t) := by
  induction order with
  | nil => cases ht
  | cons u order ih =>
    rcases List.mem_cons.mp ht with rfl | hmem
    · simp [lookupA]
    · have : ¬ u.id = t.id := by
        intro he
        exact (List.nodup_cons.mp hnd).1 (List.mem_map.mpr ⟨t, hmem, he.symm⟩)
      simp only [List.map_cons, lookupA_cons, if_neg this]
      exact ih (List.nodup_cons.mp hnd).2 hmem

theorem foldIfMaxInt_ge_seed (l : List Int) :
    ∀ m : Int, m ≤ l.foldl (fun m x => if x > m then x else m) m := by
  induction l with
  | nil => intro m; exact le_refl m
  | cons x xs ih =>
    intro m
    simp only [List.foldl_cons]
    refine le_trans ?_ (ih _)
    by_cases h : x > m
    · rw [if_pos h]; omega
    · rw [if_neg h]

theorem foldIfMaxInt_ge_mem {l : List Int} {x : Int} (hx : x ∈ l) :
    ∀ m : Int, x ≤ l.foldl (fun m x => if x > m then x else m) m := by
  induction l with
  | nil => cases hx
  | cons y ys ih =>
    intro m
    simp only [List.foldl_cons]
    rcases List.mem_cons.mp hx with rfl | hmem
    · refine le_trans ?_ (foldIfMaxInt_ge_seed ys _)
      by_cases h : x > m
      · rw [if_pos h]
      · rw [if_neg h]; omega
    · exact ih hmem _

theorem foldIfMaxInt_cases (l : List Int) :
    ∀ m : Int, l.foldl (fun m x => if x > m then x else m) m = m ∨
      ∃ x ∈ l, l.foldl (fun m x => if x > m then x else m) m = x := by
  induction l with
  | nil => intro m; exact Or.inl rfl
  | cons y ys ih =>
    intro m
    simp only [List.foldl_cons]
    by_cases h : y > m
    · rw [if_pos h]
      rcases ih y with heq | ⟨x, hx, heq⟩
      · exact Or.inr ⟨y, List.mem_cons_self _ _, heq⟩
      · exact Or.inr ⟨x, List.mem_cons_of_mem _ hx, heq⟩
    · rw [if_neg h]
      rcases ih m with heq | ⟨x, hx, heq⟩
      · exact Or.inl heq
      · exact Or.inr ⟨x, List.mem_cons_of_mem _ hx, heq⟩

/-- Pointwise domination of the guarded max-fold of `maxPredecessorEF`. -/
theorem maxDepEF_mono {deps : List String}
    {a b : List (String × CpmApp.ETimes)}
    (h : ∀ d ∈ deps, ∀ r, lookupA a d = some r →
      ∃ r', lookupA b d = some r' ∧ r.earliestFinish ≤ r'.earliestFinish) :
    CpmApp.maxDepEF deps a ≤ CpmApp.maxDepEF deps b := by
  unfold CpmApp.maxDepEF
  suffices hgen : ∀ (ds : List String),
      (∀ d ∈ ds, ∀ r, lookupA a d = some r →
        ∃ r', lookupA b d = some r' ∧ r.earliestFinish ≤ r'.earliestFinish) →
      ∀ (m m' : Int), m ≤ m' →
      ds.foldl (fun m d =>
        match lookupA a d with
        | some r => if r.earliestFinish > m then r.earliestFinish else m
        | none => m) m ≤
      ds.foldl (fun m d =>
        match lookupA b d with
        | some r => if r.earliestFinish > m then r.earliestFinish else m
        | none => m) m' by
    exact hgen deps h 0 0 (le_refl 0)
  intro ds
  induction ds with
  | nil => intro _ m m' hm; exact hm
  | cons d ds ih =>
    intro hd m m' hm
    simp only [List.foldl_cons]
    refine ih (fun x hx => hd x (List.mem_cons_of_mem _ hx)) _ _ ?_
    cases ha : lookupA a d with
    | none =>
      cases hb : lookupA b d with
      | none => exact hm
      | some r' =>
        show m ≤ if r'.earliestFinish > m' then r'.earliestFinish else m'
        by_cases hgt : r'.earliestFinish > m'
        · rw [if_pos hgt]; omega
        · rw [if_neg hgt]; exact hm
    | some r =>
      obtain ⟨r', hb, hle⟩ := hd d (List.mem_cons_self _ _) r ha
      rw [hb]
      show (if r.earliestFinish > m then r.earliestFinish else m) ≤
        (if r'.earliestFinish > m' then r'.earliestFinish else m')
      split_ifs <;> omega

namespace CpmFix

theorem SF_ext {a b : SF} (h1 : a.start = b.start) (h2 : a.finish = b.finish) :
    a = b := by
  cases a
  cases b
  simp only at h1 h2
  rw [h1, h2]

/-- The earliest-times table of the fixed-point pass, viewed with the field
names of the topological pass. -/
def toET (res : List (String × SF)) : List (String × CpmApp.ETimes) :=
  res.map (fun p => (p.1, ⟨p.2.start, p.2.finish⟩))

theorem lookupA_toET (res : List (String × SF)) (k : String) :
    lookupA (toET res) k =
      (lookupA res k).map (fun e => (⟨e.start, e.finish⟩ : CpmApp.ETimes)) := by
  induction res with
  | nil => rfl
  | cons p rest ih =>
    obtain ⟨a, v⟩ := p
    simp only [toET, List.map_cons, lookupA_cons]
    by_cases h : a = k
    · rw [if_pos h, if_pos h]
      rfl
    · rw [if_neg h, if_neg h]
      exact ih

/-- `maxPredecessorFinish` is the guarded max-fold of the topological pass on
the renamed table. -/
theorem maxPredFinish_eq (deps : List String) (res : List (String × SF)) :
    maxPredFinish deps res = CpmApp.maxDepEF deps (toET res) := by
  unfold maxPredFinish CpmApp.maxDepEF
  suffices hgen : ∀ (ds : List String) (m : Int),
      ds.foldl (fun m d =>
        match lookupA res d with
        | some r => if r.finish > m then r.finish else m
        | none => m) m =
      ds.foldl (fun m d =>
        match lookupA (toET res) d with
        | some r => if r.earliestFinish > m then r.earliestFinish else m
        | none => m) m by
    exact hgen deps 0
  intro ds
  induction ds with
  | nil => intro m; rfl
  | cons d ds ih =>
    intro m
    simp only [List.foldl_cons]
    rw [lookupA_toET res d]
    cases lookupA res d with
    | none => exact ih m
    | some r =>
      simp only [Option.map_some']
      exact ih _

/-- Sum of one field of the table over the task list (the termination
measure of the relaxation loops). -/
def sumAcc (g : SF → Int) (tasks : List Task) (res : List (String × SF)) : Int :=
  (tasks.map (fun t => g ((lookupA res t.id).getD ⟨0, 0⟩))).sum

theorem sumAcc_updk (g : SF → Int) {tasks : List Task}
    {res : List (String × SF)} {t : Task} {e : SF} (v : SF)
    (hnd : NodupIds tasks) (ht : t ∈ tasks) (he : lookupA res t.id = some e) :
    sumAcc g tasks (updk res t.id (fun _ => v)) =
      sumAcc g tasks res + (g v - g e) := by
  obtain ⟨a, b, hsplit⟩ := List.append_of_mem ht
  subst hsplit
  obtain ⟨hna, hnb⟩ := split_id_not_mem hnd rfl
  unfold sumAcc
  simp only [List.map_append, List.map_cons, List.sum_append, List.sum_cons]
  have hOther : ∀ u : Task, u.id ≠ t.id →
      ((lookupA (updk res t.id (fun _ => v)) u.id).getD ⟨0, 0⟩) =
        ((lookupA res u.id).getD ⟨0, 0⟩) := by
    intro u hu
    rw [lookupA_updk, if_neg (fun h => hu h.symm)]
  have hmapa : a.map (fun u =>
      g ((lookupA (updk res t.id (fun _ => v)) u.id).getD ⟨0, 0⟩)) =
      a.map (fun u => g ((lookupA res u.id).getD ⟨0, 0⟩)) :=
    map_congr_mem (fun u hu => by rw [hOther u (id_ne_of_not_mem hu hna)])
  have hmapb : b.map (fun u =>
      g ((lookupA (updk res t.id (fun _ => v)) u.id).getD ⟨0, 0⟩)) =
      b.map (fun u => g ((lookupA res u.id).getD ⟨0, 0⟩)) :=
    map_congr_mem (fun u hu => by rw [hOther u (id_ne_of_not_mem hu hnb)])
  have hself : (lookupA (updk res t.id (fun _ => v)) t.id).getD ⟨0, 0⟩ = v := by
    rw [lookupA_updk, if_pos rfl, he]
    rfl
  rw [hmapa, hmapb, hself, he]
  have : ((some e).getD (⟨0, 0⟩ : SF)) = e := rfl
  rw [this]
  ring

/-- Invariant of the forward relaxation: the table is keyed by the tasks,
every entry couples finish to start, and the starts approach the reference
earliest starts from below. -/
def FwdInv (tasks : List Task) (et : List (String × CpmApp.ETimes))
    (res : List (String × SF)) : Prop :=
  keysA res = tasks.map (fun t => t.id) ∧
  ∀ t ∈ tasks, ∃ e, lookupA res t.id = some e ∧
    e.finish = e.start + t.duration ∧ 0 ≤ e.start ∧
    e.start ≤ CpmApp.esOf et t

theorem fwdStep_eq (p : List (String × SF) × Bool) (t : Task) :
    fwdStep p t =
      if maxPredFinish t.dependencies p.1 >
          ((lookupA p.1 t.id).getD ⟨0, 0⟩).start then
        (updk p.1 t.id (fun _ => ⟨maxPredFinish t.dependencies p.1,
          maxPredFinish t.dependencies p.1 + t.duration⟩), true)
      else p := rfl

theorem sumAcc_start_le_ref {tasks : List Task}
    {et : List (String × CpmApp.ETimes)} {res : List (String × SF)}
    (hinv : FwdInv tasks et res) :
    sumAcc (fun e => e.start) tasks res ≤
      (tasks.map (fun t => CpmApp.esOf et t)).sum := by
  unfold sumAcc
  refine List.sum_le_sum ?_
  intro t ht
  obtain ⟨e, he, -, -, hdom⟩ := hinv.2 t ht
  rw [he]
  exact hdom

theorem fwdStep_spec {tasks : List Task} {et : List (String × CpmApp.ETimes)}
    (hnd : NodupIds tasks)
    (href : ∀ u ∈ tasks, lookupA et u.id =
      some ⟨CpmApp.esOf et u, CpmApp.esOf et u + u.duration⟩)
    {t : Task} (ht : t ∈ tasks)
    (hdeps : ∀ d ∈ t.dependencies, ∃ v ∈ tasks, v.id = d)
    {p : List (String × SF) × Bool} (hinv : FwdInv tasks et p.1) :
    FwdInv tasks et (fwdStep p t).1 ∧
    sumAcc (fun e => e.start) tasks p.1 ≤
      sumAcc (fun e => e.start) tasks (fwdStep p t).1 ∧
    (fwdStep p t = p ∨ ((fwdStep p t).2 = true ∧
      sumAcc (fun e => e.start) tasks p.1 <
        sumAcc (fun e => e.start) tasks (fwdStep p t).1)) := by
  obtain ⟨e, he, hef, he0, hedom⟩ := hinv.2 t ht
  have hcur : (lookupA p.1 t.id).getD ⟨0, 0⟩ = e := by rw [he]; rfl
  by_cases hm : maxPredFinish t.dependencies p.1 >
      ((lookupA p.1 t.id).getD ⟨0, 0⟩).start
  · have hstep : fwdStep p t =
        (updk p.1 t.id (fun _ => ⟨maxPredFinish t.dependencies p.1,
          maxPredFinish t.dependencies p.1 + t.duration⟩), true) := by
      rw [fwdStep_eq, if_pos hm]
    rw [hcur] at hm
    have hm0 : 0 ≤ maxPredFinish t.dependencies p.1 := by
      rw [maxPredFinish_eq]
      exact CpmApp.maxDepEF_nonneg _ _
    have hm_le : maxPredFinish t.dependencies p.1 ≤ CpmApp.esOf et t := by
      by_cases hlen : t.dependencies.length > 0
      · have h1 : CpmApp.maxDepEF t.dependencies (toET p.1) ≤
            CpmApp.maxDepEF t.dependencies et := by
          refine maxDepEF_mono ?_
          intro d hd r hr
          obtain ⟨v, hv, hvid⟩ := hdeps d hd
          obtain ⟨ev, hev, hevf, hev0, hevdom⟩ := hinv.2 v hv
          have hconv : lookupA (toET p.1) d =
              some ⟨ev.start, ev.finish⟩ := by
            rw [lookupA_toET, ← hvid, hev]
            rfl
          rw [hconv] at hr
          injection hr with hr
          refine ⟨⟨CpmApp.esOf et v, CpmApp.esOf et v + v.duration⟩,
            by rw [← hvid]; exact href v hv, ?_⟩
          rw [← hr]
          show ev.finish ≤ CpmApp.esOf et v + v.duration
          rw [hevf]
          omega
        have h2 : CpmApp.esOf et t = CpmApp.maxDepEF t.dependencies et := by
          unfold CpmApp.esOf
          rw [if_pos hlen]
        rw [maxPredFinish_eq, h2]
        exact h1
      · exfalso
        have hnil : t.dependencies = [] := List.length_eq_zero.mp (by omega)
        have hz : maxPredFinish t.dependencies p.1 = 0 := by
          rw [hnil]
          rfl
        omega
    have hsum := sumAcc_updk (fun e => e.start)
      (⟨maxPredFinish t.dependencies p.1,
        maxPredFinish t.dependencies p.1 + t.duration⟩ : SF) hnd ht he
    refine ⟨?_, ?_, ?_⟩
    · rw [hstep]
      refine ⟨by rw [keysA_updk]; exact hinv.1, ?_⟩
      intro u hu
      by_cases huid : u.id = t.id
      · have hut : u = t := by
          refine List.inj_on_of_nodup_map hnd hu ht huid
        subst hut
        refine ⟨⟨maxPredFinish u.dependencies p.1,
          maxPredFinish u.dependencies p.1 + u.duration⟩, ?_, rfl, hm0, hm_le⟩
        rw [lookupA_updk, if_pos rfl, he]
        rfl
      · obtain ⟨eu, heu, h1, h2, h3⟩ := hinv.2 u hu
        refine ⟨eu, ?_, h1, h2, h3⟩
        rw [lookupA_updk, if_neg (fun h => huid h.symm)]
        exact heu
    · rw [hstep]
      simp only
      rw [hsum]
      simp only
      omega
    · refine Or.inr ⟨by rw [hstep], ?_⟩
      rw [hstep]
      simp only
      rw [hsum]
      simp only
      omega
  · have hid : fwdStep p t = p := by
      rw [fwdStep_eq, if_neg hm]
    rw [hid]
    exact ⟨hinv, le_refl _, Or.inl rfl⟩

theorem fwdStep_pair_eq (res : List (String × SF)) (b : Bool) (t : Task) :
    fwdStep (res, b) t =
      if maxPredFinish t.dependencies res >
          ((lookupA res t.id).getD ⟨0, 0⟩).start then
        (updk res t.id (fun _ => ⟨maxPredFinish t.dependencies res,
          maxPredFinish t.dependencies res + t.duration⟩), true)
      else (res, b) := rfl

/-- With enough fuel the forward `while (changed)` loop reaches a fixed
point of its round while preserving the invariant. -/
theorem fwdLoop_spec {tasks : List Task} {et : List (String × CpmApp.ETimes)}
    (hnd : NodupIds tasks)
    (href : ∀ u ∈ tasks, lookupA et u.id =
      some ⟨CpmApp.esOf et u, CpmApp.esOf et u + u.duration⟩)
    (hdepsall : ∀ u ∈ tasks, ∀ d ∈ u.dependencies, ∃ v ∈ tasks, v.id = d) :
    ∀ (fuel : Nat) (res : List (String × SF)), FwdInv tasks et res →
      ((tasks.map (fun t => CpmApp.esOf et t)).sum -
        sumAcc (fun e => e.start) tasks res).toNat < fuel →
      ∃ res', fwdLoop tasks fuel res = some res' ∧ FwdInv tasks et res' ∧
        tasks.foldl fwdStep (res', false) = (res', false) := by
  have hstep : ∀ (p : List (String × SF) × Bool) (t : Task), t ∈ tasks →
      FwdInv tasks et p.1 →
      FwdInv tasks et (fwdStep p t).1 ∧
      sumAcc (fun e => e.start) tasks p.1 ≤
        sumAcc (fun e => e.start) tasks (fwdStep p t).1 ∧
      (fwdStep p t = p ∨ ((fwdStep p t).2 = true ∧
        sumAcc (fun e => e.start) tasks p.1 <
          sumAcc (fun e => e.start) tasks (fwdStep p t).1)) :=
    fun p t ht hp => fwdStep_spec hnd href ht (hdepsall t ht) hp
  intro fuel
  induction fuel with
  | zero =>
    intro res _ h
    omega
  | succ n ih =>
    intro res hinv hfuel
    obtain ⟨g1, g2, g3⟩ := foldRelax_spec hstep tasks (fun _ h => h)
      (res, false) hinv
    rcases g3 with heq | ⟨hflag, hstrict⟩
    · refine ⟨res, ?_, hinv, heq⟩
      show (if (fwdRound tasks res).2 then fwdLoop tasks n (fwdRound tasks res).1
        else some (fwdRound tasks res).1) = some res
      have hre : fwdRound tasks res = (res, false) := heq
      rw [hre]
      rfl
    · have hle_ref := sumAcc_start_le_ref g1
      have hle_ref0 := sumAcc_start_le_ref hinv
      have hstrict2 : sumAcc (fun e => e.start) tasks res <
          sumAcc (fun e => e.start) tasks
            (tasks.foldl fwdStep (res, false)).1 := hstrict
      have hdef : ((tasks.map (fun t => CpmApp.esOf et t)).sum -
          sumAcc (fun e => e.start) tasks
            (tasks.foldl fwdStep (res, false)).1).toNat < n := by
        omega
      obtain ⟨res', hloop, hinv', hfix⟩ :=
        ih (tasks.foldl fwdStep (res, false)).1 g1 hdef
      refine ⟨res', ?_, hinv', hfix⟩
      show (if (fwdRound tasks res).2 then fwdLoop tasks n (fwdRound tasks res).1
        else some (fwdRound tasks res).1) = some res'
      have hre : (fwdRound tasks res).2 = true := hflag
      rw [hre, if_pos rfl]
      exact hloop

/-- At a fixed point of the forward round the table carries exactly the
reference earliest starts and finishes. -/
theorem fwdFix_vals {tasks order : List Task}
    {et : List (String × CpmApp.ETimes)}
    (hperm : order.Perm tasks) (hndo : NodupIds order) (hdf : DepsFirst order)
    (hrec : ∀ t ∈ order, CpmApp.ETrec et t)
    {res : List (String × SF)} (hinv : FwdInv tasks et res)
    (hsteps : ∀ t ∈ tasks, fwdStep (res, false) t = (res, false)) :
    ∀ t ∈ tasks, lookupA res t.id =
      some ⟨CpmApp.esOf et t, CpmApp.esOf et t + t.duration⟩ := by
  suffices hpos : ∀ n l₁ t l₂, order = l₁ ++ t :: l₂ → l₁.length = n →
      lookupA res t.id =
        some ⟨CpmApp.esOf et t, CpmApp.esOf et t + t.duration⟩ by
    intro t ht
    obtain ⟨l₁, l₂, hsplit⟩ := List.append_of_mem (hperm.mem_iff.mpr ht)
    exact hpos l₁.length l₁ t l₂ hsplit rfl
  intro n
  induction n using Nat.strong_induction_on with
  | _ n ih =>
    intro l₁ t l₂ hsplit hlen
    have htmemo : t ∈ order := by
      rw [hsplit]
      exact List.mem_append_right _ (List.mem_cons_self _ _)
    have htmem : t ∈ tasks := hperm.subset htmemo
    obtain ⟨e, he, hef, he0, hedom⟩ := hinv.2 t htmem
    have hcur : (lookupA res t.id).getD ⟨0, 0⟩ = e := by rw [he]; rfl
    have hstep := hsteps t htmem
    rw [fwdStep_pair_eq, hcur] at hstep
    have hnm : ¬ maxPredFinish t.dependencies res > e.start := by
      intro hgt
      rw [if_pos hgt] at hstep
      have hcontr := congrArg Prod.snd hstep
      simp at hcontr
    push_neg at hnm
    by_cases hlen0 : t.dependencies.length > 0
    · have hes : CpmApp.esOf et t = CpmApp.maxDepEF t.dependencies et := by
        unfold CpmApp.esOf
        rw [if_pos hlen0]
      have hcongr : maxPredFinish t.dependencies res =
          CpmApp.maxDepEF t.dependencies et := by
        rw [maxPredFinish_eq]
        refine CpmApp.maxDepEF_congr ?_
        intro d hd
        obtain ⟨v, hv, hvid⟩ := List.mem_map.mp (hdf l₁ t l₂ hsplit d hd)
        obtain ⟨a, b, hveq⟩ := List.append_of_mem hv
        have horder2 : order = a ++ v :: (b ++ t :: l₂) := by
          rw [hsplit, hveq]
          simp
        have halen : a.length < n := by
          rw [hveq] at hlen
          simp only [List.length_append, List.length_cons] at hlen
          omega
        have hIH := ih a.length halen a v (b ++ t :: l₂) horder2 rfl
        have hvmemo : v ∈ order := by
          rw [hsplit]
          exact List.mem_append_left _ hv
        have hrecv := hrec v hvmemo
        unfold CpmApp.ETrec at hrecv
        rw [← hvid, lookupA_toET, hIH, hrecv]
        rfl
      rw [hcongr, ← hes] at hnm
      have h1 : e.start = CpmApp.esOf et t := by omega
      have h2 : e.finish = CpmApp.esOf et t + t.duration := by omega
      rw [he, @SF_ext e ⟨CpmApp.esOf et t, CpmApp.esOf et t + t.duration⟩ h1 h2]
    · have hes : CpmApp.esOf et t = 0 := by
        unfold CpmApp.esOf
        rw [if_neg hlen0]
      have h1 : e.start = CpmApp.esOf et t := by omega
      have h2 : e.finish = CpmApp.esOf et t + t.duration := by omega
      rw [he, @SF_ext e ⟨CpmApp.esOf et t, CpmApp.esOf et t + t.duration⟩ h1 h2]

theorem initEF_inv {tasks : List Task} {et : List (String × CpmApp.ETimes)}
    (hnd : NodupIds tasks) : FwdInv tasks et (initEF tasks) := by
  have hinit : initEF tasks =
      tasks.map (fun t => (t.id, (⟨0, t.duration⟩ : SF))) := by
    unfold initEF
    rw [foldl_objSet_fn_pairs (fun t => (⟨0, t.duration⟩ : SF)) tasks []
      (fun _ _ => rfl) hnd]
    rfl
  constructor
  · rw [hinit]
    unfold keysA
    rw [List.map_map]
    rfl
  · intro t ht
    refine ⟨⟨0, t.duration⟩, ?_, ?_, le_refl 0, ?_⟩
    · rw [hinit]
      exact lookupA_pairs_fn _ hnd ht
    · show t.duration = 0 + t.duration
      omega
    · exact CpmApp.esOf_nonneg et t

/-- With enough fuel `calculateEarliestTimes` of the fixed-point pass
returns a table holding exactly the reference earliest times of the
topological pass. -/
theorem calculateEarliestTimes_fix {tasks order : List Task}
    {et : List (String × CpmApp.ETimes)}
    (hperm : order.Perm tasks) (hndo : NodupIds order) (hdf : DepsFirst order)
    (hrec : ∀ t ∈ order, CpmApp.ETrec et t) (hnd : NodupIds tasks)
    (hdepsall : ∀ u ∈ tasks, ∀ d ∈ u.dependencies, ∃ v ∈ tasks, v.id = d) :
    ∀ fuel, ((tasks.map (fun t => CpmApp.esOf et t)).sum -
        sumAcc (fun e => e.start) tasks (initEF tasks)).toNat < fuel →
      ∃ etF, calculateEarliestTimes fuel tasks = some etF ∧
        keysA etF = tasks.map (fun t => t.id) ∧
        ∀ t ∈ tasks, lookupA etF t.id =
          some ⟨CpmApp.esOf et t, CpmApp.esOf et t + t.duration⟩ := by
  intro fuel hfuel
  have href : ∀ u ∈ tasks, lookupA et u.id =
      some ⟨CpmApp.esOf et u, CpmApp.esOf et u + u.duration⟩ := by
    intro u hu
    exact hrec u (hperm.mem_iff.mpr hu)
  obtain ⟨etF, hloop, hinv, hfix⟩ := fwdLoop_spec hnd href hdepsall fuel
    (initEF tasks) (initEF_inv hnd) hfuel
  have hsteps := foldRelax_fix
    (fun p t ht hp => fwdStep_spec hnd href ht (hdepsall t ht) hp)
    tasks (fun _ h => h) (etF, false) hinv hfix
  exact ⟨etF, hloop, hinv.1, fwdFix_vals hperm hndo hdf hrec hinv hsteps⟩

theorem insertStable_perm {α : Type} (le : α → α → Bool) (x : α) :
    ∀ l : List α, (insertStable le x l).Perm (x :: l) := by
  intro l
  induction l with
  | nil => exact List.Perm.refl _
  | cons y ys ih =>
    unfold insertStable
    by_cases h : le y x = true
    · rw [if_pos h]
      exact (ih.cons y).trans (List.Perm.swap x y ys)
    · rw [if_neg h]

theorem sortStable_perm {α : Type} (le : α → α → Bool) (l : List α) :
    (sortStable le l).Perm l := by
  suffices hgen : ∀ (l acc : List α),
      (l.foldl (fun acc x => insertStable le x acc) acc).Perm (l ++ acc) by
    have h := hgen l []
    simpa using h
  intro l
  induction l with
  | nil => intro acc; exact List.Perm.refl acc
  | cons x l ih =>
    intro acc
    simp only [List.foldl_cons]
    refine (ih (insertStable le x acc)).trans ?_
    refine (List.Perm.append_left l (insertStable_perm le x acc)).trans ?_
    exact List.perm_middle

/-- The seeded min-fold of the backward relaxation over the dependent
tasks. -/
def minSuccS (res : List (String × SF)) (succs : List Task) : Int :=
  succs.foldl (fun m s =>
    if ((lookupA res s.id).getD ⟨0, 0⟩).start < m
    then ((lookupA res s.id).getD ⟨0, 0⟩).start else m) maxSafeInt

theorem minSuccS_fold_le_seed (res : List (String × SF)) :
    ∀ (succs : List Task) (m : Int),
      succs.foldl (fun m s =>
        if ((lookupA res s.id).getD ⟨0, 0⟩).start < m
        then ((lookupA res s.id).getD ⟨0, 0⟩).start else m) m ≤ m := by
  intro succs
  induction succs with
  | nil => intro m; exact le_refl m
  | cons y ys ih =>
    intro m
    simp only [List.foldl_cons]
    refine le_trans (ih _) ?_
    by_cases h : ((lookupA res y.id).getD ⟨0, 0⟩).start < m
    · rw [if_pos h]; omega
    · rw [if_neg h]

theorem minSuccS_le_mem {res : List (String × SF)} {succs : List Task}
    {s : Task} (hs : s ∈ succs) :
    minSuccS res succs ≤ ((lookupA res s.id).getD ⟨0, 0⟩).start := by
  unfold minSuccS
  suffices hgen : ∀ (ys : List Task), s ∈ ys → ∀ m : Int,
      ys.foldl (fun m u =>
        if ((lookupA res u.id).getD ⟨0, 0⟩).start < m
        then ((lookupA res u.id).getD ⟨0, 0⟩).start else m) m ≤
        ((lookupA res s.id).getD ⟨0, 0⟩).start by
    exact hgen succs hs maxSafeInt
  intro ys
  induction ys with
  | nil => intro h; cases h
  | cons y ys ih =>
    intro hmem m
    simp only [List.foldl_cons]
    rcases List.mem_cons.mp hmem with rfl | hmem2
    · refine le_trans (minSuccS_fold_le_seed res ys _) ?_
      by_cases h : ((lookupA res s.id).getD ⟨0, 0⟩).start < m
      · rw [if_pos h]
      · rw [if_neg h]; omega
    · exact ih hmem2 _

theorem minSuccS_ge {res : List (String × SF)} {succs : List Task} {x : Int}
    (hseed : x ≤ maxSafeInt)
    (hall : ∀ u ∈ succs, x ≤ ((lookupA res u.id).getD ⟨0, 0⟩).start) :
    x ≤ minSuccS res succs := by
  unfold minSuccS
  suffices hgen : ∀ (ys : List Task),
      (∀ u ∈ ys, x ≤ ((lookupA res u.id).getD ⟨0, 0⟩).start) →
      ∀ m : Int, x ≤ m →
      x ≤ ys.foldl (fun m u =>
        if ((lookupA res u.id).getD ⟨0, 0⟩).start < m
        then ((lookupA res u.id).getD ⟨0, 0⟩).start else m) m by
    exact hgen succs hall maxSafeInt hseed
  intro ys
  induction ys with
  | nil => intro _ m hm; exact hm
  | cons y ys ih =>
    intro hys m hm
    simp only [List.foldl_cons]
    refine ih (fun u hu => hys u (List.mem_cons_of_mem _ hu)) _ ?_
    have hy := hys y (List.mem_cons_self _ _)
    by_cases h : ((lookupA res y.id).getD ⟨0, 0⟩).start < m
    · rw [if_pos h]; exact hy
    · rw [if_neg h]; exact hm

/-- Invariant of the backward relaxation: the table is keyed by the tasks,
every entry couples start to finish, and the finishes approach the reference
latest finishes from above while staying at most the project duration. -/
def BwdInv (tasks : List Task) (lt : List (String × CpmApp.LTimes))
    (maxD : Int) (res : List (String × SF)) : Prop :=
  keysA res = tasks.map (fun t => t.id) ∧
  ∀ t ∈ tasks, ∃ e, lookupA res t.id = some e ∧
    e.start = e.finish - t.duration ∧
    ((lookupA lt t.id).getD ⟨0, 0⟩).latestFinish ≤ e.finish ∧
    e.finish ≤ maxD

theorem bwdStep_eq (tasks : List Task) (p : List (String × SF) × Bool)
    (t : Task) :
    bwdStep tasks p t =
      if (tasks.filter (fun s => t.id ∈ s.dependencies)).length > 0 then
        if minSuccS p.1 (tasks.filter (fun s => t.id ∈ s.dependencies)) <
            ((lookupA p.1 t.id).getD ⟨0, 0⟩).finish then
          (updk p.1 t.id (fun _ =>
            ⟨minSuccS p.1 (tasks.filter (fun s => t.id ∈ s.dependencies)) -
              t.duration,
             minSuccS p.1 (tasks.filter (fun s => t.id ∈ s.dependencies))⟩),
           true)
        else p
      else p := rfl

theorem bwdStep_pair_eq (tasks : List Task) (res : List (String × SF))
    (b : Bool) (t : Task) :
    bwdStep tasks (res, b) t =
      if (tasks.filter (fun s => t.id ∈ s.dependencies)).length > 0 then
        if minSuccS res (tasks.filter (fun s => t.id ∈ s.dependencies)) <
            ((lookupA res t.id).getD ⟨0, 0⟩).finish then
          (updk res t.id (fun _ =>
            ⟨minSuccS res (tasks.filter (fun s => t.id ∈ s.dependencies)) -
              t.duration,
             minSuccS res (tasks.filter (fun s => t.id ∈ s.dependencies))⟩),
           true)
        else (res, b)
      else (res, b) := rfl

theorem sumAcc_finish_ge_ref {tasks : List Task}
    {lt : List (String × CpmApp.LTimes)} {maxD : Int}
    {res : List (String × SF)} (hinv : BwdInv tasks lt maxD res) :
    (tasks.map (fun t => ((lookupA lt t.id).getD ⟨0, 0⟩).latestFinish)).sum ≤
      sumAcc (fun e => e.finish) tasks res := by
  unfold sumAcc
  refine List.sum_le_sum ?_
  intro t ht
  obtain ⟨e, he, -, hlf, -⟩ := hinv.2 t ht
  rw [he]
  exact hlf

theorem bwdStep_spec {tasks : List Task} {lt : List (String × CpmApp.LTimes)}
    {maxD : Int} (hnd : NodupIds tasks)
    (hls : ∀ u ∈ tasks, ((lookupA lt u.id).getD ⟨0, 0⟩).latestStart =
      ((lookupA lt u.id).getD ⟨0, 0⟩).latestFinish - u.duration)
    (hlf_le : ∀ u ∈ tasks, ((lookupA lt u.id).getD ⟨0, 0⟩).latestFinish ≤ maxD)
    (hlb : ∀ a ∈ tasks, ∀ s ∈ tasks, a.id ∈ s.dependencies →
      ((lookupA lt a.id).getD ⟨0, 0⟩).latestFinish ≤
        ((lookupA lt s.id).getD ⟨0, 0⟩).latestStart)
    (hsafe : maxD ≤ maxSafeInt)
    {t : Task} (ht : t ∈ tasks)
    {p : List (String × SF) × Bool} (hinv : BwdInv tasks lt maxD p.1) :
    BwdInv tasks lt maxD (bwdStep tasks p t).1 ∧
    (- sumAcc (fun e => e.finish) tasks p.1) ≤
      (- sumAcc (fun e => e.finish) tasks (bwdStep tasks p t).1) ∧
    (bwdStep tasks p t = p ∨ ((bwdStep tasks p t).2 = true ∧
      (- sumAcc (fun e => e.finish) tasks p.1) <
        (- sumAcc (fun e => e.finish) tasks (bwdStep tasks p t).1))) := by
  obtain ⟨e, he, hsf, hlf, hmax⟩ := hinv.2 t ht
  have hcur : (lookupA p.1 t.id).getD ⟨0, 0⟩ = e := by rw [he]; rfl
  by_cases hsuc : (tasks.filter (fun s => t.id ∈ s.dependencies)).length > 0
  · by_cases hupd : minSuccS p.1 (tasks.filter (fun s => t.id ∈ s.dependencies)) <
        ((lookupA p.1 t.id).getD ⟨0, 0⟩).finish
    · have hstep : bwdStep tasks p t = (updk p.1 t.id (fun _ =>
          ⟨minSuccS p.1 (tasks.filter (fun s => t.id ∈ s.dependencies)) -
            t.duration,
           minSuccS p.1 (tasks.filter (fun s => t.id ∈ s.dependencies))⟩),
         true) := by
        rw [bwdStep_eq, if_pos hsuc, if_pos hupd]
      rw [hcur] at hupd
      have hge : ((lookupA lt t.id).getD ⟨0, 0⟩).latestFinish ≤
          minSuccS p.1 (tasks.filter (fun s => t.id ∈ s.dependencies)) := by
        refine minSuccS_ge (le_trans (hlf_le t ht) hsafe) ?_
        intro u hu
        simp only [List.mem_filter, decide_eq_true_eq] at hu
        obtain ⟨humem, hudep⟩ := hu
        obtain ⟨eu, heu, husf, hulf, humax⟩ := hinv.2 u humem
        have hstart : ((lookupA p.1 u.id).getD ⟨0, 0⟩).start = eu.start := by
          rw [heu]
          rfl
        rw [hstart, husf]
        have h1 := hlb t ht u humem hudep
        have h2 := hls u humem
        omega
      have hsum := sumAcc_updk (fun e => e.finish)
        (⟨minSuccS p.1 (tasks.filter (fun s => t.id ∈ s.dependencies)) -
            t.duration,
          minSuccS p.1 (tasks.filter (fun s => t.id ∈ s.dependencies))⟩ : SF)
        hnd ht he
      have hstep1 : (bwdStep tasks p t).1 = updk p.1 t.id (fun _ =>
          ⟨minSuccS p.1 (tasks.filter (fun s => t.id ∈ s.dependencies)) -
            t.duration,
           minSuccS p.1 (tasks.filter (fun s => t.id ∈ s.dependencies))⟩) := by
        rw [hstep]
      have hstep2 : (bwdStep tasks p t).2 = true := by
        rw [hstep]
      refine ⟨?_, ?_, Or.inr ⟨hstep2, ?_⟩⟩
      · rw [hstep1]
        refine ⟨?_, ?_⟩
        · rw [keysA_updk]
          exact hinv.1
        · intro u hu
          by_cases huid : u.id = t.id
          · have hut : u = t := List.inj_on_of_nodup_map hnd hu ht huid
            subst hut
            refine ⟨⟨minSuccS p.1 (tasks.filter (fun s => u.id ∈ s.dependencies)) -
                u.duration,
              minSuccS p.1 (tasks.filter (fun s => u.id ∈ s.dependencies))⟩,
              ?_, rfl, hge, le_trans (le_of_lt hupd) hmax⟩
            rw [lookupA_updk, if_pos rfl, he]
            rfl
          · obtain ⟨eu, heu, h1, h2, h3⟩ := hinv.2 u hu
            refine ⟨eu, ?_, h1, h2, h3⟩
            rw [lookupA_updk, if_neg (fun h => huid h.symm)]
            exact heu
      · rw [hstep1, hsum]
        simp only
        omega
      · rw [hstep1, hsum]
        simp only
        omega
    · have hid : bwdStep tasks p t = p := by
        rw [bwdStep_eq, if_pos hsuc, if_neg hupd]
      rw [hid]
      exact ⟨hinv, le_refl _, Or.inl rfl⟩
  · have hid : bwdStep tasks p t = p := by
      rw [bwdStep_eq, if_neg hsuc]
    rw [hid]
    exact ⟨hinv, le_refl _, Or.inl rfl⟩

/-- With enough fuel the backward `while (changed)` loop reaches a fixed
point of its round while preserving the invariant. -/
theorem bwdLoop_spec {tasks order2 : List Task}
    {lt : List (String × CpmApp.LTimes)} {maxD : Int}
    (hsub : ∀ t ∈ order2, t ∈ tasks) (hnd : NodupIds tasks)
    (hls : ∀ u ∈ tasks, ((lookupA lt u.id).getD ⟨0, 0⟩).latestStart =
      ((lookupA lt u.id).getD ⟨0, 0⟩).latestFinish - u.duration)
    (hlf_le : ∀ u ∈ tasks, ((lookupA lt u.id).getD ⟨0, 0⟩).latestFinish ≤ maxD)
    (hlb : ∀ a ∈ tasks, ∀ s ∈ tasks, a.id ∈ s.dependencies →
      ((lookupA lt a.id).getD ⟨0, 0⟩).latestFinish ≤
        ((lookupA lt s.id).getD ⟨0, 0⟩).latestStart)
    (hsafe : maxD ≤ maxSafeInt) :
    ∀ (fuel : Nat) (res : List (String × SF)), BwdInv tasks lt maxD res →
      (sumAcc (fun e => e.finish) tasks res -
        (tasks.map (fun t =>
          ((lookupA lt t.id).getD ⟨0, 0⟩).latestFinish)).sum).toNat < fuel →
      ∃ res', bwdLoop tasks order2 fuel res = some res' ∧
        BwdInv tasks lt maxD res' ∧
        order2.foldl (bwdStep tasks) (res', false) = (res', false) := by
  have hstep : ∀ (p : List (String × SF) × Bool) (t : Task), t ∈ tasks →
      BwdInv tasks lt maxD p.1 →
      BwdInv tasks lt maxD (bwdStep tasks p t).1 ∧
      (- sumAcc (fun e => e.finish) tasks p.1) ≤
        (- sumAcc (fun e => e.finish) tasks (bwdStep tasks p t).1) ∧
      (bwdStep tasks p t = p ∨ ((bwdStep tasks p t).2 = true ∧
        (- sumAcc (fun e => e.finish) tasks p.1) <
          (- sumAcc (fun e => e.finish) tasks (bwdStep tasks p t).1))) :=
    fun p t ht hp => bwdStep_spec hnd hls hlf_le hlb hsafe ht hp
  intro fuel
  induction fuel with
  | zero =>
    intro res _ h
    omega
  | succ n ih =>
    intro res hinv hfuel
    obtain ⟨g1, g2, g3⟩ := @foldRelax_spec _ (bwdStep tasks)
      (BwdInv tasks lt maxD)
      (fun res => - sumAcc (fun e => e.finish) tasks res)
      (fun t => t ∈ tasks) hstep order2 hsub (res, false) hinv
    rcases g3 with heq | ⟨hflag, hstrict⟩
    · refine ⟨res, ?_, hinv, heq⟩
      show (if (bwdRound tasks order2 res).2 then
        bwdLoop tasks order2 n (bwdRound tasks order2 res).1
        else some (bwdRound tasks order2 res).1) = some res
      have hre : bwdRound tasks order2 res = (res, false) := heq
      rw [hre]
      rfl
    · have hle_ref := sumAcc_finish_ge_ref g1
      have hle_ref0 := sumAcc_finish_ge_ref hinv
      have hstrict2 : - sumAcc (fun e => e.finish) tasks res <
          - sumAcc (fun e => e.finish) tasks
            (order2.foldl (bwdStep tasks) (res, false)).1 := hstrict
      have hdef : (sumAcc (fun e => e.finish) tasks
          (order2.foldl (bwdStep tasks) (res, false)).1 -
          (tasks.map (fun t =>
            ((lookupA lt t.id).getD ⟨0, 0⟩).latestFinish)).sum).toNat < n := by
        omega
      obtain ⟨res', hloop, hinv', hfix⟩ :=
        ih (order2.foldl (bwdStep tasks) (res, false)).1 g1 hdef
      refine ⟨res', ?_, hinv', hfix⟩
      show (if (bwdRound tasks order2 res).2 then
        bwdLoop tasks order2 n (bwdRound tasks order2 res).1
        else some (bwdRound tasks order2 res).1) = some res'
      have hre : (bwdRound tasks order2 res).2 = true := hflag
      rw [hre, if_pos rfl]
      exact hloop

/-- At a fixed point of the backward round the table carries exactly the
reference latest starts and finishes. -/
theorem bwdFix_vals {tasks order : List Task}
    {lt : List (String × CpmApp.LTimes)} {maxD : Int}
    (hperm : order.Perm tasks) (hndo : NodupIds order) (hdf : DepsFirst order)
    (hlrec : ∀ t ∈ order, CpmApp.LTrec order lt maxD t)
    {res : List (String × SF)} (hinv : BwdInv tasks lt maxD res)
    (hsteps : ∀ t ∈ tasks, bwdStep tasks (res, false) t = (res, false)) :
    ∀ t ∈ tasks, lookupA res t.id = some
      ⟨((lookupA lt t.id).getD ⟨0, 0⟩).latestFinish - t.duration,
       ((lookupA lt t.id).getD ⟨0, 0⟩).latestFinish⟩ := by
  suffices hpos : ∀ n l₁ t l₂, order = l₁ ++ t :: l₂ → l₂.length = n →
      lookupA res t.id = some
        ⟨((lookupA lt t.id).getD ⟨0, 0⟩).latestFinish - t.duration,
         ((lookupA lt t.id).getD ⟨0, 0⟩).latestFinish⟩ by
    intro t ht
    obtain ⟨l₁, l₂, hsplit⟩ := List.append_of_mem (hperm.mem_iff.mpr ht)
    exact hpos l₂.length l₁ t l₂ hsplit rfl
  intro n
  induction n using Nat.strong_induction_on with
  | _ n ih =>
    intro l₁ t l₂ hsplit hlen
    have htmemo : t ∈ order := by
      rw [hsplit]
      exact List.mem_append_right _ (List.mem_cons_self _ _)
    have htmem : t ∈ tasks := hperm.subset htmemo
    obtain ⟨e, he, hsf, hlf, hmax⟩ := hinv.2 t htmem
    have hcur : (lookupA res t.id).getD ⟨0, 0⟩ = e := by rw [he]; rfl
    obtain ⟨rec, hrecl, hrecls, hor⟩ := hlrec t htmemo
    have hgetD : (lookupA lt t.id).getD ⟨0, 0⟩ = rec := by rw [hrecl]; rfl
    rw [hgetD] at hlf
    by_cases hsuc : (tasks.filter (fun s => t.id ∈ s.dependencies)).length > 0
    · have hstep := hsteps t htmem
      have hnupd : ¬ minSuccS res
          (tasks.filter (fun s => t.id ∈ s.dependencies)) <
          ((lookupA res t.id).getD ⟨0, 0⟩).finish := by
        intro hlt2
        rw [bwdStep_pair_eq tasks res false t, if_pos hsuc, if_pos hlt2]
          at hstep
        have hcontr := congrArg Prod.snd hstep
        simp at hcontr
      rw [hcur] at hnupd
      push_neg at hnupd
      rcases hor with ⟨hnodeps, hlfpd⟩ | ⟨hball, u₀, hu₀, hud₀, ru₀, hru₀, heq₀⟩
      · exfalso
        have hne : tasks.filter (fun s => t.id ∈ s.dependencies) ≠ [] := by
          intro hnil
          rw [hnil] at hsuc
          simp at hsuc
        obtain ⟨u₁, hu₁⟩ := List.exists_mem_of_ne_nil _ hne
        simp only [List.mem_filter, decide_eq_true_eq] at hu₁
        exact hnodeps u₁ (hperm.mem_iff.mpr hu₁.1) hu₁.2
      · have hu₀l₂ : u₀ ∈ l₂ := dependent_in_suffix hndo hdf hsplit hu₀ hud₀
        obtain ⟨a, b, hveq⟩ := List.append_of_mem hu₀l₂
        have horder2 : order = (l₁ ++ t :: a) ++ u₀ :: b := by
          rw [hsplit, hveq]
          simp [List.append_assoc]
        have hblen : b.length < n := by
          rw [hveq] at hlen
          simp only [List.length_append, List.length_cons] at hlen
          omega
        have hIH := ih b.length hblen (l₁ ++ t :: a) u₀ b horder2 rfl
        obtain ⟨ru₀', hru₀', hls₀, -⟩ := hlrec u₀ hu₀
        have hre : ru₀' = ru₀ := by
          rw [hru₀] at hru₀'
          injection hru₀' with h
          exact h.symm
        rw [hre] at hls₀
        have hgetDu : (lookupA lt u₀.id).getD ⟨0, 0⟩ = ru₀ := by
          rw [hru₀]
          rfl
        have hu₀f : u₀ ∈ tasks.filter (fun s => t.id ∈ s.dependencies) := by
          simp only [List.mem_filter, decide_eq_true_eq]
          exact ⟨hperm.subset hu₀, hud₀⟩
        have hminle := @minSuccS_le_mem res
          (tasks.filter (fun s => t.id ∈ s.dependencies)) u₀ hu₀f
        have hstartu : ((lookupA res u₀.id).getD ⟨0, 0⟩).start =
            ru₀.latestFinish - u₀.duration := by
          rw [hIH, hgetDu]
          rfl
        rw [hstartu] at hminle
        have h1 : e.finish = rec.latestFinish := by omega
        rw [he, @SF_ext e ⟨((lookupA lt t.id).getD ⟨0, 0⟩).latestFinish -
          t.duration, ((lookupA lt t.id).getD ⟨0, 0⟩).latestFinish⟩
          (by
            show e.start =
              ((lookupA lt t.id).getD ⟨0, 0⟩).latestFinish - t.duration
            rw [hgetD]
            omega)
          (by
            show e.finish = ((lookupA lt t.id).getD ⟨0, 0⟩).latestFinish
            rw [hgetD]
            omega)]
    · rcases hor with ⟨hnodeps, hlfpd⟩ | ⟨hball, u₀, hu₀, hud₀, -⟩
      · rw [he, @SF_ext e ⟨((lookupA lt t.id).getD ⟨0, 0⟩).latestFinish -
          t.duration, ((lookupA lt t.id).getD ⟨0, 0⟩).latestFinish⟩
          (by
            show e.start =
              ((lookupA lt t.id).getD ⟨0, 0⟩).latestFinish - t.duration
            rw [hgetD]
            omega)
          (by
            show e.finish = ((lookupA lt t.id).getD ⟨0, 0⟩).latestFinish
            rw [hgetD]
            omega)]
      · exfalso
        have hmem : u₀ ∈ tasks.filter (fun s => t.id ∈ s.dependencies) := by
          simp only [List.mem_filter, decide_eq_true_eq]
          exact ⟨hperm.subset hu₀, hud₀⟩
        exact hsuc (List.length_pos.mpr (List.ne_nil_of_mem hmem))

theorem initLF_inv {tasks : List Task} {lt : List (String × CpmApp.LTimes)}
    {maxD : Int} (hnd : NodupIds tasks)
    (hlf_le : ∀ u ∈ tasks,
      ((lookupA lt u.id).getD ⟨0, 0⟩).latestFinish ≤ maxD) :
    BwdInv tasks lt maxD (initLF maxD tasks) := by
  have hinit : initLF maxD tasks =
      tasks.map (fun t => (t.id, (⟨maxD - t.duration, maxD⟩ : SF))) := by
    unfold initLF
    rw [foldl_objSet_fn_pairs (fun t => (⟨maxD - t.duration, maxD⟩ : SF))
      tasks [] (fun _ _ => rfl) hnd]
    rfl
  constructor
  · rw [hinit]
    unfold keysA
    rw [List.map_map]
    rfl
  · intro t ht
    refine ⟨⟨maxD - t.duration, maxD⟩, ?_, rfl, hlf_le t ht, le_refl maxD⟩
    rw [hinit]
    exact lookupA_pairs_fn _ hnd ht

/-- With enough fuel `calculateLatestTimes` of the fixed-point pass returns a
table holding exactly the reference latest times of the topological pass
(whatever the sort order of the round). -/
theorem calculateLatestTimes_fix {tasks order : List Task}
    {lt : List (String × CpmApp.LTimes)} {maxD : Int}
    (etF : List (String × SF))
    (hperm : order.Perm tasks) (hndo : NodupIds order) (hdf : DepsFirst order)
    (hlrec : ∀ t ∈ order, CpmApp.LTrec order lt maxD t)
    (hnd : NodupIds tasks)
    (hlf_le : ∀ u ∈ tasks,
      ((lookupA lt u.id).getD ⟨0, 0⟩).latestFinish ≤ maxD)
    (hsafe : maxD ≤ maxSafeInt) :
    ∀ fuel, (sumAcc (fun e => e.finish) tasks (initLF maxD tasks) -
        (tasks.map (fun t =>
          ((lookupA lt t.id).getD ⟨0, 0⟩).latestFinish)).sum).toNat < fuel →
      ∃ ltF, calculateLatestTimes fuel tasks etF maxD = some ltF ∧
        keysA ltF = tasks.map (fun t => t.id) ∧
        ∀ t ∈ tasks, lookupA ltF t.id = some
          ⟨((lookupA lt t.id).getD ⟨0, 0⟩).latestFinish - t.duration,
           ((lookupA lt t.id).getD ⟨0, 0⟩).latestFinish⟩ := by
  intro fuel hfuel
  have hls : ∀ u ∈ tasks, ((lookupA lt u.id).getD ⟨0, 0⟩).latestStart =
      ((lookupA lt u.id).getD ⟨0, 0⟩).latestFinish - u.duration := by
    intro u hu
    obtain ⟨rec, hrl, hrs, -⟩ := hlrec u (hperm.mem_iff.mpr hu)
    have hg : (lookupA lt u.id).getD ⟨0, 0⟩ = rec := by rw [hrl]; rfl
    rw [hg]
    exact hrs
  have hlb : ∀ a ∈ tasks, ∀ s ∈ tasks, a.id ∈ s.dependencies →
      ((lookupA lt a.id).getD ⟨0, 0⟩).latestFinish ≤
        ((lookupA lt s.id).getD ⟨0, 0⟩).latestStart := by
    intro a ha s hs hdep
    obtain ⟨rec, hrl, hrs, hor⟩ := hlrec a (hperm.mem_iff.mpr ha)
    have hga : (lookupA lt a.id).getD ⟨0, 0⟩ = rec := by rw [hrl]; rfl
    rcases hor with ⟨hnodeps, -⟩ | ⟨hball, -⟩
    · exact absurd hdep (hnodeps s (hperm.mem_iff.mpr hs))
    · obtain ⟨rv, hrv, hle⟩ := hball s (hperm.mem_iff.mpr hs) hdep
      have hgs : (lookupA lt s.id).getD ⟨0, 0⟩ = rv := by rw [hrv]; rfl
      rw [hga, hgs]
      exact hle
  have hsub : ∀ t ∈ taskOrder tasks etF, t ∈ tasks := fun t ht =>
    (sortStable_perm _ tasks).subset ht
  obtain ⟨ltF, hloop, hinv, hfix⟩ := bwdLoop_spec hsub hnd hls hlf_le hlb
    hsafe fuel (initLF maxD tasks) (initLF_inv hnd hlf_le) hfuel
  have hsteps : ∀ t ∈ tasks, bwdStep tasks (ltF, false) t = (ltF, false) := by
    intro t ht
    have hmem2 : t ∈ taskOrder tasks etF :=
      (sortStable_perm _ tasks).mem_iff.mpr ht
    exact @foldRelax_fix _ (bwdStep tasks) (BwdInv tasks lt maxD)
      (fun res => - sumAcc (fun e => e.finish) tasks res)
      (fun t => t ∈ tasks)
      (fun p t ht hp => bwdStep_spec hnd hls hlf_le hlb hsafe ht hp)
      (taskOrder tasks etF) hsub (ltF, false) hinv hfix t hmem2
  exact ⟨ltF, hloop, hinv.1, bwdFix_vals hperm hndo hdf hlrec hinv hsteps⟩

end CpmFix

/-- On a table satisfying the backward recurrence no latest finish exceeds
the project duration. -/
theorem lf_le_pd {order : List Task} {lt : List (String × CpmApp.LTimes)}
    {pd : Int} (hnd : NodupIds order) (hdf : DepsFirst order)
    (hdur : NonnegDur order)
    (hlrec : ∀ t ∈ order, CpmApp.LTrec order lt pd t) :
    ∀ n l₁ t l₂, order = l₁ ++ t :: l₂ → l₂.length = n →
      ∀ rec, lookupA lt t.id = some rec → rec.latestFinish ≤ pd := by
  intro n
  induction n using Nat.strong_induction_on with
  | _ n ih =>
    intro l₁ t l₂ hsplit hlen rec hrlook
    have htmem : t ∈ order := by
      rw [hsplit]
      exact List.mem_append_right _ (List.mem_cons_self _ _)
    obtain ⟨rec2, hrec2, hls, hor⟩ := hlrec t htmem
    have hre : rec2 = rec := by
      rw [hrlook] at hrec2
      injection hrec2 with h
      exact h.symm
    subst hre
    rcases hor with ⟨-, hlf⟩ | ⟨-, u, hu, hud, ru, hru, heq⟩
    · exact le_of_eq hlf
    · have hul2 : u ∈ l₂ := dependent_in_suffix hnd hdf hsplit hu hud
      obtain ⟨a, b, haeq⟩ := List.append_of_mem hul2
      have horder : order = (l₁ ++ t :: a) ++ u :: b := by
        rw [hsplit, haeq]
        simp [List.append_assoc]
      have hblt : b.length < n := by
        rw [haeq] at hlen
        simp only [List.length_append, List.length_cons] at hlen
        omega
      have hihu := ih b.length hblt (l₁ ++ t :: a) u b horder rfl ru hru
      obtain ⟨ruu, hruu, hlsu, -⟩ := hlrec u hu
      have hre2 : ruu = ru := by
        rw [hru] at hruu
        injection hruu with h
        exact h.symm
      subst hre2
      have hdu := hdur u hu
      rw [heq, hlsu]
      omega

/-- On a table satisfying the forward recurrence every earliest finish is at
most the total duration of the prefix up to the task. -/
theorem ef_le_sum {order : List Task} {et : List (String × CpmApp.ETimes)}
    (hnd : NodupIds order) (hdf : DepsFirst order) (hdur : NonnegDur order)
    (hrec : ∀ t ∈ order, CpmApp.ETrec et t) :
    ∀ n l₁ t l₂, order = l₁ ++ t :: l₂ → l₁.length = n →
      CpmApp.esOf et t + t.duration ≤
        (l₁.map (fun u => u.duration)).sum + t.duration := by
  intro n
  induction n using Nat.strong_induction_on with
  | _ n ih =>
    intro l₁ t l₂ hsplit hlen
    have hsum_nonneg : 0 ≤ (l₁.map (fun u => u.duration)).sum := by
      refine List.sum_nonneg ?_
      intro x hx
      obtain ⟨u, hu, hux⟩ := List.mem_map.mp hx
      rw [← hux]
      exact hdur u (by rw [hsplit]; exact List.mem_append_left _ hu)
    by_cases hlen0 : t.dependencies.length > 0
    · have hes : CpmApp.esOf et t = CpmApp.maxDepEF t.dependencies et := by
        unfold CpmApp.esOf
        rw [if_pos hlen0]
      rcases CpmApp.maxDepEF_cases et t.dependencies 0 with hzero |
        ⟨d, hd, r, hr, hfold⟩
      · have hz : CpmApp.esOf et t = 0 := by
          rw [hes]
          exact hzero
        omega
      · have hfold2 : CpmApp.maxDepEF t.dependencies et = r.earliestFinish :=
          hfold
        obtain ⟨u, hu, hud⟩ := List.mem_map.mp (hdf l₁ t l₂ hsplit d hd)
        have humem : u ∈ order := by
          rw [hsplit]
          exact List.mem_append_left _ hu
        have hru := hrec u humem
        unfold CpmApp.ETrec at hru
        have hr2 : lookupA et u.id = some r := by
          rw [hud]
          exact hr
        have hre := hr2.symm.trans hru
        injection hre with hre
        have hef : r.earliestFinish = CpmApp.esOf et u + u.duration := by
          rw [hre]
        obtain ⟨a, b, hseq⟩ := List.append_of_mem hu
        have hlt : a.length < n := by
          rw [hseq] at hlen
          simp only [List.length_append, List.length_cons] at hlen
          omega
        have horder : order = a ++ u :: (b ++ t :: l₂) := by
          rw [hsplit, hseq, List.append_assoc, List.cons_append]
        have hihu := ih a.length hlt a u (b ++ t :: l₂) horder rfl
        have hsums : (l₁.map (fun v => v.duration)).sum =
            (a.map (fun v => v.duration)).sum + u.duration +
              (b.map (fun v => v.duration)).sum := by
          rw [hseq]
          simp only [List.map_append, List.map_cons, List.sum_append,
            List.sum_cons]
          ring
        have hbnn : 0 ≤ (b.map (fun v => v.duration)).sum := by
          refine List.sum_nonneg ?_
          intro x hx
          obtain ⟨v, hv, hvx⟩ := List.mem_map.mp hx
          rw [← hvx]
          refine hdur v ?_
          rw [hsplit, hseq]
          exact List.mem_append_left _
            (List.mem_append_right _ (List.mem_cons_of_mem _ hv))
        rw [hes, hfold2, hef]
        omega
    · have hes : CpmApp.esOf et t = 0 := by
        unfold CpmApp.esOf
        rw [if_neg hlen0]
      omega

/-- Every earliest finish is at most the total duration of the collection. -/
theorem ef_le_total {order : List Task} {et : List (String × CpmApp.ETimes)}
    (hnd : NodupIds order) (hdf : DepsFirst order) (hdur : NonnegDur order)
    (hrec : ∀ t ∈ order, CpmApp.ETrec et t) :
    ∀ t ∈ order, CpmApp.esOf et t + t.duration ≤
      (order.map (fun u => u.duration)).sum := by
  intro t ht
  obtain ⟨l₁, l₂, hsplit⟩ := List.append_of_mem ht
  have h := ef_le_sum hnd hdf hdur hrec l₁.length l₁ t l₂ hsplit rfl
  have hsums : (order.map (fun v => v.duration)).sum =
      (l₁.map (fun v => v.duration)).sum + t.duration +
        (l₂.map (fun v => v.duration)).sum := by
    rw [hsplit]
    simp only [List.map_append, List.map_cons, List.sum_append, List.sum_cons]
    ring
  have hl₂nn : 0 ≤ (l₂.map (fun v => v.duration)).sum := by
    refine List.sum_nonneg ?_
    intro x hx
    obtain ⟨u, hu, hux⟩ := List.mem_map.mp hx
    rw [← hux]
    refine hdur u ?_
    rw [hsplit]
    exact List.mem_append_right _ (List.mem_cons_of_mem _ hu)
  omega

/-! ### Totality and field preservation of the cpmCalculator engine -/

namespace CpmCalc

/-- The number of activity ids not yet visited bounds the remaining
recursion depth of `visit`. -/
def freshCountC (acts : List Activity) (vis : List String) : Nat :=
  ((acts.map (fun a => a.id)).filter (fun k => decide (k ∉ vis))).length

theorem filter_not_mem_mono (keys : List String) :
    ∀ {vis vis' : List String}, (∀ v ∈ vis, v ∈ vis') →
      (keys.filter (fun k => decide (k ∉ vis'))).length ≤
        (keys.filter (fun k => decide (k ∉ vis))).length := by
  induction keys with
  | nil => intro vis vis' _; exact le_refl _
  | cons a keys ih =>
    intro vis vis' hsub
    by_cases ha' : a ∈ vis'
    · rw [List.filter_cons_of_neg (by simp [ha'])]
      by_cases ha : a ∈ vis
      · rw [List.filter_cons_of_neg (by simp [ha])]
        exact ih hsub
      · rw [List.filter_cons_of_pos (by simp [ha])]
        simp only [List.length_cons]
        have h2 := ih hsub
        omega
    · have ha : a ∉ vis := fun hm => ha' (hsub a hm)
      rw [List.filter_cons_of_pos (by simp [ha']),
        List.filter_cons_of_pos (by simp [ha])]
      simp only [List.length_cons]
      exact Nat.succ_le_succ (ih hsub)

/-- `visit` only grows the visited set, records the visited id, and pushes
only supplied activities. -/
theorem visitC_mono (acts : List Activity) :
    ∀ (fuel : Nat) (aid : String) (s s' : DfsStateC),
      visitC acts fuel aid s = some s' →
      (∀ v ∈ s.visited, v ∈ s'.visited) ∧ aid ∈ s'.visited ∧
      (∀ b ∈ s'.result, b ∈ s.result ∨ b ∈ acts) := by
  intro fuel
  induction fuel with
  | zero => intro aid s s' h; cases h
  | succ n ih =>
    intro aid s s' h
    simp only [visitC] at h
    by_cases hv : aid ∈ s.visited
    · rw [if_pos hv] at h
      injection h with h
      rw [← h]
      exact ⟨fun v hv2 => hv2, hv, fun b hb => Or.inl hb⟩
    · rw [if_neg hv] at h
      split at h
      case _ hmg =>
        injection h with h
        rw [← h]
        exact ⟨fun v hv2 => List.mem_cons_of_mem _ hv2,
          List.mem_cons_self _ _, fun b hb => Or.inl hb⟩
      case _ a hmg =>
        simp only [Bind.bind, Option.bind] at h
        split at h
        case _ hfold => cases h
        case _ s2 hfold =>
          injection h with h
          have hrel := foldListO_rel
            (fun x y : DfsStateC =>
              (∀ v ∈ x.visited, v ∈ y.visited) ∧
              (∀ b ∈ y.result, b ∈ x.result ∨ b ∈ acts))
            (fun b => ⟨fun v hv2 => hv2, fun b hb => Or.inl hb⟩)
            (fun x y z hxy hyz =>
              ⟨fun v hv2 => hyz.1 v (hxy.1 v hv2),
               fun b hb => (hyz.2 b hb).elim
                 (fun h2 => hxy.2 b h2) Or.inr⟩)
            (fun x c c' hc =>
              ⟨(ih x c c' hc).1, (ih x c c' hc).2.2⟩)
            a.predecessors _ _ hfold
          rw [← h]
          refine ⟨?_, ?_, ?_⟩
          · intro v hv2
            exact hrel.1 v (List.mem_cons_of_mem _ hv2)
          · exact hrel.1 aid (List.mem_cons_self _ _)
          · intro b hb
            rcases List.mem_append.mp hb with hb2 | hb2
            · exact hrel.2 b hb2
            · rw [List.mem_singleton.mp hb2]
              exact Or.inr (mapGet_mem hmg).1

theorem foldListO_isSome_inv {α β : Type} {f : α → β → Option β}
    (P : β → Prop)
    (hstep_some : ∀ x acc, P acc → (f x acc).isSome = true)
    (hstep_pres : ∀ x acc acc', P acc → f x acc = some acc' → P acc') :
    ∀ (xs : List α) (acc : β), P acc →
      (foldListO f xs acc).isSome = true := by
  intro xs
  induction xs with
  | nil => intro acc _; rfl
  | cons x xs ih =>
    intro acc hP
    obtain ⟨acc', hx⟩ := Option.isSome_iff_exists.mp (hstep_some x acc hP)
    have hred : foldListO f (x :: xs) acc = foldListO f xs acc' := by
      simp [foldListO, hx, Option.bind]
    rw [hred]
    exact ih acc' (hstep_pres x acc acc' hP hx)

theorem visitC_isSome (acts : List Activity)
    (hk : (acts.map (fun a => a.id)).Nodup) :
    ∀ (fuel : Nat) (s : DfsStateC) (aid : String),
      freshCountC acts s.visited < fuel →
      (visitC acts fuel aid s).isSome = true := by
  intro fuel
  induction fuel with
  | zero =>
    intro s aid h
    omega
  | succ n ih =>
    intro s aid hm
    simp only [visitC]
    by_cases hv : aid ∈ s.visited
    · rw [if_pos hv]
      rfl
    · rw [if_neg hv]
      cases hmg : mapGet acts aid with
      | none => rfl
      | some a =>
        have haid : aid ∈ acts.map (fun a => a.id) := by
          have hmm := mapGet_mem hmg
          rw [← hmm.2]
          exact List.mem_map.mpr ⟨a, hmm.1, rfl⟩
        have hmeasure : freshCountC acts (aid :: s.visited) < n := by
          have := filter_erase_length hv hk haid
          unfold freshCountC at hm ⊢
          omega
        simp only [Bind.bind, Option.bind]
        have hfold : (foldListO (visitC acts n) a.predecessors
            ⟨aid :: s.visited, s.result⟩).isSome = true := by
          refine foldListO_isSome_inv
            (fun st => freshCountC acts st.visited < n) ?_ ?_
            a.predecessors _ hmeasure
          · intro x acc hP
            exact ih acc x hP
          · intro x acc acc' hP hx
            have hmono := (visitC_mono acts n x acc acc' hx).1
            unfold freshCountC at hP ⊢
            have := filter_not_mem_mono (acts.map (fun a => a.id)) hmono
            omega
        obtain ⟨s2, hs2⟩ := Option.isSome_iff_exists.mp hfold
        rw [hs2]
        rfl

theorem topoGoC_isSome (acts : List Activity)
    (hk : (acts.map (fun a => a.id)).Nodup) (fuel : Nat)
    (hfuel : (acts.map (fun a => a.id)).length < fuel) :
    ∀ (ts : List Activity) (s : DfsStateC),
      (topoGoC acts fuel ts s).isSome = true := by
  intro ts
  induction ts with
  | nil => intro s; rfl
  | cons a ts ih =>
    intro s
    simp only [topoGoC, Bind.bind, Option.bind]
    by_cases hv : a.id ∈ s.visited
    · rw [if_pos hv]
      exact ih s
    · rw [if_neg hv]
      have hmeasure : freshCountC acts s.visited < fuel := by
        unfold freshCountC
        calc ((acts.map (fun a => a.id)).filter
              (fun k => decide (k ∉ s.visited))).length
            ≤ (acts.map (fun a => a.id)).length :=
              List.length_filter_le _ _
          _ < fuel := hfuel
      obtain ⟨s₁, hs₁⟩ := Option.isSome_iff_exists.mp
        (visitC_isSome acts hk fuel s a.id hmeasure)
      rw [hs₁]
      exact ih s₁

theorem topoGoC_result (acts : List Activity) (fuel : Nat) :
    ∀ (ts : List Activity) (s s' : DfsStateC),
      topoGoC acts fuel ts s = some s' →
      ∀ b ∈ s'.result, b ∈ s.result ∨ b ∈ acts := by
  intro ts
  induction ts with
  | nil =>
    intro s s' h
    injection h with h
    rw [← h]
    exact fun b hb => Or.inl hb
  | cons a ts ih =>
    intro s s' h
    simp only [topoGoC, Bind.bind, Option.bind] at h
    by_cases hv : a.id ∈ s.visited
    · rw [if_pos hv] at h
      exact ih s s' h
    · rw [if_neg hv] at h
      cases hvz : visitC acts fuel a.id s with
      | none => rw [hvz] at h; cases h
      | some s₁ =>
        rw [hvz] at h
        intro b hb
        rcases ih s₁ s' h b hb with h1 | h1
        · exact (visitC_mono acts fuel a.id s s₁ hvz).2.2 b h1
        · exact Or.inr h1

/-- `topologicalSort` always returns on unique ids, and its output consists
of supplied activities. -/
theorem topologicalSort_total (acts : List Activity)
    (hk : (acts.map (fun a => a.id)).Nodup) :
    ∃ ordered, topologicalSort acts = some ordered ∧
      ∀ b ∈ ordered, b ∈ acts := by
  have hlen : (acts.map (fun a => a.id)).length < acts.length + 1 := by
    rw [List.length_map]
    omega
  obtain ⟨s, hs⟩ := Option.isSome_iff_exists.mp
    (topoGoC_isSome acts hk (acts.length + 1) hlen acts ⟨[], []⟩)
  refine ⟨s.result, ?_, ?_⟩
  · simp only [topologicalSort, Bind.bind, Option.bind, hs]
  · intro b hb
    rcases topoGoC_result acts (acts.length + 1) acts _ s hs b hb with h | h
    · cases h
    · exact h

/-- The fields of an activity the engine never writes. -/
def CoreEq (a b : Activity) : Prop :=
  b.id = a.id ∧ b.name = a.name ∧ b.duration = a.duration ∧
    b.predecessors = a.predecessors

theorem coreEq_refl (a : Activity) : CoreEq a a := ⟨rfl, rfl, rfl, rfl⟩

theorem coreEq_trans {a b c : Activity} (h1 : CoreEq a b) (h2 : CoreEq b c) :
    CoreEq a c :=
  ⟨h2.1.trans h1.1, h2.2.1.trans h1.2.1, h2.2.2.1.trans h1.2.2.1,
   h2.2.2.2.trans h1.2.2.2⟩

/-- Every record of the store descends from a supplied activity with the
same identity fields. -/
def GoodStore (acts store : List Activity) : Prop :=
  ∀ b ∈ store, ∃ c ∈ acts, CoreEq c b

theorem goodStore_map {acts store : List Activity} {g : Activity → Activity}
    (hg : ∀ a, CoreEq a (g a)) (h : GoodStore acts store) :
    GoodStore acts (store.map g) := by
  intro b hb
  obtain ⟨a, ha, hag⟩ := List.mem_map.mp hb
  obtain ⟨c, hc, hca⟩ := h a ha
  rw [← hag]
  exact ⟨c, hc, coreEq_trans hca (hg a)⟩

theorem goodStore_updAct {acts store : List Activity} {aid : String}
    {f : Activity → Activity} (hf : ∀ a, CoreEq a (f a))
    (h : GoodStore acts store) : GoodStore acts (updAct store aid f) := by
  refine goodStore_map ?_ h
  intro a
  by_cases ha : a.id = aid
  · rw [show (if a.id = aid then f a else a) = f a from if_pos ha]
    exact hf a
  · rw [show (if a.id = aid then f a else a) = a from if_neg ha]
    exact coreEq_refl a

theorem goodStore_fwdStepC {acts store : List Activity} {aid : String}
    (h : GoodStore acts store) : GoodStore acts (fwdStepC store aid) := by
  unfold fwdStepC
  cases hmg : mapGet store aid with
  | none => exact h
  | some a =>
    refine goodStore_updAct ?_ h
    intro x
    exact ⟨rfl, rfl, rfl, rfl⟩

theorem goodStore_foldl {acts : List Activity}
    {g : List Activity → String → List Activity}
    (hg : ∀ store aid, GoodStore acts store → GoodStore acts (g store aid)) :
    ∀ (ids : List String) (store : List Activity), GoodStore acts store →
      GoodStore acts (ids.foldl g store) := by
  intro ids
  induction ids with
  | nil => intro store h; exact h
  | cons i ids ih =>
    intro store h
    exact ih (g store i) (hg store i h)

theorem goodStore_forwardPass {acts store : List Activity}
    (h : GoodStore acts store) : GoodStore acts (forwardPass store) := by
  unfold forwardPass
  refine goodStore_foldl (fun st aid hst => goodStore_fwdStepC hst) _ _ ?_
  refine goodStore_map ?_ h
  intro a
  exact ⟨rfl, rfl, rfl, rfl⟩

theorem goodStore_bwdStepC {acts store : List Activity} {pd : Int}
    {succMap : List (String × List String)} {aid : String}
    (h : GoodStore acts store) :
    GoodStore acts (bwdStepC pd succMap store aid) := by
  unfold bwdStepC
  cases hmg : mapGet store aid with
  | none => exact h
  | some a =>
    refine goodStore_updAct ?_ h
    intro x
    exact ⟨rfl, rfl, rfl, rfl⟩

theorem goodStore_backwardPass {acts store : List Activity}
    (h : GoodStore acts store) : GoodStore acts (backwardPass store).2 := by
  unfold backwardPass
  refine goodStore_foldl (fun st aid hst => goodStore_bwdStepC hst) _ _ ?_
  refine goodStore_map ?_ h
  intro a
  exact ⟨rfl, rfl, rfl, rfl⟩

/-- On unique ids `calculateCPM` succeeds and every record of its final store
descends from an input activity with the same identity fields. -/
theorem calculateCPM_total (p : Project)
    (hnd : (p.activities.map (fun a => a.id)).Nodup) :
    ∃ r, calculateCPM p = some r ∧ GoodStore p.activities r.activities := by
  obtain ⟨ordered, hord, hsub⟩ := topologicalSort_total p.activities hnd
  have hgood : GoodStore p.activities ordered := fun b hb =>
    ⟨b, hsub b hb, coreEq_refl b⟩
  refine ⟨⟨(findCriticalPathC (backwardPass (forwardPass ordered)).2).map
      (fun a => a.id),
      (backwardPass (forwardPass ordered)).1,
      (backwardPass (forwardPass ordered)).2⟩, ?_, ?_⟩
  · simp only [calculateCPM, Bind.bind, Option.bind, hord]
  · exact goodStore_backwardPass (goodStore_forwardPass hgood)

end CpmCalc

/-! ### Divergence of the forward relaxation loop on a positive cycle -/

/-- Shape of every table reachable by the forward relaxation on
`posCycleTasks`: both entries keep `finish = start + 1` and non-negative
starts. -/
def posCycleInv (res : List (String × CpmFix.SF)) : Prop :=
  ∃ x y : Int, 0 ≤ x ∧ 0 ≤ y ∧
    res = [("X", ⟨x, x + 1⟩), ("Y", ⟨y, y + 1⟩)]

theorem posCycle_initEF :
    CpmFix.initEF posCycleTasks = [("X", ⟨0, 1⟩), ("Y", ⟨0, 1⟩)] := by decide

theorem posCycle_inv_init : posCycleInv (CpmFix.initEF posCycleTasks) := by
  rw [posCycle_initEF]
  exact ⟨0, 0, le_refl 0, le_refl 0, rfl⟩

theorem posCycle_round (x y : Int) (hx : 0 ≤ x) (hy : 0 ≤ y) :
    (CpmFix.fwdRound posCycleTasks [("X", ⟨x, x + 1⟩), ("Y", ⟨y, y + 1⟩)]).2 = true ∧
    posCycleInv (CpmFix.fwdRound posCycleTasks [("X", ⟨x, x + 1⟩), ("Y", ⟨y, y + 1⟩)]).1 := by
  simp only [CpmFix.fwdRound, posCycleTasks, List.foldl, CpmFix.fwdStep,
    CpmFix.maxPredFinish, lookupA, updk, List.map]
  split_ifs <;>
    simp_all [posCycleInv, CpmFix.maxPredFinish, lookupA, updk] <;>
    first
      | (exact ⟨y + 1, y + 2, by omega, by omega, by ring_nf⟩)
      | (exact ⟨x, x + 1, by omega, by omega, by ring_nf⟩)
      | omega

theorem posCycle_fwdLoop_none (fuel : Nat) :
    ∀ res, posCycleInv res → CpmFix.fwdLoop posCycleTasks fuel res = none := by
  induction fuel with
  | zero => intro res _; rfl
  | succ n ih =>
    intro res hres
    obtain ⟨x, y, hx, hy, rfl⟩ := hres
    obtain ⟨hch, hinv⟩ := posCycle_round x y hx hy
    simp only [CpmFix.fwdLoop, hch, if_true]
    exact ih _ hinv

/-- C6, counterexample: on the two-task positive-duration cycle the forward
relaxation loop of the fixed-point implementation never reaches a fixed point,
so neither `calculateEarliestTimes` nor `calculateCPM` ever returns — the
engine does not terminate on every input collection. -/
theorem c6_positive_cycle_diverges :
    (¬ ∃ r fuel, CpmFix.calculateEarliestTimes fuel posCycleTasks = some r) ∧
    (¬ ∃ r fuel, CpmFix.calculateCPM fuel posCycleTasks = some r) ∧
    (∀ tasks pid, CpmApp.calculateCPM tasks pid ≠ .error .fuelExhausted) := by
  have h0 : ∀ fuel, CpmFix.calculateEarliestTimes fuel posCycleTasks = none :=
    fun fuel => posCycle_fwdLoop_none fuel _ posCycle_inv_init
  refine ⟨?_, ?_, CpmApp.calculateCPM_no_fuel⟩
  · rintro ⟨r, fuel, h⟩
    rw [h0 fuel] at h
    exact Option.noConfusion h
  · rintro ⟨r, fuel, h⟩
    rw [CpmFix.calculateCPM, h0 fuel] at h
    exact Option.noConfusion h

/-- C2, counterexample: the fixed-point implementation performs no cycle
detection — on the zero-duration two-task cycle its `calculateCPM` returns a
complete schedule rather than failing with `CycleDetected`. -/
theorem c2_fixed_point_misses_cycle :
    (CpmFix.calculateCPM 2 zeroCycleTasks).isSome = true := by decide

/-- A single activity whose scheduling fields carry stale pre-existing
values. -/
def c7Acts : List CpmCalc.Activity :=
  [⟨"t1", "t1", 2, [], 0, 99, 0, 0, 0, false⟩]

/-- C7, counterexample: `calculateCPM` writes the computed schedule into the
input activity records — the pre-existing `earliestFinish = 99` of the input
object is overwritten with `2`, so the input is not left unchanged. -/
theorem c7_input_record_mutated :
    CpmCalc.inputAfterRun ⟨c7Acts⟩ =
      some [⟨"t1", "t1", 2, [], 0, 2, 0, 2, 0, true⟩] ∧ (99 : Int) ≠ 2 := by decide

/-- The six-task scenario with the non-critical task `B` removed; the other
tasks are unchanged, so `D` keeps its stale dependency entry `"B"` — exactly
the operation described by claim C8. -/
def exTasksNoB : List Task := exTasks.filter (fun t => t.id ≠ "B")

/-- C8, code bug: in the scenario, `B` is non-critical (slack `3 > 0`) and
the project duration is `11`; removing `B` while the remaining tasks keep
their dependency entries makes `calculateCPM` throw a `TypeError` (through
the dangling-reference slip of C4) instead of returning the same project
duration. -/
theorem c8_remove_noncritical_crashes :
    (CpmApp.calculateCPM exTasks "").toOption.map
        (fun r => ((lookupA r.taskResults "B").map (fun c => c.slack),
          r.projectDuration)) = some (some 3, (11 : WithBot Int)) ∧
    (0 : Int) < 3 ∧
    CpmApp.calculateCPM exTasksNoB "" = .error .typeError := by
  exact ⟨by decide, by decide, by decide⟩

/-- C7 (amended): the cpmCalculator's `calculateCPM` is not a pure function
of its input — it writes the computed schedule into the input activity
records (see the counterexample above) — but on unique activity ids it
always returns a result, and the identity fields of every input record
survive the run: after `calculateCPM` each input activity keeps its original
`id`, `name`, `duration` and `predecessors`, with only the scheduling fields
overwritten. -/
theorem c7_identity_fields_preserved (p : CpmCalc.Project)
    (hnd : (p.activities.map (fun a => a.id)).Nodup) :
    ∃ r, CpmCalc.calculateCPM p = some r ∧
      CpmCalc.inputAfterRun p = some (p.activities.map
        (fun a => (CpmCalc.mapGet r.activities a.id).getD a)) ∧
      ∀ a ∈ p.activities,
        ((CpmCalc.mapGet r.activities a.id).getD a).id = a.id ∧
        ((CpmCalc.mapGet r.activities a.id).getD a).name = a.name ∧
        ((CpmCalc.mapGet r.activities a.id).getD a).duration = a.duration ∧
        ((CpmCalc.mapGet r.activities a.id).getD a).predecessors =
          a.predecessors := by
  obtain ⟨r, hr, hgood⟩ := CpmCalc.calculateCPM_total p hnd
  refine ⟨r, hr, ?_, ?_⟩
  · unfold CpmCalc.inputAfterRun
    rw [hr]
    rfl
  · intro a ha
    cases hmg : CpmCalc.mapGet r.activities a.id with
    | none => exact ⟨rfl, rfl, rfl, rfl⟩
    | some b =>
      have hbmem := CpmCalc.mapGet_mem hmg
      obtain ⟨c, hc, hcb⟩ := hgood b hbmem.1
      have hca : c = a := by
        refine List.inj_on_of_nodup_map hnd hc ha ?_
        show c.id = a.id
        rw [← hcb.1]
        exact hbmem.2
      simp only [Option.getD_some]
      rw [← hca]
      exact ⟨hcb.1.trans (hca ▸ rfl), hcb.2.1, hcb.2.2.1, hcb.2.2.2⟩

/-- Instantiation of `c7_identity_fields_preserved` on the concrete
single-activity project of the counterexample above, whose ids are unique. -/
theorem c7_identity_fields_preserved_witness :
    (c7Acts.map (fun a => a.id)).Nodup ∧
    ∃ r, CpmCalc.calculateCPM ⟨c7Acts⟩ = some r ∧
      CpmCalc.inputAfterRun ⟨c7Acts⟩ = some (c7Acts.map
        (fun a => (CpmCalc.mapGet r.activities a.id).getD a)) ∧
      ∀ a ∈ c7Acts,
        ((CpmCalc.mapGet r.activities a.id).getD a).id = a.id ∧
        ((CpmCalc.mapGet r.activities a.id).getD a).name = a.name ∧
        ((CpmCalc.mapGet r.activities a.id).getD a).duration = a.duration ∧
        ((CpmCalc.mapGet r.activities a.id).getD a).predecessors =
          a.predecessors :=
  ⟨by decide, c7_identity_fields_preserved ⟨c7Acts⟩ (by decide)⟩

/-- C9: on a non-empty collection satisfying the data-model invariants
(unique ids, resolved dependency references, non-negative durations) whose
graph is acyclic and whose total duration does not exceed
`Number.MAX_SAFE_INTEGER` (the seed of the fixed-point backward pass's
min-fold), the fixed-point implementation of `calculateCPM` terminates for
sufficient iteration fuel and returns exactly the schedule of the
topological implementation: the same earliest/latest starts and finishes,
slack and criticality for every task, the same project duration, and the
same critical-path membership. -/
theorem c9_implementations_agree (tasks : List Task) (pid : String)
    (hne : tasks ≠ []) (hnd : NodupIds tasks) (hap : AllPresent tasks)
    (hdur : NonnegDur tasks) (hnc : ¬ HasCycle tasks)
    (hbound : (tasks.map (fun t => t.duration)).sum ≤ CpmFix.maxSafeInt) :
    ∃ (fuel : Nat) (rF : CpmFix.CPMResults) (rA : CpmApp.ProjectCPMResults),
      CpmFix.calculateCPM fuel tasks = some rF ∧
      CpmApp.calculateCPM tasks pid = .ok rA ∧
      (∀ t ∈ tasks, ∃ cF cA : CPMResult,
        lookupA rF.results t.id = some cF ∧
        lookupA rA.taskResults t.id = some cA ∧
        cF.earliestStart = cA.earliestStart ∧
        cF.earliestFinish = cA.earliestFinish ∧
        cF.latestStart = cA.latestStart ∧
        cF.latestFinish = cA.latestFinish ∧
        cF.slack = cA.slack ∧
        cF.isCritical = cA.isCritical) ∧
      rA.projectDuration = (rF.projectDuration : WithBot Int) ∧
      (∀ s : String, s ∈ rF.criticalPath ↔ s ∈ rA.criticalPath) := by
  obtain ⟨order, et, lt, rA, hokA, hperm, hdf, hndo, hkeys, hrec, hlrec, hpd,
    hres, hcp⟩ := cpmApp_run_lt tasks pid hnd hap hnc
  have hduro : NonnegDur order := fun t ht => hdur t (hperm.subset ht)
  have horder_ne : order ≠ [] := by
    intro h
    rw [h] at hperm
    exact hne hperm.symm.eq_nil
  obtain ⟨M, hM, hMall, s₀, hs₀, hs₀sink, hs₀eq⟩ :=
    max_ef_sink hndo hdf hduro hrec horder_ne
  have hpdM : rA.projectDuration = (M : WithBot Int) := by rw [hpd, hM]
  have hpdInt : rA.projectDuration.unbot' 0 = M := by rw [hpdM]; rfl
  rw [hpdInt] at hlrec
  have hMbound : M ≤ (tasks.map (fun t => t.duration)).sum := by
    have h1 := ef_le_total hndo hdf hduro hrec s₀ hs₀
    have h2 : (order.map (fun u => u.duration)).sum =
        (tasks.map (fun u => u.duration)).sum :=
      (hperm.map (fun u => u.duration)).sum_eq
    omega
  have hsafe : M ≤ CpmFix.maxSafeInt := le_trans hMbound hbound
  have hdepsall : ∀ u ∈ tasks, ∀ d ∈ u.dependencies,
      ∃ v ∈ tasks, v.id = d := by
    intro u hu d hd
    obtain ⟨v, hv, hvid⟩ := List.mem_map.mp (hap u hu d hd)
    exact ⟨v, hv, hvid⟩
  have hlf_le : ∀ u ∈ tasks,
      ((lookupA lt u.id).getD ⟨0, 0⟩).latestFinish ≤ M := by
    intro u hu
    have huo : u ∈ order := hperm.mem_iff.mpr hu
    obtain ⟨l₁, l₂, hsplit⟩ := List.append_of_mem huo
    obtain ⟨rec, hrl, -, -⟩ := hlrec u huo
    have hg : (lookupA lt u.id).getD ⟨0, 0⟩ = rec := by rw [hrl]; rfl
    rw [hg]
    exact lf_le_pd hndo hdf hduro hlrec l₂.length l₁ u l₂ hsplit rfl rec hrl
  obtain ⟨fuel, hfF, hfB⟩ : ∃ fuel : Nat,
      ((tasks.map (fun t => CpmApp.esOf et t)).sum -
        CpmFix.sumAcc (fun e => e.start) tasks
          (CpmFix.initEF tasks)).toNat < fuel ∧
      (CpmFix.sumAcc (fun e => e.finish) tasks (CpmFix.initLF M tasks) -
        (tasks.map (fun t =>
          ((lookupA lt t.id).getD ⟨0, 0⟩).latestFinish)).sum).toNat < fuel :=
    ⟨((tasks.map (fun t => CpmApp.esOf et t)).sum -
        CpmFix.sumAcc (fun e => e.start) tasks
          (CpmFix.initEF tasks)).toNat +
      (CpmFix.sumAcc (fun e => e.finish) tasks (CpmFix.initLF M tasks) -
        (tasks.map (fun t =>
          ((lookupA lt t.id).getD ⟨0, 0⟩).latestFinish)).sum).toNat + 1,
     by omega, by omega⟩
  obtain ⟨etF, hfwd, hkeysF, hlookF⟩ := CpmFix.calculateEarliestTimes_fix
    hperm hndo hdf hrec hnd hdepsall fuel hfF
  obtain ⟨ltF, hbwd, hkeysL, hlookL⟩ := CpmFix.calculateLatestTimes_fix etF
    hperm hndo hdf hlrec hnd hlf_le hsafe fuel hfB
  have hvalsF : etF.map Prod.snd = tasks.map (fun t =>
      (⟨CpmApp.esOf et t, CpmApp.esOf et t + t.duration⟩ : CpmFix.SF)) :=
    table_vals etF tasks _ hkeysF hnd hlookF
  have hmdM : CpmFix.maxDurationOf etF = M := by
    have hstep1 : CpmFix.maxDurationOf etF =
        ((etF.map Prod.snd).map (fun r => r.finish)).foldl
          (fun m x => if x > m then x else m) 0 := by
      unfold CpmFix.maxDurationOf
      conv_rhs => rw [List.foldl_map]
    have hstep2 : (etF.map Prod.snd).map (fun r => r.finish) =
        tasks.map (fun t => CpmApp.esOf et t + t.duration) := by
      rw [hvalsF, List.map_map]
      rfl
    rw [hstep1, hstep2]
    have hle : ∀ x ∈ tasks.map (fun t => CpmApp.esOf et t + t.duration),
        x ≤ M := by
      intro x hx
      obtain ⟨u, hu, hux⟩ := List.mem_map.mp hx
      rw [← hux]
      exact hMall u (hperm.mem_iff.mpr hu)
    have hmem : M ∈ tasks.map (fun t => CpmApp.esOf et t + t.duration) :=
      List.mem_map.mpr ⟨s₀, hperm.subset hs₀, hs₀eq⟩
    have hge := foldIfMaxInt_ge_mem hmem 0
    have hM0 : 0 ≤ M := by
      have h1 := CpmApp.esOf_nonneg et s₀
      have h2 := hduro s₀ hs₀
      omega
    rcases foldIfMaxInt_cases
      (tasks.map (fun t => CpmApp.esOf et t + t.duration)) 0 with hz |
      ⟨x, hx, hfx⟩
    · omega
    · have := hle x hx
      omega
  have hbwd2 : CpmFix.calculateLatestTimes fuel tasks etF
      (CpmFix.maxDurationOf etF) = some ltF := by
    rw [hmdM]
    exact hbwd
  have hkeysFnd : (keysA etF).Nodup := by
    rw [hkeysF]
    exact hnd
  have hslk : ∀ t ∈ tasks, lookupA (CpmFix.calculateSlack etF ltF) t.id =
      some (((lookupA ltF t.id).getD ⟨0, 0⟩).start - CpmApp.esOf et t) := by
    intro t ht
    exact lookupA_foldl_objSet_g
      (fun p => ((lookupA ltF p.1).getD ⟨0, 0⟩).start - p.2.start) etF []
      t.id _ hkeysFnd (hlookF t ht)
  have hslkval : ∀ t ∈ tasks, lookupA (CpmFix.calculateSlack etF ltF) t.id =
      some (((lookupA lt t.id).getD ⟨0, 0⟩).latestFinish - t.duration -
        CpmApp.esOf et t) := by
    intro t ht
    rw [hslk t ht]
    have hl : ((lookupA ltF t.id).getD ⟨0, 0⟩).start =
        ((lookupA lt t.id).getD ⟨0, 0⟩).latestFinish - t.duration := by
      rw [hlookL t ht]
      rfl
    rw [hl]
  have hcp_mem : ∀ s : String,
      s ∈ CpmFix.findCriticalPath tasks (CpmFix.calculateSlack etF ltF) ↔
      ∃ u ∈ tasks, (((lookupA lt u.id).getD ⟨0, 0⟩).latestFinish -
        u.duration - CpmApp.esOf et u = 0) ∧ u.id = s := by
    intro s
    unfold CpmFix.findCriticalPath
    simp only [List.mem_map, List.mem_filter, decide_eq_true_eq]
    constructor
    · rintro ⟨u, ⟨hu, hcrit⟩, huid⟩
      refine ⟨u, hu, ?_, huid⟩
      rw [hslkval u hu] at hcrit
      exact Option.some.inj hcrit
    · rintro ⟨u, hu, hval, huid⟩
      refine ⟨u, ⟨hu, ?_⟩, huid⟩
      rw [hslkval u hu, hval]
  have hkeysnd : (keysA et).Nodup := by
    rw [hkeys]
    exact hndo
  have hlookresA : ∀ t ∈ order,
      lookupA (CpmApp.calculateTaskResults et lt) t.id = some
        ⟨t.id, CpmApp.esOf et t, CpmApp.esOf et t + t.duration,
         ((lookupA lt t.id).getD ⟨0, 0⟩).latestStart,
         ((lookupA lt t.id).getD ⟨0, 0⟩).latestFinish,
         ((lookupA lt t.id).getD ⟨0, 0⟩).latestStart - CpmApp.esOf et t,
         decide (((lookupA lt t.id).getD ⟨0, 0⟩).latestStart -
           CpmApp.esOf et t = 0)⟩ := by
    intro t ht
    have he := hrec t ht
    unfold CpmApp.ETrec at he
    have h2 := @CpmApp.calculateTaskResults_lookup et lt t.id _ hkeysnd he
    rw [@CpmApp.calculateSlack_lookup et lt t.id _ hkeysnd he] at h2
    exact h2
  have hvalsA : (CpmApp.calculateTaskResults et lt).map Prod.snd =
      order.map (fun t =>
        (⟨t.id, CpmApp.esOf et t, CpmApp.esOf et t + t.duration,
         ((lookupA lt t.id).getD ⟨0, 0⟩).latestStart,
         ((lookupA lt t.id).getD ⟨0, 0⟩).latestFinish,
         ((lookupA lt t.id).getD ⟨0, 0⟩).latestStart - CpmApp.esOf et t,
         decide (((lookupA lt t.id).getD ⟨0, 0⟩).latestStart -
           CpmApp.esOf et t = 0)⟩ : CPMResult)) :=
    table_vals _ order _
      (by rw [CpmApp.keysA_calculateTaskResults et lt hkeysnd]; exact hkeys)
      hndo hlookresA
  have hlsA : ∀ t ∈ order, ((lookupA lt t.id).getD ⟨0, 0⟩).latestStart =
      ((lookupA lt t.id).getD ⟨0, 0⟩).latestFinish - t.duration := by
    intro t ht
    obtain ⟨rec, hrl, hrs, -⟩ := hlrec t ht
    have hg : (lookupA lt t.id).getD ⟨0, 0⟩ = rec := by rw [hrl]; rfl
    rw [hg]
    exact hrs
  have hresF : ∀ t ∈ tasks,
      lookupA (tasks.foldl (fun acc u => objSet acc u.id
        (⟨u.id, ((lookupA etF u.id).getD ⟨0, 0⟩).start,
          ((lookupA etF u.id).getD ⟨0, 0⟩).finish,
          ((lookupA ltF u.id).getD ⟨0, 0⟩).start,
          ((lookupA ltF u.id).getD ⟨0, 0⟩).finish,
          (lookupA (CpmFix.calculateSlack etF ltF) u.id).getD 0,
          decide (u.id ∈ CpmFix.findCriticalPath tasks
            (CpmFix.calculateSlack etF ltF))⟩ : CPMResult)) []) t.id =
      some ⟨t.id, ((lookupA etF t.id).getD ⟨0, 0⟩).start,
        ((lookupA etF t.id).getD ⟨0, 0⟩).finish,
        ((lookupA ltF t.id).getD ⟨0, 0⟩).start,
        ((lookupA ltF t.id).getD ⟨0, 0⟩).finish,
        (lookupA (CpmFix.calculateSlack etF ltF) t.id).getD 0,
        decide (t.id ∈ CpmFix.findCriticalPath tasks
          (CpmFix.calculateSlack etF ltF))⟩ := by
    intro t ht
    rw [foldl_objSet_fn_pairs (fun u =>
        (⟨u.id, ((lookupA etF u.id).getD ⟨0, 0⟩).start,
          ((lookupA etF u.id).getD ⟨0, 0⟩).finish,
          ((lookupA ltF u.id).getD ⟨0, 0⟩).start,
          ((lookupA ltF u.id).getD ⟨0, 0⟩).finish,
          (lookupA (CpmFix.calculateSlack etF ltF) u.id).getD 0,
          decide (u.id ∈ CpmFix.findCriticalPath tasks
            (CpmFix.calculateSlack etF ltF))⟩ : CPMResult)) tasks []
      (fun _ _ => rfl) hnd]
    exact lookupA_pairs_fn _ hnd ht
  have hrun : CpmFix.calculateCPM fuel tasks = some
      ⟨tasks.foldl (fun acc u => objSet acc u.id
        (⟨u.id, ((lookupA etF u.id).getD ⟨0, 0⟩).start,
          ((lookupA etF u.id).getD ⟨0, 0⟩).finish,
          ((lookupA ltF u.id).getD ⟨0, 0⟩).start,
          ((lookupA ltF u.id).getD ⟨0, 0⟩).finish,
          (lookupA (CpmFix.calculateSlack etF ltF) u.id).getD 0,
          decide (u.id ∈ CpmFix.findCriticalPath tasks
            (CpmFix.calculateSlack etF ltF))⟩ : CPMResult)) [],
       CpmFix.findCriticalPath tasks (CpmFix.calculateSlack etF ltF),
       CpmFix.maxDurationOf etF⟩ := by
    simp only [CpmFix.calculateCPM, Bind.bind, Option.bind, hfwd, hbwd2]
  refine ⟨fuel, _, rA, hrun, hokA, ?_, ?_, ?_⟩
  · intro t ht
    have hto : t ∈ order := hperm.mem_iff.mpr ht
    have hE : ((lookupA etF t.id).getD ⟨0, 0⟩).start = CpmApp.esOf et t := by
      rw [hlookF t ht]
      rfl
    have hEF : ((lookupA etF t.id).getD ⟨0, 0⟩).finish =
        CpmApp.esOf et t + t.duration := by
      rw [hlookF t ht]
      rfl
    have hLS : ((lookupA ltF t.id).getD ⟨0, 0⟩).start =
        ((lookupA lt t.id).getD ⟨0, 0⟩).latestFinish - t.duration := by
      rw [hlookL t ht]
      rfl
    have hLF : ((lookupA ltF t.id).getD ⟨0, 0⟩).finish =
        ((lookupA lt t.id).getD ⟨0, 0⟩).latestFinish := by
      rw [hlookL t ht]
      rfl
    have hSl : (lookupA (CpmFix.calculateSlack etF ltF) t.id).getD 0 =
        ((lookupA lt t.id).getD ⟨0, 0⟩).latestFinish - t.duration -
          CpmApp.esOf et t := by
      rw [hslkval t ht]
      rfl
    have hACrit : (t.id ∈ CpmFix.findCriticalPath tasks
        (CpmFix.calculateSlack etF ltF)) ↔
        (((lookupA lt t.id).getD ⟨0, 0⟩).latestStart -
          CpmApp.esOf et t = 0) := by
      rw [hcp_mem t.id, hlsA t hto]
      constructor
      · rintro ⟨u, hu, hval, huid⟩
        have hut : u = t := List.inj_on_of_nodup_map hnd hu ht huid
        rw [hut] at hval
        exact hval
      · intro hval
        exact ⟨t, ht, hval, rfl⟩
    refine ⟨_, ⟨t.id, CpmApp.esOf et t, CpmApp.esOf et t + t.duration,
        ((lookupA lt t.id).getD ⟨0, 0⟩).latestStart,
        ((lookupA lt t.id).getD ⟨0, 0⟩).latestFinish,
        ((lookupA lt t.id).getD ⟨0, 0⟩).latestStart - CpmApp.esOf et t,
        decide (((lookupA lt t.id).getD ⟨0, 0⟩).latestStart -
          CpmApp.esOf et t = 0)⟩,
      hresF t ht, ?_, ?_, ?_, ?_, ?_, ?_, ?_⟩
    · rw [hres]
      exact hlookresA t hto
    · exact hE
    · exact hEF
    · rw [hLS, hlsA t hto]
    · exact hLF
    · rw [hSl, hlsA t hto]
    · exact decide_eq_decide.mpr hACrit
  · show rA.projectDuration = ((CpmFix.maxDurationOf etF : Int) : WithBot Int)
    rw [hmdM, hpdM]
  · intro s
    show s ∈ CpmFix.findCriticalPath tasks (CpmFix.calculateSlack etF ltF) ↔
      s ∈ rA.criticalPath
    rw [hcp]
    have hA_mem : s ∈ CpmApp.findCriticalPath
        (CpmApp.calculateTaskResults et lt) ↔
        ∃ u ∈ order, (((lookupA lt u.id).getD ⟨0, 0⟩).latestStart -
          CpmApp.esOf et u = 0) ∧ u.id = s := by
      unfold CpmApp.findCriticalPath
      rw [hvalsA]
      simp only [List.mem_map, List.mem_filter, decide_eq_true_eq]
      constructor
      · rintro ⟨c, ⟨⟨u, hu, hcu⟩, hcrit⟩, hcid⟩
        rw [← hcu] at hcrit hcid
        exact ⟨u, hu, of_decide_eq_true hcrit, hcid⟩
      · rintro ⟨u, hu, hval, huid⟩
        exact ⟨_, ⟨⟨u, hu, rfl⟩, decide_eq_true hval⟩, huid⟩
    rw [hcp_mem s, hA_mem]
    constructor
    · rintro ⟨u, hu, hval, huid⟩
      have huo : u ∈ order := hperm.mem_iff.mpr hu
      refine ⟨u, huo, ?_, huid⟩
      rw [hlsA u huo]
      exact hval
    · rintro ⟨u, hu, hval, huid⟩
      refine ⟨u, hperm.subset hu, ?_, huid⟩
      rw [hlsA u hu] at hval
      exact hval

/-- Instantiation of `c9_implementations_agree` on the six-task scenario. -/
theorem c9_implementations_agree_witness :
    exTasks ≠ [] ∧ NodupIds exTasks ∧ AllPresent exTasks ∧
    NonnegDur exTasks ∧ ¬ HasCycle exTasks ∧
    (exTasks.map (fun t => t.duration)).sum ≤ CpmFix.maxSafeInt ∧
    ∃ (fuel : Nat) (rF : CpmFix.CPMResults) (rA : CpmApp.ProjectCPMResults),
      CpmFix.calculateCPM fuel exTasks = some rF ∧
      CpmApp.calculateCPM exTasks "" = .ok rA ∧
      (∀ t ∈ exTasks, ∃ cF cA : CPMResult,
        lookupA rF.results t.id = some cF ∧
        lookupA rA.taskResults t.id = some cA ∧
        cF.earliestStart = cA.earliestStart ∧
        cF.earliestFinish = cA.earliestFinish ∧
        cF.latestStart = cA.latestStart ∧
        cF.latestFinish = cA.latestFinish ∧
        cF.slack = cA.slack ∧
        cF.isCritical = cA.isCritical) ∧
      rA.projectDuration = (rF.projectDuration : WithBot Int) ∧
      (∀ s : String, s ∈ rF.criticalPath ↔ s ∈ rA.criticalPath) :=
  ⟨by decide, by decide, by decide, by decide,
    no_cycle_of_isOk (by decide) (by decide), by decide,
    c9_implementations_agree exTasks "" (by decide) (by decide) (by decide)
      (by decide) (no_cycle_of_isOk (by decide) (by decide)) (by decide)⟩

section Scratch

example : (CpmApp.calculateCPM exTasks "").isOk = true := by decide

example :
    (CpmApp.calculateCPM exTasks "").toOption.map (fun r => r.projectDuration) =
      some (11 : WithBot Int) := by decide

example :
    (CpmApp.calculateCPM exTasks "").toOption.map (fun r => r.criticalPath) =
      some ["A", "C", "E", "F"] := by decide

example :
    (CpmFix.calculateCPM 10 exTasks).map (fun r => r.projectDuration) =
      some 11 := by decide

example :
    (CpmFix.calculateCPM 10 exTasks).map (fun r => r.criticalPath) =
      some ["A", "C", "E", "F"] := by decide

example :
    (CpmFix.calculateCPM 10 exTasks).map
        (fun r => (lookupA r.results "B").map (fun c => c.slack)) =
      some (some 3) := by decide

example :
    (CpmFix.calculateCPM 10 exTasks).map
        (fun r => (lookupA r.results "D").map (fun c => c.slack)) =
      some (some 1) := by decide

def exActs : List CpmCalc.Activity :=
  exTasks.map (fun t => ⟨t.id, t.name, t.duration, t.dependencies, 0, 0, 0, 0, 0, false⟩)

example :
    (CpmCalc.calculateCPM ⟨exActs⟩).map (fun r => (r.projectDuration, r.criticalPath)) =
      some ((11 : WithBot Int), ["A", "C", "E", "F"]) := by decide

example :
    (CpmCalc.findAllPaths 10 ⟨exActs⟩).map
        (fun ps => ps.map (fun p => p.map (fun a => a.id))) =
      some [["A", "B", "D", "F"], ["A", "C", "D", "F"], ["A", "C", "E", "F"]] := by
  decide

end Scratch

end CPM
